import Mathlib

/-!
# Augmented tree map (treap) of `dnkywin_augmented_treemap.h`

The container is a pointer structure: every node carries `left`, `right` and
`parent` pointers.  The embedding keeps that structure.  Memory is a map from
addresses to node cells, a pointer is `Option Nat` (`none` is the null pointer),
and every member function of the class is a function on memory written in the
monad `Exec`, whose failures are the executions without a defined result in
the source (a null or dangling pointer dereferenced, the end of `get` reached
without a `return`, a remainder without a defined value in the functor of the
test program) and the loops that ran out of fuel.

* `__comp` is the strict order `<` of a linearly ordered key type.
* `__aug` is the parameter `aug`; `__id` is the field `id` of the container.
* The random priority drawn by the node constructor is the parameter `prio`
  of `set`, so that the theorems hold for every outcome of `rand()`.
* `__tsize` is a natural number: the counter cannot wrap, because a container
  never holds more nodes than there are addresses.
* `new` hands out the address `brk` and advances it; `delete` clears the cell.
-/

namespace AugTreemap

/-- A node pointer `_Treap_Node*`; `none` is the null pointer. -/
abbrev Ptr := Option Nat

/-- The struct `_Treap_Node`.  The member `value` is the pair (key, item); the
separate member `key` of the source is never read and is left out. -/
structure TreapNode (K V : Type) where
  left : Ptr
  right : Ptr
  parent : Ptr
  value : K × V
  augment : V
  priority : Nat

/-- Memory: the cell stored at each address, if the address is allocated. -/
abbrev Mem (K V : Type) := Nat → Option (TreapNode K V)

/-- The container `augmented_treemap`: its memory and the members `__root`,
`__id`, `__tsize`; `brk` is the next address `new` will return. -/
structure Treemap (K V : Type) where
  mem : Mem K V
  brk : Nat
  root : Ptr
  id : V
  tsize : Nat

/-- Why an execution yields no result. -/
inductive Fault
  /-- A null pointer, or a pointer to a released node, was dereferenced. -/
  | badPointer
  /-- Control reached the end of a value-returning function without `return`. -/
  | missingReturn
  /-- The bound on the number of loop iterations or recursive calls was hit. -/
  | outOfFuel
  /-- An arithmetic expression without a defined value was evaluated: a
  division or remainder by zero, or one whose quotient is not representable. -/
  | undefinedArithmetic
  deriving DecidableEq, Repr

/-- Executions: a result, or the reason there is none. -/
abbrev Exec := Except Fault

section Memory

variable {K V : Type}

/-- Store cell `n` at address `a`. -/
def Mem.write (m : Mem K V) (a : Nat) (n : TreapNode K V) : Mem K V :=
  fun b => if b = a then some n else m b

/-- Release address `a` (`delete`). -/
def Mem.free (m : Mem K V) (a : Nat) : Mem K V :=
  fun b => if b = a then none else m b

/-- Read the node at address `a` (the dereference `*a` of a non-null pointer). -/
def load (m : Mem K V) (a : Nat) : Exec (TreapNode K V) :=
  match m a with
  | some n => pure n
  | none => throw Fault.badPointer

/-- The address held by a pointer that is about to be dereferenced. -/
def deref (p : Ptr) : Exec Nat :=
  match p with
  | some a => pure a
  | none => throw Fault.badPointer

/-- The assignment `a->left = p`. -/
def setLeft (m : Mem K V) (a : Nat) (p : Ptr) : Exec (Mem K V) := do
  let n ← load m a
  pure (m.write a { n with left := p })

/-- The assignment `a->right = p`. -/
def setRight (m : Mem K V) (a : Nat) (p : Ptr) : Exec (Mem K V) := do
  let n ← load m a
  pure (m.write a { n with right := p })

/-- The assignment `a->parent = p`. -/
def setParent (m : Mem K V) (a : Nat) (p : Ptr) : Exec (Mem K V) := do
  let n ← load m a
  pure (m.write a { n with parent := p })

/-- The assignment `a->augment = g`. -/
def setAugment (m : Mem K V) (a : Nat) (g : V) : Exec (Mem K V) := do
  let n ← load m a
  pure (m.write a { n with augment := g })

/-- The assignment `a->value.second = v`. -/
def setItem (m : Mem K V) (a : Nat) (v : V) : Exec (Mem K V) := do
  let n ← load m a
  pure (m.write a { n with value := (n.value.1, v) })

end Memory

section Private

variable {K V : Type} [LinearOrder K]

/-- Source `update_node`: recompute the cached augment of `node` from its item
and the cached augments of the children that exist. -/
def update_node (aug : V → V → V) (m : Mem K V) (node : Nat) : Exec (Mem K V) := do
  let m ← setAugment m node (← load m node).value.2
  let m ← match (← load m node).left with
    | some l => setAugment m node (aug (← load m l).augment (← load m node).augment)
    | none => pure m
  let m ← match (← load m node).right with
    | some r => setAugment m node (aug (← load m node).augment (← load m r).augment)
    | none => pure m
  pure m

/-- Source `update_ancestors`: `while (node->parent) { node = node->parent;
update_node(node); }`. -/
def update_ancestors (aug : V → V → V) : Nat → Mem K V → Nat → Exec (Mem K V)
  | 0, _, _ => throw Fault.outOfFuel
  | fuel + 1, m, node => do
    match (← load m node).parent with
    | none => pure m
    | some p =>
      let m ← update_node aug m p
      update_ancestors aug fuel m p

/-- Source `copy_attr`: `node2->augment = node1->augment`. -/
def copy_attr (m : Mem K V) (node1 node2 : Nat) : Exec (Mem K V) := do
  setAugment m node2 (← load m node1).augment

/-- Source `merge`, returning the new memory and the root of the merged
subtree. -/
def merge (aug : V → V → V) : Nat → Mem K V → Ptr → Ptr → Exec (Mem K V × Ptr)
  | 0, _, _, _ => throw Fault.outOfFuel
  | fuel + 1, m, node1, node2 =>
    match node1, node2 with
    | none, _ => pure (m, node2)
    | some _, none => pure (m, node1)
    | some a, some b => do
      if (← load m a).priority > (← load m b).priority then
        let (m, r) ← merge aug fuel m (← load m a).right (some b)
        let m ← setRight m a r
        let m ← setParent m (← deref (← load m a).right) (some a)
        let m ← update_node aug m a
        pure (m, some a)
      else
        let (m, l) ← merge aug fuel m (some a) (← load m b).left
        let m ← setLeft m b l
        let m ← setParent m (← deref (← load m b).left) (some b)
        let m ← update_node aug m b
        pure (m, some b)

/-- The statement `if (node->parent == 0) __root = x; else if
(node->parent->left == node) node->parent->left = x; else
node->parent->right = x;` of `rotate_left`, `rotate_right` and `erase_node`. -/
def relink (m : Mem K V) (root : Ptr) (node : Nat) (x : Ptr) : Exec (Mem K V × Ptr) := do
  match (← load m node).parent with
  | none => pure (m, x)
  | some p =>
    if (← load m p).left = some node then pure (← setLeft m p x, root)
    else pure (← setRight m p x, root)

/-- Source `rotate_left`, on the memory and `__root`. -/
def rotate_left (aug : V → V → V) (m : Mem K V) (root : Ptr) (node : Nat) :
    Exec (Mem K V × Ptr) := do
  let m ← setParent m (← deref (← load m node).right) (← load m node).parent
  let (m, root) ← relink m root node (← load m node).right
  let m ← setParent m node (← load m node).right
  let m ← setRight m node (← load m (← deref (← load m node).right)).left
  let m ← setLeft m (← deref (← load m node).parent) (some node)
  let m ← match (← load m node).right with
    | some x => setParent m x (some node)
    | none => pure m
  let m ← copy_attr m node (← deref (← load m node).parent)
  let m ← update_node aug m node
  pure (m, root)

/-- Source `rotate_right`, on the memory and `__root`. -/
def rotate_right (aug : V → V → V) (m : Mem K V) (root : Ptr) (node : Nat) :
    Exec (Mem K V × Ptr) := do
  let m ← setParent m (← deref (← load m node).left) (← load m node).parent
  let (m, root) ← relink m root node (← load m node).left
  let m ← setParent m node (← load m node).left
  let m ← setLeft m node (← load m (← deref (← load m node).left)).right
  let m ← setRight m (← deref (← load m node).parent) (some node)
  let m ← match (← load m node).left with
    | some x => setParent m x (some node)
    | none => pure m
  let m ← copy_attr m node (← deref (← load m node).parent)
  let m ← update_node aug m node
  pure (m, root)

/-- The loop of source `find_node`, started at `node`. -/
def find_loop : Nat → Mem K V → Ptr → K → Exec Ptr
  | 0, _, _, _ => throw Fault.outOfFuel
  | _ + 1, _, none, _ => pure none
  | fuel + 1, m, some a, key => do
    let n ← load m a
    if key < n.value.1 then find_loop fuel m n.left key
    else if n.value.1 < key then find_loop fuel m n.right key
    else pure (some a)

/-- Source `find_node`. -/
def find_node (s : Treemap K V) (key : K) : Exec Ptr :=
  find_loop (s.brk + 1) s.mem s.root key

/-- Source `erase_node`. -/
def erase_node (aug : V → V → V) (s : Treemap K V) (node : Ptr) : Exec (Treemap K V) :=
  match node with
  | none => pure s
  | some a => do
    let (m, rep_node) ←
      merge aug (s.brk + 1) s.mem (← load s.mem a).left (← load s.mem a).right
    let m ← match rep_node with
      | some r => setParent m r (← load m a).parent
      | none => pure m
    let (m, root) ← relink m s.root a rep_node
    let m ← update_ancestors aug (s.brk + 1) m a
    pure { s with mem := m.free a, root := root, tsize := s.tsize - 1 }

/-- The loop `while (node->left) node = node->left;`. -/
def leftmost : Nat → Mem K V → Nat → Exec Nat
  | 0, _, _ => throw Fault.outOfFuel
  | fuel + 1, m, node => do
    match (← load m node).left with
    | some l => leftmost fuel m l
    | none => pure node

/-- Source `minimum_node`. -/
def minimum_node (fuel : Nat) (m : Mem K V) (node : Ptr) : Exec Ptr :=
  match node with
  | none => pure none
  | some a => do pure (some (← leftmost fuel m a))

/-- The loop `while (node->parent && node->parent->right == node) node =
node->parent;` followed by `node->parent`. -/
def climb : Nat → Mem K V → Nat → Exec Ptr
  | 0, _, _ => throw Fault.outOfFuel
  | fuel + 1, m, node => do
    match (← load m node).parent with
    | none => pure none
    | some p => if (← load m p).right = some node then climb fuel m p else pure (some p)

/-- Source `successor`, which is also the body of `iterator::operator++`. -/
def successor (fuel : Nat) (m : Mem K V) (node : Nat) : Exec Ptr := do
  match (← load m node).right with
  | some r => minimum_node fuel m (some r)
  | none => climb fuel m node

/-- Source `node_query_left`. -/
def node_query_left (aug : V → V → V) (id : V) : Nat → Mem K V → Ptr → K → Exec V
  | 0, _, _, _ => throw Fault.outOfFuel
  | _ + 1, _, none, _ => pure id
  | fuel + 1, m, some a, key_low => do
    let n ← load m a
    if n.value.1 < key_low then node_query_left aug id fuel m n.right key_low
    else
      let ans := aug (← node_query_left aug id fuel m n.left key_low) n.value.2
      match n.right with
      | some r => pure (aug ans (← load m r).augment)
      | none => pure ans

/-- Source `node_query_right`. -/
def node_query_right (aug : V → V → V) (id : V) : Nat → Mem K V → Ptr → K → Exec V
  | 0, _, _, _ => throw Fault.outOfFuel
  | _ + 1, _, none, _ => pure id
  | fuel + 1, m, some a, key_high => do
    let n ← load m a
    if key_high < n.value.1 then node_query_right aug id fuel m n.left key_high
    else
      let ans := aug n.value.2 (← node_query_right aug id fuel m n.right key_high)
      match n.left with
      | some l => pure (aug (← load m l).augment ans)
      | none => pure ans

/-- Source `node_query`. -/
def node_query (aug : V → V → V) (id : V) : Nat → Mem K V → Ptr → K → K → Exec V
  | 0, _, _, _, _ => throw Fault.outOfFuel
  | _ + 1, _, none, _, _ => pure id
  | fuel + 1, m, some a, key_low, key_high => do
    let n ← load m a
    if key_high < n.value.1 then node_query aug id fuel m n.left key_low key_high
    else if n.value.1 < key_low then node_query aug id fuel m n.right key_low key_high
    else
      pure (aug (aug (← node_query_left aug id fuel m n.left key_low) n.value.2)
        (← node_query_right aug id fuel m n.right key_high))

end Private

section Public

variable {K V : Type} [LinearOrder K]

/-- The constructor `augmented_treemap(_id)`: no node, size zero. -/
def empty (id : V) : Treemap K V :=
  { mem := fun _ => none, brk := 0, root := none, id := id, tsize := 0 }

/-- The search loop at the head of source `set`.  It returns the variables
`node` and `par` at the point where the loop is left: `node` is null when the
key is absent, and is the node holding the key otherwise. -/
def set_search : Nat → Mem K V → Ptr → Ptr → K → Exec (Ptr × Ptr)
  | 0, _, _, _, _ => throw Fault.outOfFuel
  | _ + 1, _, none, par, _ => pure (none, par)
  | fuel + 1, m, some a, _, key => do
    let n ← load m a
    if key < n.value.1 then set_search fuel m n.left (some a) key
    else if n.value.1 < key then set_search fuel m n.right (some a) key
    else pure (some a, some a)

/-- The rotation loop of source `set`: `while (node->parent &&
node->parent->priority < node->priority)` rotate the parent. -/
def set_rotate (aug : V → V → V) : Nat → Mem K V → Ptr → Nat → Exec (Mem K V × Ptr)
  | 0, _, _, _ => throw Fault.outOfFuel
  | fuel + 1, m, root, node => do
    match (← load m node).parent with
    | none => pure (m, root)
    | some p =>
      if (← load m p).priority < (← load m node).priority then
        let (m, root) ←
          if (← load m p).left = some node then rotate_right aug m root p
          else rotate_left aug m root p
        set_rotate aug fuel m root node
      else pure (m, root)

/-- Source `set`; `prio` is the priority the node constructor draws. -/
def set (aug : V → V → V) (s : Treemap K V) (key : K) (item : V) (prio : Nat) :
    Exec (Treemap K V) := do
  let (node, par) ← set_search (s.brk + 1) s.mem s.root none key
  match node with
  | some a =>
    let m ← setItem s.mem a item
    let m ← update_node aug m a
    let m ← update_ancestors aug (s.brk + 1) m a
    pure { s with mem := m }
  | none =>
    let a := s.brk
    let m := s.mem.write a
      { left := none, right := none, parent := none, value := (key, item),
        augment := item, priority := prio }
    let m ← setParent m a par
    let (m, root) ← match par with
      | none => pure (m, some a)
      | some p =>
        if key < (← load m p).value.1 then pure (← setLeft m p (some a), s.root)
        else pure (← setRight m p (some a), s.root)
    let m ← update_ancestors aug (s.brk + 2) m a
    let (m, root) ← set_rotate aug (s.brk + 2) m root a
    let root := if (← load m a).parent = none then some a else root
    pure { s with mem := m, brk := s.brk + 1, root := root, tsize := s.tsize + 1 }

/-- Source `get`: `if (node) return node->value.second;` and nothing after
it. -/
def get (s : Treemap K V) (key : K) : Exec V := do
  match (← find_node s key) with
  | some a => pure (← load s.mem a).value.2
  | none => throw Fault.missingReturn

/-- Source `erase`. -/
def erase (aug : V → V → V) (s : Treemap K V) (key : K) : Exec (Treemap K V) := do
  erase_node aug s (← find_node s key)

/-- Source `query`. -/
def query (aug : V → V → V) (s : Treemap K V) (key_low key_high : K) : Exec V :=
  node_query aug s.id (s.brk + 1) s.mem s.root key_low key_high

/-- Source `size`. -/
def size (s : Treemap K V) : Nat := s.tsize

/-- Source `begin`: the node pointer of the iterator. -/
def begin (s : Treemap K V) : Exec Ptr := minimum_node (s.brk + 1) s.mem s.root

/-- Source `end`: the iterator holding the null pointer. -/
def end_ (_s : Treemap K V) : Ptr := none

/-- Source `find`: the node pointer of the iterator. -/
def find (s : Treemap K V) (key : K) : Exec Ptr := find_node s key

/-- Modelled from the spec: the loop of `lower_bound`, which the test program
calls and the header does not define.  The spec (section 4.4) has it "descend
comparing `x` against each node's key, remembering the best (lowest) candidate
satisfying the predicate seen so far, recursing toward a tighter candidate";
the predicate of `lower_bound` is "key ≥ x", that is, not `key < x`. -/
def lower_bound_loop : Nat → Mem K V → Ptr → Ptr → K → Exec Ptr
  | 0, _, _, _, _ => throw Fault.outOfFuel
  | _ + 1, _, none, best, _ => pure best
  | fuel + 1, m, some a, best, x => do
    let n ← load m a
    if n.value.1 < x then lower_bound_loop fuel m n.right best x
    else lower_bound_loop fuel m n.left (some a) x

/-- Modelled from the spec: `lower_bound(x)`, the node pointer of the iterator
it returns; it "returns the sentinel if no key qualifies", the sentinel being
`end()`, the null pointer. -/
def lower_bound (s : Treemap K V) (x : K) : Exec Ptr :=
  lower_bound_loop (s.brk + 1) s.mem s.root none x

/-- Source `iterator::operator++`. -/
def iterator_incr (s : Treemap K V) (node : Nat) : Exec Ptr :=
  successor (s.brk + 1) s.mem node

/-- Source `iterator::operator*`: the pair stored in the node. -/
def iterator_deref (s : Treemap K V) (node : Nat) : Exec (K × V) := do
  pure (← load s.mem node).value

/-- The loop `for (it = begin(); it != end(); ++it)` of the test program,
collecting `*it` at every step. -/
def traverse_from (s : Treemap K V) : Nat → Ptr → Exec (List (K × V))
  | 0, _ => throw Fault.outOfFuel
  | _ + 1, none => pure []
  | fuel + 1, some a => do
    let kv ← iterator_deref s a
    let rest ← traverse_from s fuel (← iterator_incr s a)
    pure (kv :: rest)

/-- The whole traversal, from `begin()`. -/
def traverse (s : Treemap K V) : Exec (List (K × V)) := do
  traverse_from s (s.brk + 1) (← begin s)

end Public

/-!
## The combiner of the test program

The test program instantiates its functor `gcd` at `int`, a 32-bit integer in
two's complement.  An item of its map is modelled by a value of `Exec Int`:
`pure v` for the integer `v`, and an error once an expression without a
defined value has been evaluated to compute it.
-/

section TestProgram

/-- The least value of type `int`. -/
def INT_MIN : Int := -2147483648

/-- The expression `a % b` on `int`: the remainder of the division that
truncates the quotient toward zero (`Int.tmod`).  It has no defined value when
`b` is zero, nor when the quotient `a / b` is not representable, which is the
case of `INT_MIN % -1`. -/
def int_rem (a b : Int) : Exec Int :=
  if b = 0 ∨ (a = INT_MIN ∧ b = -1) then throw Fault.undefinedArithmetic
  else pure (Int.tmod a b)

/-- The loop `while (b) { c = a % b; a = b; b = c; }` of the functor `gcd` of
the test program, followed by `return a`. -/
def gcd_loop : Nat → Int → Int → Exec Int
  | 0, _, _ => throw Fault.outOfFuel
  | fuel + 1, a, b =>
    if b = 0 then pure a
    else do
      let c ← int_rem a b
      gcd_loop fuel b c

/-- The call operator of the functor `gcd` of the test program.  The absolute
value of `b` falls at every turn of the loop, so that the condition of the
loop is evaluated at most `|y| + 1` times. -/
def gcd (x y : Int) : Exec Int := gcd_loop (y.natAbs + 1) x y

/-- The functor `gcd` as the combiner of the map: applied to two items, it
has a defined value when both have one and the call has one. -/
def gcd_aug (x y : Exec Int) : Exec Int := do gcd (← x) (← y)

end TestProgram

/-!
## The tree a memory holds

The proofs read the memory as a binary tree whose nodes are labelled with their
addresses.  `Rep m p t` says that memory `m` stores the tree `t` cell by cell,
the root of `t` having the parent pointer `p`.  The loops that walk up the
parent pointers are followed on a tree with a hole: a list of frames, innermost
first, and the subtree that fills the hole.
-/

section Model

variable {K V : Type}

/-- A binary tree of cells: address, left subtree, (key, item), cached
augment, priority, right subtree. -/
inductive Tree (K V : Type) where
  | nil : Tree K V
  | node (a : Nat) (l : Tree K V) (kv : K × V) (g : V) (p : Nat) (r : Tree K V) : Tree K V

/-- The pointer to the root of a tree. -/
def Tree.ptr : Tree K V → Ptr
  | Tree.nil => none
  | Tree.node a _ _ _ _ _ => some a

/-- The addresses of the nodes, in order. -/
def Tree.addrs : Tree K V → List Nat
  | Tree.nil => []
  | Tree.node a l _ _ _ r => l.addrs ++ a :: r.addrs

/-- The (key, item) pairs, in order. -/
def Tree.toList : Tree K V → List (K × V)
  | Tree.nil => []
  | Tree.node _ l kv _ _ r => l.toList ++ kv :: r.toList

/-- The number of nodes. -/
def Tree.count : Tree K V → Nat
  | Tree.nil => 0
  | Tree.node _ l _ _ _ r => l.count + 1 + r.count

/-- The address of the first node in order. -/
def Tree.first : Tree K V → Ptr
  | Tree.nil => none
  | Tree.node a Tree.nil _ _ _ _ => some a
  | Tree.node _ (Tree.node b ll lkv lg lp lr) _ _ _ _ => (Tree.node b ll lkv lg lp lr).first

/-- The value `update_node` computes for a node with item `v` and children
`l`, `r`. -/
def nodeAug (aug : V → V → V) (l : Tree K V) (v : V) (r : Tree K V) : V :=
  let g := match l with
    | Tree.nil => v
    | Tree.node _ _ _ gl _ _ => aug gl v
  match r with
  | Tree.nil => g
  | Tree.node _ _ _ gr _ _ => aug g gr

/-- The cached augment of the root, if there is a root. -/
def Tree.rootAug : Tree K V → Option V
  | Tree.nil => none
  | Tree.node _ _ _ g _ _ => some g

/-- Memory `m` stores tree `t`, whose root has parent pointer `p`. -/
def Rep (m : Mem K V) : Ptr → Tree K V → Prop
  | _, Tree.nil => True
  | p, Tree.node a l kv g pr r =>
    m a = some { left := l.ptr, right := r.ptr, parent := p, value := kv,
                 augment := g, priority := pr } ∧
    Rep m (some a) l ∧ Rep m (some a) r

/-- Every cached augment is the value `update_node` would store. -/
def Coherent (aug : V → V → V) : Tree K V → Prop
  | Tree.nil => True
  | Tree.node _ l kv g _ r => g = nodeAug aug l kv.2 r ∧ Coherent aug l ∧ Coherent aug r

/-- One level of a tree around a hole. -/
inductive Frame (K V : Type) where
  /-- The hole is the left child of the node at `a`. -/
  | L (a : Nat) (kv : K × V) (g : V) (p : Nat) (r : Tree K V) : Frame K V
  /-- The hole is the right child of the node at `a`. -/
  | R (a : Nat) (l : Tree K V) (kv : K × V) (g : V) (p : Nat) : Frame K V

/-- The address of the node of a frame. -/
def Frame.addr : Frame K V → Nat
  | Frame.L a _ _ _ _ => a
  | Frame.R a _ _ _ _ => a

/-- The tree obtained by putting `t` in the hole of a frame. -/
def Frame.fill : Frame K V → Tree K V → Tree K V
  | Frame.L a kv g p r, t => Tree.node a t kv g p r
  | Frame.R a l kv g p, t => Tree.node a l kv g p t

/-- The sibling subtree of the hole. -/
def Frame.sibling : Frame K V → Tree K V
  | Frame.L _ _ _ _ r => r
  | Frame.R _ l _ _ _ => l

/-- The whole tree: `t` in the hole of the context `c`. -/
def plug : List (Frame K V) → Tree K V → Tree K V
  | [], t => t
  | f :: c, t => plug c (f.fill t)

/-- The parent pointer of the node in the hole. -/
def ctxPtr : List (Frame K V) → Ptr
  | [] => none
  | f :: _ => some f.addr

/-- The root pointer of `plug c t`, from the pointer `h` to the root of `t`. -/
def plugPtr : List (Frame K V) → Ptr → Ptr
  | [], h => h
  | f :: c, _ => plugPtr c (some f.addr)

/-- The addresses of a context: of its frames and of their sibling subtrees. -/
def ctxAddrs : List (Frame K V) → List Nat
  | [] => []
  | f :: c => f.addr :: f.sibling.addrs ++ ctxAddrs c

/-- The pairs of the whole tree that come before the hole. -/
def ctxBefore : List (Frame K V) → List (K × V)
  | [] => []
  | Frame.L _ _ _ _ _ :: c => ctxBefore c
  | Frame.R _ l kv _ _ :: c => ctxBefore c ++ l.toList ++ [kv]

/-- The pairs of the whole tree that come after the hole. -/
def ctxAfter : List (Frame K V) → List (K × V)
  | [] => []
  | Frame.L _ kv _ _ r :: c => kv :: r.toList ++ ctxAfter c
  | Frame.R _ _ _ _ _ :: c => ctxAfter c

/-- Memory `m` stores the context `c`, the hole being filled by pointer `h`. -/
def RepCtx (m : Mem K V) : List (Frame K V) → Ptr → Prop
  | [], _ => True
  | Frame.L a kv g p r :: c, h =>
    m a = some { left := h, right := r.ptr, parent := ctxPtr c, value := kv,
                 augment := g, priority := p } ∧
    Rep m (some a) r ∧ RepCtx m c (some a)
  | Frame.R a l kv g p :: c, h =>
    m a = some { left := l.ptr, right := h, parent := ctxPtr c, value := kv,
                 augment := g, priority := p } ∧
    Rep m (some a) l ∧ RepCtx m c (some a)

/-- The siblings along a context have coherent augments. -/
def CoherentCtx (aug : V → V → V) : List (Frame K V) → Prop
  | [] => True
  | f :: c => Coherent aug f.sibling ∧ CoherentCtx aug c

/-- The context after `update_ancestors` has run from the hole filled with
`t`: every frame's augment recomputed, bottom up. -/
def refresh (aug : V → V → V) : List (Frame K V) → Tree K V → List (Frame K V)
  | [], _ => []
  | Frame.L a kv _ p r :: c, t =>
    Frame.L a kv (nodeAug aug t kv.2 r) p r ::
      refresh aug c (Tree.node a t kv (nodeAug aug t kv.2 r) p r)
  | Frame.R a l kv _ p :: c, t =>
    Frame.R a l kv (nodeAug aug l kv.2 t) p ::
      refresh aug c (Tree.node a l kv (nodeAug aug l kv.2 t) p t)

/-- The result of `climb` started at the node in the hole. -/
def climbT : List (Frame K V) → Ptr
  | [] => none
  | Frame.L a _ _ _ _ :: _ => some a
  | Frame.R _ _ _ _ _ :: c => climbT c

/-- The tree after the rotation loop of `set` has run on the node in the
hole. -/
def rotUp (aug : V → V → V) : List (Frame K V) → Tree K V → Tree K V
  | [], t => t
  | f :: c, Tree.nil => plug (f :: c) Tree.nil
  | Frame.L pa kvp gp pp r :: c, Tree.node n ln kvn gn pn rn =>
    if pp < pn then
      rotUp aug c (Tree.node n ln kvn gp pn (Tree.node pa rn kvp (nodeAug aug rn kvp.2 r) pp r))
    else plug (Frame.L pa kvp gp pp r :: c) (Tree.node n ln kvn gn pn rn)
  | Frame.R pa l kvp gp pp :: c, Tree.node n ln kvn gn pn rn =>
    if pp < pn then
      rotUp aug c (Tree.node n (Tree.node pa l kvp (nodeAug aug l kvp.2 ln) pp ln) kvn gp pn rn)
    else plug (Frame.R pa l kvp gp pp :: c) (Tree.node n ln kvn gn pn rn)

/-- The tree `merge` builds from two trees. -/
def mergeT (aug : V → V → V) : Nat → Tree K V → Tree K V → Tree K V
  | 0, _, _ => Tree.nil
  | _ + 1, Tree.nil, t2 => t2
  | _ + 1, Tree.node a l1 kv1 g1 p1 r1, Tree.nil => Tree.node a l1 kv1 g1 p1 r1
  | fuel + 1, Tree.node a l1 kv1 g1 p1 r1, Tree.node b l2 kv2 g2 p2 r2 =>
    if p1 > p2 then
      Tree.node a l1 kv1
        (nodeAug aug l1 kv1.2 (mergeT aug fuel r1 (Tree.node b l2 kv2 g2 p2 r2))) p1
        (mergeT aug fuel r1 (Tree.node b l2 kv2 g2 p2 r2))
    else
      Tree.node b (mergeT aug fuel (Tree.node a l1 kv1 g1 p1 r1) l2) kv2
        (nodeAug aug (mergeT aug fuel (Tree.node a l1 kv1 g1 p1 r1) l2) kv2.2 r2) p2 r2

/-- The cached augment of the root, the identity for the empty tree. -/
def Tree.total (id : V) : Tree K V → V
  | Tree.nil => id
  | Tree.node _ _ _ g _ _ => g

variable [LinearOrder K]

/-- The path the search loops take for `k`: the context reached and the
subtree found there, which is empty or has `k` at its root. -/
def descend (k : K) : List (Frame K V) → Tree K V → List (Frame K V) × Tree K V
  | c, Tree.nil => (c, Tree.nil)
  | c, Tree.node a l kv g p r =>
    if k < kv.1 then descend k (Frame.L a kv g p r :: c) l
    else if kv.1 < k then descend k (Frame.R a l kv g p :: c) r
    else (c, Tree.node a l kv g p r)

/-- The tree after `set`, the new node (if any) being allocated at `a`. -/
def setT (aug : V → V → V) (t : Tree K V) (k : K) (v : V) (prio : Nat) (a : Nat) : Tree K V :=
  match descend k [] t with
  | (c, Tree.nil) =>
    rotUp aug (refresh aug c (Tree.node a Tree.nil (k, v) v prio Tree.nil))
      (Tree.node a Tree.nil (k, v) v prio Tree.nil)
  | (c, Tree.node b l kv _ p r) =>
    plug (refresh aug c (Tree.node b l (kv.1, v) (nodeAug aug l v r) p r))
      (Tree.node b l (kv.1, v) (nodeAug aug l v r) p r)

/-- The tree after `erase`, `merge` running with the given fuel. -/
def eraseT (aug : V → V → V) (fuel : Nat) (t : Tree K V) (k : K) : Tree K V :=
  match descend k [] t with
  | (_, Tree.nil) => t
  | (c, Tree.node _ l _ _ _ r) =>
    plug (refresh aug c (mergeT aug fuel l r)) (mergeT aug fuel l r)

/-- The value of `node_query_left` on a tree. -/
def nqlT (aug : V → V → V) (id : V) : Tree K V → K → V
  | Tree.nil, _ => id
  | Tree.node _ l kv _ _ r, lo =>
    if kv.1 < lo then nqlT aug id r lo
    else
      match r with
      | Tree.nil => aug (nqlT aug id l lo) kv.2
      | Tree.node _ _ _ gr _ _ => aug (aug (nqlT aug id l lo) kv.2) gr

/-- The value of `node_query_right` on a tree. -/
def nqrT (aug : V → V → V) (id : V) : Tree K V → K → V
  | Tree.nil, _ => id
  | Tree.node _ l kv _ _ r, hi =>
    if hi < kv.1 then nqrT aug id l hi
    else
      match l with
      | Tree.nil => aug kv.2 (nqrT aug id r hi)
      | Tree.node _ _ _ gl _ _ => aug gl (aug kv.2 (nqrT aug id r hi))

/-- The value of `node_query` on a tree. -/
def nqT (aug : V → V → V) (id : V) : Tree K V → K → K → V
  | Tree.nil, _, _ => id
  | Tree.node _ l kv _ _ r, lo, hi =>
    if hi < kv.1 then nqT aug id l lo hi
    else if kv.1 < lo then nqT aug id r lo hi
    else aug (aug (nqlT aug id l lo) kv.2) (nqrT aug id r hi)

/-- The candidate `lower_bound_loop` ends with on a tree: address and pair. -/
def lbT : Tree K V → Option (Nat × K × V) → K → Option (Nat × K × V)
  | Tree.nil, best, _ => best
  | Tree.node a l kv _ _ r, best, x =>
    if kv.1 < x then lbT r best x else lbT l (some (a, kv)) x

/-- The keys of a list of pairs increase strictly. -/
def KeysIncreasing (xs : List (K × V)) : Prop :=
  xs.Pairwise (fun x y => x.1 < y.1)

/-- Every pair before the hole has a key below `k`, every pair after it a key
above `k`. -/
def CtxSplit (k : K) (c : List (Frame K V)) : Prop :=
  (∀ x ∈ ctxBefore c, x.1 < k) ∧ (∀ x ∈ ctxAfter c, k < x.1)

/-- The container `s` holds the tree `t`: the memory stores it, the root
pointer designates it, no address occurs twice, every address was allocated,
the keys increase strictly in order, and the size counter counts its nodes. -/
structure Good (s : Treemap K V) (t : Tree K V) : Prop where
  rep : Rep s.mem none t
  root : s.root = t.ptr
  nodup : t.addrs.Nodup
  bound : ∀ a ∈ t.addrs, a < s.brk
  sorted : KeysIncreasing t.toList
  size : s.tsize = t.count

end Model

/-!
## The contract, as operations on an association list

The claims speak of the keys a map stores.  They are fixed here without
looking at the tree: the stored pairs form a list kept in increasing key order,
`set` replaces or inserts the pair of its key, `erase` removes it.
-/

section Contract

variable {K V : Type} [LinearOrder K]

/-- A call of one of the two mutating operations. -/
inductive Op (K V : Type) where
  | set (k : K) (v : V) (prio : Nat) : Op K V
  | erase (k : K) : Op K V

/-- The pairs stored after `set(k, v)`. -/
def specSet (k : K) (v : V) (xs : List (K × V)) : List (K × V) :=
  xs.filter (fun kv => kv.1 < k) ++ (k, v) :: xs.filter (fun kv => k < kv.1)

/-- The pairs stored after `erase(k)`. -/
def specErase (k : K) (xs : List (K × V)) : List (K × V) :=
  xs.filter (fun kv => kv.1 ≠ k)

/-- The pairs stored after one call. -/
def specStep (xs : List (K × V)) : Op K V → List (K × V)
  | Op.set k v _ => specSet k v xs
  | Op.erase k => specErase k xs

/-- The pairs stored after a sequence of calls on the empty map. -/
def specRun (ops : List (Op K V)) : List (K × V) :=
  ops.foldl specStep []

/-- The value the contract gives for a key: the item paired with it. -/
def specGet (k : K) (xs : List (K × V)) : Option V :=
  (xs.find? (fun kv => kv.1 = k)).map Prod.snd

/-- The items of the pairs whose key lies in the closed range, in key order. -/
def rangeItems (lo hi : K) (xs : List (K × V)) : List V :=
  (xs.filter (fun kv => lo ≤ kv.1 ∧ kv.1 ≤ hi)).map Prod.snd

/-- The combiner folded over a list of items, from the left, starting from
the identity. -/
def foldAug (aug : V → V → V) (id : V) (vs : List V) : V :=
  vs.foldl aug id

/-- The combiner is associative on the items that satisfy `P`, which it
maps to items that satisfy `P`, and `id` is a two-sided identity among them. -/
def MonoidOn (P : V → Prop) (aug : V → V → V) (id : V) : Prop :=
  P id ∧ (∀ x y, P x → P y → P (aug x y)) ∧
    (∀ x y z, P x → P y → P z → aug (aug x y) z = aug x (aug y z)) ∧
    (∀ x, P x → aug id x = x) ∧ (∀ x, P x → aug x id = x)

/-- The items a sequence of calls passes to `set`. -/
def setItems : List (Op K V) → List V
  | [] => []
  | Op.set _ v _ :: ops => v :: setItems ops
  | Op.erase _ :: ops => setItems ops

/-- One call on the container. -/
def step (aug : V → V → V) (s : Treemap K V) : Op K V → Exec (Treemap K V)
  | Op.set k v prio => set aug s k v prio
  | Op.erase k => erase aug s k

/-- A sequence of calls on the container, from state `s`. -/
def runFrom (aug : V → V → V) : Treemap K V → List (Op K V) → Exec (Treemap K V)
  | s, [] => pure s
  | s, op :: ops => do runFrom aug (← step aug s op) ops

/-- A sequence of calls on the container built by the constructor. -/
def run (aug : V → V → V) (id : V) (ops : List (Op K V)) : Exec (Treemap K V) :=
  runFrom aug (empty id) ops

/-- The calls the test program makes on its second map: `set(i*i, 10-i)` for
`i` from 10 down to 0, the `i`-th new node drawing the priority `p i`. -/
def squaresOps (p : Nat → Nat) : List (Op Int Int) :=
  (List.range 11).reverse.map
    (fun (i : Nat) => Op.set (Int.ofNat i * Int.ofNat i) (10 - Int.ofNat i) (p i))

end Contract

/-!
## The invariants of the tree

The four invariants the container documents, on the tree a memory holds and on
the memory itself, and the relations the frame properties are stated with.
-/

section Invariants

variable {K V : Type}

/-- The priority at the root of a tree is at most `q`; nothing is asked of the
empty tree. -/
def Tree.prioLe : Tree K V → Nat → Prop
  | Tree.nil, _ => True
  | Tree.node _ _ _ _ p _, q => p ≤ q

/-- The heap invariant: the priority of every node is at least the priority
of each of its children. -/
def HeapOrdered : Tree K V → Prop
  | Tree.nil => True
  | Tree.node _ l _ _ p r => l.prioLe p ∧ r.prioLe p ∧ HeapOrdered l ∧ HeapOrdered r

/-- The priority of the node of a frame. -/
def Frame.prio : Frame K V → Nat
  | Frame.L _ _ _ p _ => p
  | Frame.R _ _ _ _ p => p

/-- A node of priority `q` may fill the hole: the node above the hole, if
there is one, has a priority of at least `q`. -/
def ctxGe : List (Frame K V) → Nat → Prop
  | [], _ => True
  | f :: _, q => q ≤ f.prio

/-- The tree `t` may fill the hole: the node above the hole, if there is one,
has a priority of at least the priority at the root of `t`. -/
def holeLe : List (Frame K V) → Tree K V → Prop
  | [], _ => True
  | f :: _, t => t.prioLe f.prio

/-- The heap invariant of a tree with a hole. -/
def HeapCtx : List (Frame K V) → Prop
  | [] => True
  | f :: c => f.sibling.prioLe f.prio ∧ HeapOrdered f.sibling ∧ ctxGe c f.prio ∧ HeapCtx c

/-- The priorities of the nodes, in order. -/
def Tree.prios : Tree K V → List Nat
  | Tree.nil => []
  | Tree.node _ l _ _ p r => l.prios ++ p :: r.prios

/-- The priorities of the nodes of a context: of its frames and of their
sibling subtrees. -/
def ctxPrios : List (Frame K V) → List Nat
  | [] => []
  | f :: c => f.prio :: f.sibling.prios ++ ctxPrios c

/-- Augment coherence as the container documents it: the cached augment of
every node is the combiner applied to the cached augment of the left child,
the item, and the cached augment of the right child, the identity standing
for an absent child. -/
def CoherentId (aug : V → V → V) (id : V) : Tree K V → Prop
  | Tree.nil => True
  | Tree.node _ l kv g _ r =>
    g = aug (aug (l.total id) kv.2) (r.total id) ∧ CoherentId aug id l ∧ CoherentId aug id r

/-- Two trees that differ at most in their cached augments: same shape, same
addresses, same pairs, same priorities. -/
def SameButAugments : Tree K V → Tree K V → Prop
  | Tree.nil, Tree.nil => True
  | Tree.node a l kv _ p r, Tree.node a2 l2 kv2 _ p2 r2 =>
    a = a2 ∧ kv = kv2 ∧ p = p2 ∧ SameButAugments l l2 ∧ SameButAugments r r2
  | _, _ => False

/-- Memory `m` stores the tree `t` as far as the child pointers and the
payload go; nothing is said of the parent pointers. -/
def Shape (m : Mem K V) : Tree K V → Prop
  | Tree.nil => True
  | Tree.node a l kv g pr r =>
    (∃ p, m a = some { left := l.ptr, right := r.ptr, parent := p, value := kv,
                       augment := g, priority := pr }) ∧
    Shape m l ∧ Shape m r

/-- Parent consistency, on the memory, for the nodes at the addresses `nodes`:
a node `c` has parent `p` exactly when `c` is the left or the right child
of `p`; every parent pointer designates a node; the root pointer designates
the one node without a parent, and is null when there is no node. -/
def ParentConsistent (s : Treemap K V) (nodes : List Nat) : Prop :=
  (∀ c ∈ nodes, ∀ p ∈ nodes,
    (∃ n, s.mem c = some n ∧ n.parent = some p) ↔
      (∃ n, s.mem p = some n ∧ (n.left = some c ∨ n.right = some c))) ∧
  (∀ c ∈ nodes, ∀ n p, s.mem c = some n → n.parent = some p → p ∈ nodes) ∧
  (∀ c ∈ nodes, s.root = some c ↔ ∃ n, s.mem c = some n ∧ n.parent = none) ∧
  (nodes = [] → s.root = none)

/-- The addresses met by following the parent pointers from `node`, nearest
first; `node` itself is not among them. -/
def ancestors (m : Mem K V) : Nat → Nat → List Nat
  | 0, _ => []
  | fuel + 1, node =>
    match m node with
    | none => []
    | some n =>
      match n.parent with
      | none => []
      | some p => p :: ancestors m fuel p

/-- Memory `m2` came from `m` by assignments to the member `augment` of the
nodes at the addresses `S` only: the other cells are those of `m`, and every
cell is the cell of `m` but for its cached augment. -/
def AugmentsOnly (m m2 : Mem K V) (S : List Nat) : Prop :=
  ∀ x, (x ∉ S → m2 x = m x) ∧
    match m x with
    | none => m2 x = none
    | some n => ∃ g, m2 x = some { n with augment := g }

variable [LinearOrder K]

/-- The binary-search-tree invariant: at every node, the keys of the left
subtree are less than the key of the node and the keys of the right subtree
are greater. -/
def BST : Tree K V → Prop
  | Tree.nil => True
  | Tree.node _ l kv _ _ r =>
    (∀ x ∈ l.toList, x.1 < kv.1) ∧ (∀ x ∈ r.toList, kv.1 < x.1) ∧ BST l ∧ BST r

/-- The container `s` holds the tree `t`, whatever the order of its keys: the
memory stores it, the root pointer designates it, no address occurs twice,
every address was allocated, and the size counter counts its nodes. -/
structure Stored (s : Treemap K V) (t : Tree K V) : Prop where
  rep : Rep s.mem none t
  root : s.root = t.ptr
  nodup : t.addrs.Nodup
  bound : ∀ a ∈ t.addrs, a < s.brk
  size : s.tsize = t.count

/-- The container `s` holds the tree `t` as far as the child pointers go:
`Stored` without the parent pointers. -/
structure Linked (s : Treemap K V) (t : Tree K V) : Prop where
  shape : Shape s.mem t
  root : s.root = t.ptr
  nodup : t.addrs.Nodup
  bound : ∀ a ∈ t.addrs, a < s.brk
  size : s.tsize = t.count

end Invariants

/-!
## Examples

A map of three keys laid out as `set(2, 20)`, `set(1, 10)`, `set(3, 30)` lay it
out when the priorities drawn are 9, 5 and 7 and the combiner is addition, and
the notion of greatest common divisor the test program's output is compared
with.
-/

section Examples

/-- The memory of the example: key 2 at the root, keys 1 and 3 below it. -/
def demoMem : Mem Int Int := fun a =>
  match a with
  | 0 => some { left := some 1, right := some 2, parent := none, value := (2, 20),
                augment := 60, priority := 9 }
  | 1 => some { left := none, right := none, parent := some 0, value := (1, 10),
                augment := 10, priority := 5 }
  | 2 => some { left := none, right := none, parent := some 0, value := (3, 30),
                augment := 30, priority := 7 }
  | _ => none

/-- The container of the example. -/
def demoMap : Treemap Int Int :=
  { mem := demoMem, brk := 3, root := some 0, id := 0, tsize := 3 }

/-- The tree the example holds. -/
def demoTree : Tree Int Int :=
  Tree.node 0 (Tree.node 1 Tree.nil (1, 10) 10 5 Tree.nil) (2, 20) 60 9
    (Tree.node 2 Tree.nil (3, 30) 30 7 Tree.nil)

/-- The memory of a map of two keys whose nodes have the same priority: key 1
at the root, key 3 to its right, both of priority 5. -/
def tieMem : Mem Int Int := fun a =>
  match a with
  | 0 => some { left := none, right := some 1, parent := none, value := (1, 10),
                augment := 40, priority := 5 }
  | 1 => some { left := none, right := none, parent := some 0, value := (3, 30),
                augment := 30, priority := 5 }
  | _ => none

/-- The container of the two keys of equal priority. -/
def tieMap : Treemap Int Int :=
  { mem := tieMem, brk := 2, root := some 0, id := 0, tsize := 2 }

/-- The tree the container of the two keys of equal priority holds. -/
def tieTree : Tree Int Int :=
  Tree.node 0 Tree.nil (1, 10) 40 5 (Tree.node 1 Tree.nil (3, 30) 30 5 Tree.nil)

/-- The integer `d` is the greatest common divisor of the integers `vs`: it is
not negative, it divides each of them, and every integer that divides each of
them divides `d`.  The greatest common divisor of no integer at all is 0. -/
def IsGcdOf (d : Int) (vs : List Int) : Prop :=
  0 ≤ d ∧ (∀ v ∈ vs, d ∣ v) ∧ ∀ e : Int, (∀ v ∈ vs, e ∣ v) → e ∣ d

end Examples

/-!
## Memory and the execution monad
-/

section MemLemmas

variable {K V : Type}

theorem ok_bind {α β : Type} (a : α) (f : α → Exec β) :
    (Except.ok a >>= f) = f a := rfl

theorem pure_eq_ok {α : Type} (a : α) : (pure a : Exec α) = Except.ok a := rfl

theorem write_same (m : Mem K V) (a : Nat) (n : TreapNode K V) :
    (m.write a n) a = some n := by
  simp [Mem.write]

theorem write_other (m : Mem K V) {a b : Nat} (n : TreapNode K V) (h : b ≠ a) :
    (m.write a n) b = m b := by
  simp [Mem.write, h]

theorem write_write (m : Mem K V) (a : Nat) (n n2 : TreapNode K V) :
    (m.write a n).write a n2 = m.write a n2 := by
  funext b
  by_cases h : b = a <;> simp [Mem.write, h]

theorem load_ok {m : Mem K V} {a : Nat} {n : TreapNode K V} (h : m a = some n) :
    load m a = Except.ok n := by
  simp [load, h, pure_eq_ok]

theorem setLeft_ok {m : Mem K V} {a : Nat} {n : TreapNode K V} (h : m a = some n) (p : Ptr) :
    setLeft m a p = Except.ok (m.write a { n with left := p }) := by
  simp [setLeft, load_ok h, ok_bind, pure_eq_ok]

theorem setRight_ok {m : Mem K V} {a : Nat} {n : TreapNode K V} (h : m a = some n) (p : Ptr) :
    setRight m a p = Except.ok (m.write a { n with right := p }) := by
  simp [setRight, load_ok h, ok_bind, pure_eq_ok]

theorem setParent_ok {m : Mem K V} {a : Nat} {n : TreapNode K V} (h : m a = some n) (p : Ptr) :
    setParent m a p = Except.ok (m.write a { n with parent := p }) := by
  simp [setParent, load_ok h, ok_bind, pure_eq_ok]

theorem setAugment_ok {m : Mem K V} {a : Nat} {n : TreapNode K V} (h : m a = some n) (g : V) :
    setAugment m a g = Except.ok (m.write a { n with augment := g }) := by
  simp [setAugment, load_ok h, ok_bind, pure_eq_ok]

theorem setItem_ok {m : Mem K V} {a : Nat} {n : TreapNode K V} (h : m a = some n) (v : V) :
    setItem m a v = Except.ok (m.write a { n with value := (n.value.1, v) }) := by
  simp [setItem, load_ok h, ok_bind, pure_eq_ok]

end MemLemmas

/-!
## Stored trees and contexts
-/

section RepLemmas

variable {K V : Type}

theorem Tree.ptr_nil : (Tree.nil : Tree K V).ptr = none := rfl

theorem Tree.ptr_node (a : Nat) (l r : Tree K V) (kv : K × V) (g : V) (p : Nat) :
    (Tree.node a l kv g p r).ptr = some a := rfl

theorem ctxPtr_nil : ctxPtr ([] : List (Frame K V)) = none := rfl

theorem ctxPtr_cons (f : Frame K V) (c : List (Frame K V)) :
    ctxPtr (f :: c) = some f.addr := rfl

theorem ctxPtr_ne {c : List (Frame K V)} {y : Nat} (h : y ∉ ctxAddrs c) :
    ctxPtr c ≠ some y := by
  cases c with
  | nil => simp [ctxPtr_nil]
  | cons f c =>
    simp only [ctxPtr_cons, ne_eq, Option.some.injEq]
    intro e
    exact h (by simp [ctxAddrs, e])

theorem nodup_disj {l1 l2 : List Nat} (h : (l1 ++ l2).Nodup) (a : Nat) (h1 : a ∈ l1)
    (h2 : a ∈ l2) : False :=
  (List.nodup_append.1 h).2.2 h1 h2

theorem Tree.addrs_node (a : Nat) (l r : Tree K V) (kv : K × V) (g : V) (p : Nat) :
    (Tree.node a l kv g p r).addrs = l.addrs ++ a :: r.addrs := rfl

theorem Tree.count_eq_length (t : Tree K V) : t.count = t.addrs.length := by
  induction t with
  | nil => rfl
  | node a l kv g p r ihl ihr => simp [Tree.count, Tree.addrs, ihl, ihr]; omega

theorem Tree.toList_length (t : Tree K V) : t.toList.length = t.count := by
  induction t with
  | nil => rfl
  | node a l kv g p r ihl ihr => simp [Tree.count, Tree.toList, ihl, ihr]; omega

theorem Tree.ptr_mem {t : Tree K V} {a : Nat} (h : t.ptr = some a) : a ∈ t.addrs := by
  cases t with
  | nil => simp [Tree.ptr] at h
  | node b l kv g pr r =>
    simp only [Tree.ptr, Option.some.injEq] at h
    simp [Tree.addrs, h]

theorem Tree.ptr_ne {t : Tree K V} {a : Nat} (h : a ∉ t.addrs) : t.ptr ≠ some a :=
  fun e => h (Tree.ptr_mem e)

theorem rep_congr {m m2 : Mem K V} {t : Tree K V} {p : Ptr}
    (h : ∀ x ∈ t.addrs, m2 x = m x) (hr : Rep m p t) : Rep m2 p t := by
  induction t generalizing p with
  | nil => trivial
  | node a l kv g pr r ihl ihr =>
    obtain ⟨h1, h2, h3⟩ := hr
    refine ⟨?_, ihl (fun x hx => h x ?_) h2, ihr (fun x hx => h x ?_) h3⟩
    · rw [h a (by simp [Tree.addrs])]; exact h1
    · simp [Tree.addrs, hx]
    · simp [Tree.addrs, hx]

theorem rep_write {m : Mem K V} {t : Tree K V} {p : Ptr} {a : Nat} (n : TreapNode K V)
    (ha : a ∉ t.addrs) (hr : Rep m p t) : Rep (m.write a n) p t :=
  rep_congr (fun _ hx => write_other m n (fun e => ha (e ▸ hx))) hr

theorem repCtx_congr {m m2 : Mem K V} {c : List (Frame K V)} {h : Ptr}
    (hm : ∀ x ∈ ctxAddrs c, m2 x = m x) (hr : RepCtx m c h) : RepCtx m2 c h := by
  induction c generalizing h with
  | nil => trivial
  | cons f c ih =>
    cases f with
    | L a kv g p r =>
      obtain ⟨h1, h2, h3⟩ := hr
      refine ⟨?_, rep_congr (fun x hx => hm x ?_) h2, ih (fun x hx => hm x ?_) h3⟩
      · rw [hm a (by simp [ctxAddrs, Frame.addr])]; exact h1
      · simp [ctxAddrs, Frame.sibling, hx]
      · simp [ctxAddrs, hx]
    | R a l kv g p =>
      obtain ⟨h1, h2, h3⟩ := hr
      refine ⟨?_, rep_congr (fun x hx => hm x ?_) h2, ih (fun x hx => hm x ?_) h3⟩
      · rw [hm a (by simp [ctxAddrs, Frame.addr])]; exact h1
      · simp [ctxAddrs, Frame.sibling, hx]
      · simp [ctxAddrs, hx]

theorem repCtx_write {m : Mem K V} {c : List (Frame K V)} {h : Ptr} {a : Nat}
    (n : TreapNode K V) (ha : a ∉ ctxAddrs c) (hr : RepCtx m c h) :
    RepCtx (m.write a n) c h :=
  repCtx_congr (fun _ hx => write_other m n (fun e => ha (e ▸ hx))) hr

/-- Changing the parent pointer of the root of a stored tree. -/
theorem rep_reparent {m : Mem K V} {a : Nat} {l r : Tree K V} {kv : K × V} {g : V} {pr : Nat}
    {p : Ptr} (q : Ptr) (hr : Rep m p (Tree.node a l kv g pr r))
    (hl : a ∉ l.addrs) (hrr : a ∉ r.addrs) :
    Rep (m.write a { left := l.ptr, right := r.ptr, parent := q, value := kv,
                     augment := g, priority := pr }) q (Tree.node a l kv g pr r) :=
  ⟨write_same _ _ _, rep_write _ hl hr.2.1, rep_write _ hrr hr.2.2⟩

theorem rep_plug {m : Mem K V} {c : List (Frame K V)} {t : Tree K V} :
    Rep m none (plug c t) ↔ RepCtx m c t.ptr ∧ Rep m (ctxPtr c) t := by
  induction c generalizing t with
  | nil => simp [plug, RepCtx, ctxPtr]
  | cons f c ih =>
    cases f with
    | L a kv g p r =>
      simp only [plug, Frame.fill, ih, Rep, RepCtx, Tree.ptr, ctxPtr, Frame.addr]
      tauto
    | R a l kv g p =>
      simp only [plug, Frame.fill, ih, Rep, RepCtx, Tree.ptr, ctxPtr, Frame.addr]
      tauto

theorem plug_addrs_perm (c : List (Frame K V)) (t : Tree K V) :
    List.Perm (plug c t).addrs (t.addrs ++ ctxAddrs c) := by
  induction c generalizing t with
  | nil => simp [plug, ctxAddrs]
  | cons f c ih =>
    cases f with
    | L a kv g p r =>
      refine (ih _).trans ?_
      simp only [Frame.fill, Tree.addrs, ctxAddrs, Frame.addr, Frame.sibling,
        List.append_assoc, List.cons_append]
      exact List.Perm.refl _
    | R a l kv g p =>
      refine (ih _).trans ?_
      simp only [Frame.fill, Tree.addrs, ctxAddrs, Frame.addr, Frame.sibling,
        List.append_assoc, List.cons_append]
      exact (List.perm_middle).trans
        (((List.perm_append_comm_assoc _ _ _).cons a).trans (List.perm_middle).symm)

theorem plug_toList (c : List (Frame K V)) (t : Tree K V) :
    (plug c t).toList = ctxBefore c ++ t.toList ++ ctxAfter c := by
  induction c generalizing t with
  | nil => simp [plug, ctxBefore, ctxAfter]
  | cons f c ih =>
    cases f with
    | L a kv g p r => simp [plug, Frame.fill, ih, Tree.toList, ctxBefore, ctxAfter]
    | R a l kv g p => simp [plug, Frame.fill, ih, Tree.toList, ctxBefore, ctxAfter]

theorem plug_ptr (c : List (Frame K V)) (t : Tree K V) :
    (plug c t).ptr = plugPtr c t.ptr := by
  induction c generalizing t with
  | nil => rfl
  | cons f c ih =>
    rw [plug, ih]
    cases f <;> rfl

theorem plugPtr_cons (f : Frame K V) (c : List (Frame K V)) (h h2 : Ptr) :
    plugPtr (f :: c) h = plugPtr (f :: c) h2 := rfl

theorem plug_count (c : List (Frame K V)) (t : Tree K V) :
    (plug c t).count = t.count + (ctxAddrs c).length := by
  rw [Tree.count_eq_length, (plug_addrs_perm c t).length_eq, List.length_append,
    Tree.count_eq_length]

theorem update_node_ok (aug : V → V → V) {m : Mem K V} {a : Nat} {l r : Tree K V} {p : Ptr}
    {kv : K × V} {g : V} {pr : Nat}
    (hr : Rep m p (Tree.node a l kv g pr r))
    (hl : a ∉ l.addrs) (hrr : a ∉ r.addrs) :
    update_node aug m a = Except.ok (m.write a
      { left := l.ptr, right := r.ptr, parent := p, value := kv,
        augment := nodeAug aug l kv.2 r, priority := pr }) := by
  obtain ⟨h1, h2, h3⟩ := hr
  cases l with
  | nil =>
    cases r with
    | nil =>
      simp [update_node, load_ok h1, setAugment_ok h1, ok_bind, pure_eq_ok, Tree.ptr, nodeAug,
        load_ok (write_same _ _ _), setAugment_ok (write_same _ _ _), write_write]
    | node b rl rkv rg rpr rr =>
      have hb : b ≠ a := fun e => hrr (by simp [Tree.addrs, e])
      obtain ⟨hb1, -, -⟩ := h3
      simp [update_node, load_ok h1, setAugment_ok h1, ok_bind, pure_eq_ok, Tree.ptr, nodeAug,
        load_ok (write_same _ _ _), setAugment_ok (write_same _ _ _), write_write,
        load_ok ((write_other _ _ hb).trans hb1)]
  | node c ll lkv lg lpr lr =>
    have hc : c ≠ a := fun e => hl (by simp [Tree.addrs, e])
    obtain ⟨hc1, -, -⟩ := h2
    cases r with
    | nil =>
      simp [update_node, load_ok h1, setAugment_ok h1, ok_bind, pure_eq_ok, Tree.ptr, nodeAug,
        load_ok (write_same _ _ _), setAugment_ok (write_same _ _ _), write_write,
        load_ok ((write_other _ _ hc).trans hc1)]
    | node b rl rkv rg rpr rr =>
      have hb : b ≠ a := fun e => hrr (by simp [Tree.addrs, e])
      obtain ⟨hb1, -, -⟩ := h3
      simp [update_node, load_ok h1, setAugment_ok h1, ok_bind, pure_eq_ok, Tree.ptr, nodeAug,
        load_ok (write_same _ _ _), setAugment_ok (write_same _ _ _), write_write,
        load_ok ((write_other _ _ hc).trans hc1), load_ok ((write_other _ _ hb).trans hb1)]

/-- After `update_node`, the memory stores the node with its augment
recomputed. -/
theorem update_node_rep (aug : V → V → V) {m : Mem K V} {a : Nat} {l r : Tree K V} {p : Ptr}
    {kv : K × V} {g : V} {pr : Nat}
    (hr : Rep m p (Tree.node a l kv g pr r))
    (hl : a ∉ l.addrs) (hrr : a ∉ r.addrs) :
    ∃ m2, update_node aug m a = Except.ok m2 ∧
      Rep m2 p (Tree.node a l kv (nodeAug aug l kv.2 r) pr r) ∧
      ∀ x, x ≠ a → m2 x = m x :=
  ⟨_, update_node_ok aug hr hl hrr, ⟨write_same _ _ _, rep_write _ hl hr.2.1,
    rep_write _ hrr hr.2.2⟩, fun _ hx => write_other _ _ hx⟩

end RepLemmas

/-!
## The loops, followed on the stored tree
-/

section Loops

variable {K V : Type}

theorem refresh_length (aug : V → V → V) (c : List (Frame K V)) (t : Tree K V) :
    (refresh aug c t).length = c.length := by
  induction c generalizing t with
  | nil => rfl
  | cons f c ih => cases f <;> simp [refresh, ih]

theorem update_ancestors_ok (aug : V → V → V) (c : List (Frame K V)) :
    ∀ (fuel : Nat) (m : Mem K V) (t : Tree K V) (start : Nat) (n0 : TreapNode K V),
      c.length < fuel → m start = some n0 → n0.parent = ctxPtr c →
      RepCtx m c t.ptr → Rep m (ctxPtr c) t → (t.addrs ++ ctxAddrs c).Nodup →
      ∃ m2, update_ancestors aug fuel m start = Except.ok m2 ∧
        Rep m2 none (plug (refresh aug c t) t) ∧ ∀ x, x ∉ ctxAddrs c → m2 x = m x := by
  induction c with
  | nil =>
    intro fuel m t start n0 hf hs hp _ hr _
    cases fuel with
    | zero => simp at hf
    | succ fuel =>
      refine ⟨m, ?_, by simpa [refresh, plug, ctxPtr] using hr, fun _ _ => rfl⟩
      simp [update_ancestors, load_ok hs, ok_bind, hp, ctxPtr, pure_eq_ok]
  | cons f c ih =>
    intro fuel m t start n0 hf hs hp hc hr hnd
    cases fuel with
    | zero => simp at hf
    | succ fuel =>
      cases f with
      | L a kv g p r =>
        obtain ⟨h1, h2, h3⟩ := hc
        simp only [ctxAddrs, Frame.addr, Frame.sibling, ctxPtr] at hnd hp hr ⊢
        have hnode : Rep m (ctxPtr c) (Tree.node a t kv g p r) := ⟨h1, hr, h2⟩
        have hat : a ∉ t.addrs := by
          intro h; exact (List.nodup_append.1 hnd).2.2 h (by simp)
        have har : a ∉ r.addrs := by
          have := (List.nodup_append.1 hnd).2.1
          simp [List.nodup_append] at this; tauto
        have hac : a ∉ ctxAddrs c := by
          have := (List.nodup_append.1 hnd).2.1
          simp [List.nodup_append] at this; tauto
        obtain ⟨m1, hu, hrep1, hfr1⟩ := update_node_rep aug hnode hat har
        have hnd2 : ((Tree.node a t kv (nodeAug aug t kv.2 r) p r).addrs ++ ctxAddrs c).Nodup := by
          simpa [Tree.addrs] using hnd
        have h3b : RepCtx m1 c (some a) :=
          repCtx_congr (fun x hx => hfr1 x (fun e => hac (e ▸ hx))) h3
        obtain ⟨m2, hu2, hrep2, hfr2⟩ := ih fuel m1
          (Tree.node a t kv (nodeAug aug t kv.2 r) p r) a _ (by simpa using hf) hrep1.1 rfl
          h3b hrep1 hnd2
        refine ⟨m2, ?_, hrep2, fun x hx => ?_⟩
        · simp [update_ancestors, load_ok hs, ok_bind, hp, hu, hu2]
        · simp at hx
          rw [hfr2 x (by tauto), hfr1 x (by tauto)]
      | R a l kv g p =>
        obtain ⟨h1, h2, h3⟩ := hc
        simp only [ctxAddrs, Frame.addr, Frame.sibling, ctxPtr] at hnd hp hr ⊢
        have hnode : Rep m (ctxPtr c) (Tree.node a l kv g p t) := ⟨h1, h2, hr⟩
        have hat : a ∉ t.addrs := by
          intro h; exact (List.nodup_append.1 hnd).2.2 h (by simp)
        have hal : a ∉ l.addrs := by
          have := (List.nodup_append.1 hnd).2.1
          simp [List.nodup_append] at this; tauto
        have hac : a ∉ ctxAddrs c := by
          have := (List.nodup_append.1 hnd).2.1
          simp [List.nodup_append] at this; tauto
        obtain ⟨m1, hu, hrep1, hfr1⟩ := update_node_rep aug hnode hal hat
        have hnd2 : ((Tree.node a l kv (nodeAug aug l kv.2 t) p t).addrs ++ ctxAddrs c).Nodup := by
          have : List.Perm ((Tree.node a l kv (nodeAug aug l kv.2 t) p t).addrs ++ ctxAddrs c)
              (t.addrs ++ (a :: (l.addrs ++ ctxAddrs c))) := by
            simp only [Tree.addrs, List.append_assoc, List.cons_append]
            exact (List.perm_middle).trans
              (((List.perm_append_comm_assoc _ _ _).cons a).trans (List.perm_middle).symm)
          exact this.nodup_iff.2 hnd
        have h3b : RepCtx m1 c (some a) :=
          repCtx_congr (fun x hx => hfr1 x (fun e => hac (e ▸ hx))) h3
        obtain ⟨m2, hu2, hrep2, hfr2⟩ := ih fuel m1
          (Tree.node a l kv (nodeAug aug l kv.2 t) p t) a _ (by simpa using hf) hrep1.1 rfl
          h3b hrep1 hnd2
        refine ⟨m2, ?_, hrep2, fun x hx => ?_⟩
        · simp [update_ancestors, load_ok hs, ok_bind, hp, hu, hu2]
        · simp at hx
          rw [hfr2 x (by tauto), hfr1 x (by tauto)]

end Loops

/-!
## The search loops
-/

section Search

variable {K V : Type} [LinearOrder K]

theorem plug_descend (k : K) (c : List (Frame K V)) (t : Tree K V) :
    plug (descend k c t).1 (descend k c t).2 = plug c t := by
  induction t generalizing c with
  | nil => rfl
  | node a l kv g p r ihl ihr =>
    unfold descend
    split
    · rw [ihl]; rfl
    · split
      · rw [ihr]; rfl
      · rfl

theorem descend_snd (k : K) (c : List (Frame K V)) (t : Tree K V) :
    (descend k c t).2 = (descend k [] t).2 := by
  induction t generalizing c with
  | nil => rfl
  | node a l kv g p r ihl ihr =>
    unfold descend
    split
    · rw [ihl, ihl [_]]
    · split
      · rw [ihr, ihr [_]]
      · rfl

theorem descend_size (k : K) (c : List (Frame K V)) (t : Tree K V) :
    (descend k c t).1.length + (descend k c t).2.count ≤ c.length + t.count := by
  induction t generalizing c with
  | nil => simp [descend]
  | node a l kv g p r ihl ihr =>
    unfold descend
    split
    · have := ihl (Frame.L a kv g p r :: c)
      simp [Tree.count] at this ⊢; omega
    · split
      · have := ihr (Frame.R a l kv g p :: c)
        simp [Tree.count] at this ⊢; omega
      · simp

theorem descend_key (k : K) (c : List (Frame K V)) (t : Tree K V)
    {a : Nat} {l r : Tree K V} {kv : K × V} {g : V} {p : Nat}
    (h : (descend k c t).2 = Tree.node a l kv g p r) : kv.1 = k := by
  induction t generalizing c with
  | nil => simp [descend] at h
  | node a2 l2 kv2 g2 p2 r2 ihl ihr =>
    unfold descend at h
    split at h
    · exact ihl _ h
    · split at h
      · exact ihr _ h
      · rename_i h1 h2
        simp only [Tree.node.injEq] at h
        obtain ⟨-, -, rfl, -⟩ := h
        exact le_antisymm (not_lt.1 h1) (not_lt.1 h2)

theorem find_loop_ok (k : K) {m : Mem K V} {t : Tree K V} {p : Ptr} {fuel : Nat}
    (hr : Rep m p t) (hf : t.count < fuel) :
    find_loop fuel m t.ptr k = Except.ok (descend k [] t).2.ptr := by
  induction t generalizing p fuel with
  | nil =>
    cases fuel with
    | zero => simp at hf
    | succ fuel => simp [find_loop, Tree.ptr, descend, pure_eq_ok]
  | node a l kv g pr r ihl ihr =>
    cases fuel with
    | zero => simp at hf
    | succ fuel =>
      obtain ⟨h1, h2, h3⟩ := hr
      simp only [Tree.count] at hf
      simp only [Tree.ptr_node, find_loop, load_ok h1, ok_bind]
      unfold descend
      split
      · rw [ihl h2 (by omega), descend_snd k [_]]
      · split
        · rw [ihr h3 (by omega), descend_snd k [_]]
        · rfl

theorem set_search_ok (k : K) {m : Mem K V} {t : Tree K V} {c : List (Frame K V)} {fuel : Nat}
    (hr : Rep m (ctxPtr c) t) (hf : t.count < fuel) :
    set_search fuel m t.ptr (ctxPtr c) k = Except.ok ((descend k c t).2.ptr,
      match (descend k c t).2.ptr with
      | none => ctxPtr (descend k c t).1
      | some a => some a) := by
  induction t generalizing c fuel with
  | nil =>
    cases fuel with
    | zero => simp at hf
    | succ fuel => simp [set_search, Tree.ptr, descend, pure_eq_ok]
  | node a l kv g pr r ihl ihr =>
    cases fuel with
    | zero => simp at hf
    | succ fuel =>
      obtain ⟨h1, h2, h3⟩ := hr
      simp only [Tree.count] at hf
      simp only [Tree.ptr_node, set_search, load_ok h1, ok_bind]
      unfold descend
      split
      · exact ihl (c := Frame.L a kv g pr r :: c) h2 (by omega)
      · split
        · exact ihr (c := Frame.R a l kv g pr :: c) h3 (by omega)
        · rfl

end Search

/-!
## `merge`
-/

section Merge

variable {K V : Type}

theorem mergeT_addrs (aug : V → V → V) (fuel : Nat) (t1 t2 : Tree K V)
    (hf : t1.count + t2.count < fuel) :
    (mergeT aug fuel t1 t2).addrs = t1.addrs ++ t2.addrs := by
  induction fuel generalizing t1 t2 with
  | zero => simp at hf
  | succ fuel ih =>
    cases t1 with
    | nil => simp [mergeT, Tree.addrs]
    | node a l1 kv1 g1 p1 r1 =>
      cases t2 with
      | nil => simp [mergeT, Tree.addrs]
      | node b l2 kv2 g2 p2 r2 =>
        simp only [Tree.count] at hf
        simp only [mergeT]
        split
        · simp only [Tree.addrs_node]
          rw [ih _ _ (by simp only [Tree.count]; omega)]
          simp [Tree.addrs]
        · simp only [Tree.addrs_node]
          rw [ih _ _ (by simp only [Tree.count]; omega)]
          simp [Tree.addrs]

theorem mergeT_toList (aug : V → V → V) (fuel : Nat) (t1 t2 : Tree K V)
    (hf : t1.count + t2.count < fuel) :
    (mergeT aug fuel t1 t2).toList = t1.toList ++ t2.toList := by
  induction fuel generalizing t1 t2 with
  | zero => simp at hf
  | succ fuel ih =>
    cases t1 with
    | nil => simp [mergeT, Tree.toList]
    | node a l1 kv1 g1 p1 r1 =>
      cases t2 with
      | nil => simp [mergeT, Tree.toList]
      | node b l2 kv2 g2 p2 r2 =>
        simp only [Tree.count] at hf
        simp only [mergeT]
        split
        · simp only [Tree.toList]
          rw [ih _ _ (by simp only [Tree.count]; omega)]
          simp [Tree.toList]
        · simp only [Tree.toList]
          rw [ih _ _ (by simp only [Tree.count]; omega)]
          simp [Tree.toList]

theorem Tree.node_of_mem {t : Tree K V} {x : Nat} (h : x ∈ t.addrs) :
    ∃ a l kv g p r, t = Tree.node a l kv g p r := by
  cases t with
  | nil => simp [Tree.addrs] at h
  | node a l kv g p r => exact ⟨a, l, kv, g, p, r, rfl⟩

theorem merge_ok (aug : V → V → V) (fuel : Nat) :
    ∀ (m : Mem K V) (t1 t2 : Tree K V) (p1 p2 : Ptr),
      t1.count + t2.count < fuel → Rep m p1 t1 → Rep m p2 t2 →
      (t1.addrs ++ t2.addrs).Nodup →
      ∃ m2 p, merge aug fuel m t1.ptr t2.ptr = Except.ok (m2, (mergeT aug fuel t1 t2).ptr) ∧
        Rep m2 p (mergeT aug fuel t1 t2) ∧
        ∀ x, x ∉ t1.addrs ++ t2.addrs → m2 x = m x := by
  induction fuel with
  | zero => intro m t1 t2 p1 p2 hf; simp at hf
  | succ fuel ih =>
    intro m t1 t2 p1 p2 hf h1 h2 hnd
    cases t1 with
    | nil =>
      exact ⟨m, p2, by simp [merge, mergeT, Tree.ptr_nil, pure_eq_ok], by simpa [mergeT] using h2,
        fun _ _ => rfl⟩
    | node a l1 kv1 g1 pr1 r1 =>
      cases t2 with
      | nil =>
        exact ⟨m, p1, by simp [merge, mergeT, Tree.ptr_nil, Tree.ptr_node, pure_eq_ok],
          by simpa [mergeT] using h1, fun _ _ => rfl⟩
      | node b l2 kv2 g2 pr2 r2 =>
        obtain ⟨ha, hl1, hr1⟩ := h1
        obtain ⟨hb, hl2, hr2⟩ := h2
        simp only [Tree.count] at hf
        simp only [Tree.addrs_node] at hnd
        by_cases hp : pr1 > pr2
        · -- the root of the first tree wins
          have hcnt : r1.count + (Tree.node b l2 kv2 g2 pr2 r2).count < fuel := by
            simp only [Tree.count]; omega
          have hnd1 : (r1.addrs ++ (Tree.node b l2 kv2 g2 pr2 r2).addrs).Nodup := by
            simp only [Tree.addrs_node]
            simp only [List.append_assoc, List.cons_append] at hnd
            exact ((List.nodup_append.1 hnd).2.1).of_cons
          obtain ⟨m1, q, hm, hrep, hfr⟩ := ih m r1 (Tree.node b l2 kv2 g2 pr2 r2) (some a) p2
            hcnt hr1 ⟨hb, hl2, hr2⟩ hnd1
          have hadd := mergeT_addrs aug fuel r1 (Tree.node b l2 kv2 g2 pr2 r2) hcnt
          have haM : a ∉ (mergeT aug fuel r1 (Tree.node b l2 kv2 g2 pr2 r2)).addrs := by
            rw [hadd]; simp only [Tree.addrs_node]
            simp only [List.append_assoc, List.cons_append] at hnd
            have := (List.nodup_append.1 hnd).2.1
            exact (List.nodup_cons.1 this).1
          have hal1 : a ∉ l1.addrs := by
            intro h
            exact (List.nodup_append.1 (List.nodup_append.1 hnd).1).2.2 h (by simp)
          obtain ⟨x, lM, kvM, gM, pM, rM, hM⟩ := Tree.node_of_mem
            (t := mergeT aug fuel r1 (Tree.node b l2 kv2 g2 pr2 r2)) (x := b)
            (by rw [hadd]; simp [Tree.addrs])
          rw [hM] at hrep hadd haM hm
          have hndM : (Tree.node x lM kvM gM pM rM).addrs.Nodup := by rw [hadd]; exact hnd1
          simp only [Tree.addrs_node] at hndM
          have hxl : x ∉ lM.addrs := fun h => (List.nodup_append.1 hndM).2.2 h (by simp)
          have hxr : x ∉ rM.addrs := (List.nodup_cons.1 (List.nodup_append.1 hndM).2.1).1
          have hxa : x ≠ a := fun e => haM (by simp [Tree.addrs, e])
          have hm1a : m1 a = m a := hfr a (by
            simp only [Tree.addrs_node, List.append_assoc, List.cons_append] at hnd ⊢
            have := (List.nodup_append.1 hnd).2.1
            simpa using (List.nodup_cons.1 this).1)
          rw [ha] at hm1a
          -- the final memory
          have hl1fr : ∀ y ∈ l1.addrs, y ∉ r1.addrs ++ (Tree.node b l2 kv2 g2 pr2 r2).addrs := by
            intro y hy hy2
            simp only [Tree.addrs_node, List.append_assoc, List.cons_append] at hnd
            exact (List.nodup_append.1 hnd).2.2 hy (List.mem_cons_of_mem _ hy2)
          have hrepB : Rep ((m1.write a (TreapNode.mk l1.ptr (some x) p1 kv1 g1 pr1)).write x
                (TreapNode.mk lM.ptr rM.ptr (some a) kvM gM pM)) p1
              (Tree.node a l1 kv1 g1 pr1 (Tree.node x lM kvM gM pM rM)) := by
            refine ⟨?_, ?_, ?_⟩
            · exact (write_other _ _ hxa.symm).trans (write_same _ _ _)
            · refine rep_congr (fun y hy => ?_) hl1
              have hy1 : y ≠ a := fun e => hal1 (e ▸ hy)
              have hy2 : y ≠ x := fun e => hl1fr y hy (by rw [← hadd]; simp [Tree.addrs, e])
              rw [write_other _ _ hy2, write_other _ _ hy1]
              exact hfr y (hl1fr y hy)
            · exact rep_reparent (some a) (rep_write _ haM hrep) hxl hxr
          obtain ⟨m3, hu, hrep3, hfr3⟩ := update_node_rep aug hrepB hal1 haM
          refine ⟨m3, p1, ?_, ?_, ?_⟩
          · simp only [Tree.ptr_node] at hm
            simp only [merge, Tree.ptr_node, load_ok ha, load_ok hb, ok_bind, hp, if_true, hm,
              setRight_ok hm1a, load_ok (write_same _ _ _), deref, pure_eq_ok,
              setParent_ok ((write_other _ _ hxa).trans hrep.1), hu, mergeT]
          · simpa [mergeT, hp, hM] using hrep3
          · intro y hy
            simp only [Tree.addrs_node, List.mem_append, List.mem_cons, not_or] at hy
            have hy1 : y ≠ a := by tauto
            have hy2 : y ≠ x := by
              intro e
              have : x ∈ r1.addrs ++ (Tree.node b l2 kv2 g2 pr2 r2).addrs := by
                rw [← hadd]; simp [Tree.addrs]
              simp only [Tree.addrs_node, List.mem_append, List.mem_cons] at this
              subst e; tauto
            rw [hfr3 y hy1, write_other _ _ hy2, write_other _ _ hy1]
            exact hfr y (by simp only [Tree.addrs_node, List.mem_append, List.mem_cons]; tauto)
        · -- the root of the second tree wins
          have hcnt : (Tree.node a l1 kv1 g1 pr1 r1).count + l2.count < fuel := by
            simp only [Tree.count]; omega
          have hnd1 : ((Tree.node a l1 kv1 g1 pr1 r1).addrs ++ l2.addrs).Nodup := by
            simp only [Tree.addrs_node]
            rw [← List.append_assoc] at hnd
            exact (List.nodup_append.1 hnd).1
          obtain ⟨m1, q, hm, hrep, hfr⟩ := ih m (Tree.node a l1 kv1 g1 pr1 r1) l2 p1 (some b)
            hcnt ⟨ha, hl1, hr1⟩ hl2 hnd1
          have hadd := mergeT_addrs aug fuel (Tree.node a l1 kv1 g1 pr1 r1) l2 hcnt
          have hb1 : b ∉ (Tree.node a l1 kv1 g1 pr1 r1).addrs := by
            intro h
            exact (List.nodup_append.1 hnd).2.2 h (by simp)
          have hbl2 : b ∉ l2.addrs := by
            intro h
            exact (List.nodup_append.1 (List.nodup_append.1 hnd).2.1).2.2 h (by simp)
          have hbr2 : b ∉ r2.addrs :=
            (List.nodup_cons.1 (List.nodup_append.1 (List.nodup_append.1 hnd).2.1).2.1).1
          have hbM : b ∉ (mergeT aug fuel (Tree.node a l1 kv1 g1 pr1 r1) l2).addrs := by
            rw [hadd]; simp only [List.mem_append, not_or]; exact ⟨hb1, hbl2⟩
          obtain ⟨x, lM, kvM, gM, pM, rM, hM⟩ := Tree.node_of_mem
            (t := mergeT aug fuel (Tree.node a l1 kv1 g1 pr1 r1) l2) (x := a)
            (by rw [hadd]; simp [Tree.addrs])
          rw [hM] at hrep hadd hbM hm
          have hndM : (Tree.node x lM kvM gM pM rM).addrs.Nodup := by rw [hadd]; exact hnd1
          simp only [Tree.addrs_node] at hndM
          have hxl : x ∉ lM.addrs := fun h => (List.nodup_append.1 hndM).2.2 h (by simp)
          have hxr : x ∉ rM.addrs := (List.nodup_cons.1 (List.nodup_append.1 hndM).2.1).1
          have hxb : x ≠ b := fun e => hbM (by simp [Tree.addrs, e])
          have hxmem : x ∈ (Tree.node a l1 kv1 g1 pr1 r1).addrs ++ l2.addrs := by
            rw [← hadd]; simp [Tree.addrs]
          have hm1b : m1 b = m b := hfr b (by
            simp only [List.mem_append, not_or]; exact ⟨hb1, hbl2⟩)
          rw [hb] at hm1b
          have hr2fr : ∀ y ∈ r2.addrs, y ∉ (Tree.node a l1 kv1 g1 pr1 r1).addrs ++ l2.addrs := by
            intro y hy hy2
            rcases List.mem_append.1 hy2 with h | h
            · exact (List.nodup_append.1 hnd).2.2 h (by simp [hy])
            · exact (List.nodup_append.1 (List.nodup_append.1 hnd).2.1).2.2 h (by simp [hy])
          have hrepB : Rep ((m1.write b (TreapNode.mk (some x) r2.ptr p2 kv2 g2 pr2)).write x
                (TreapNode.mk lM.ptr rM.ptr (some b) kvM gM pM)) p2
              (Tree.node b (Tree.node x lM kvM gM pM rM) kv2 g2 pr2 r2) := by
            refine ⟨?_, ?_, ?_⟩
            · exact (write_other _ _ hxb.symm).trans (write_same _ _ _)
            · exact rep_reparent (some b) (rep_write _ hbM hrep) hxl hxr
            · refine rep_congr (fun y hy => ?_) hr2
              have hy1 : y ≠ b := fun e => hbr2 (e ▸ hy)
              have hy2 : y ≠ x := fun e => hr2fr y hy (e ▸ hxmem)
              rw [write_other _ _ hy2, write_other _ _ hy1]
              exact hfr y (hr2fr y hy)
          obtain ⟨m3, hu, hrep3, hfr3⟩ := update_node_rep aug hrepB hbM hbr2
          refine ⟨m3, p2, ?_, ?_, ?_⟩
          · simp only [Tree.ptr_node] at hm
            simp only [merge, Tree.ptr_node, load_ok ha, load_ok hb, ok_bind, hp, if_false, hm,
              setLeft_ok hm1b, load_ok (write_same _ _ _), deref, pure_eq_ok,
              setParent_ok ((write_other _ _ hxb).trans hrep.1), hu, mergeT]
          · simpa [mergeT, hp, hM] using hrep3
          · intro y hy
            simp only [Tree.addrs_node, List.mem_append, List.mem_cons, not_or] at hy
            have hy1 : y ≠ b := by tauto
            have hy2 : y ≠ x := by
              intro e
              simp only [Tree.addrs_node, List.mem_append, List.mem_cons] at hxmem
              subst e; tauto
            rw [hfr3 y hy1, write_other _ _ hy2, write_other _ _ hy1]
            exact hfr y (by simp only [Tree.addrs_node, List.mem_append, List.mem_cons]; tauto)

end Merge

/-!
## Rotations
-/

section Rotate

variable {K V : Type}

/-- The statement `if (x) x->parent = p`, on the root of a stored tree. -/
theorem reparent_ok {m : Mem K V} {t : Tree K V} {q : Ptr} (p : Ptr)
    (hr : Rep m q t) (hnd : t.addrs.Nodup) :
    ∃ m2, (match t.ptr with
        | some x => setParent m x p
        | none => pure m) = Except.ok m2 ∧
      Rep m2 p t ∧ ∀ y, t.ptr ≠ some y → m2 y = m y := by
  cases t with
  | nil => exact ⟨m, rfl, trivial, fun _ _ => rfl⟩
  | node a l kv g pr r =>
    simp only [Tree.addrs_node] at hnd
    have hl : a ∉ l.addrs := fun h => (List.nodup_append.1 hnd).2.2 h (by simp)
    have hrr : a ∉ r.addrs := (List.nodup_cons.1 (List.nodup_append.1 hnd).2.1).1
    refine ⟨_, by simp only [Tree.ptr_node, setParent_ok hr.1], rep_reparent p hr hl hrr, ?_⟩
    intro y hy
    exact write_other _ _ (fun e => hy (by simp [Tree.ptr_node, e]))

theorem relink_ok {m : Mem K V} {c : List (Frame K V)} {node : Nat} {n : TreapNode K V}
    (x : Ptr) (hn : m node = some n) (hp : n.parent = ctxPtr c)
    (hc : RepCtx m c (some node)) (hnc : node ∉ ctxAddrs c) (hnd : (ctxAddrs c).Nodup) :
    ∃ m2, relink m (plugPtr c (some node)) node x = Except.ok (m2, plugPtr c x) ∧
      RepCtx m2 c x ∧ ∀ y, ctxPtr c ≠ some y → m2 y = m y := by
  cases c with
  | nil =>
    refine ⟨m, ?_, trivial, fun _ _ => rfl⟩
    simp only [ctxPtr] at hp
    simp [relink, load_ok hn, ok_bind, hp, pure_eq_ok, plugPtr]
  | cons f c =>
    cases f with
    | L a kv g p r =>
      obtain ⟨h1, h2, h3⟩ := hc
      simp only [ctxAddrs, Frame.addr, Frame.sibling, ctxPtr] at hnc hnd hp ⊢
      have har : a ∉ r.addrs := fun h => (List.nodup_cons.1 hnd).1 (by simp [h])
      have hac : a ∉ ctxAddrs c := fun h => (List.nodup_cons.1 hnd).1 (by simp [h])
      refine ⟨_, ?_, ⟨write_same _ _ _, rep_write _ har h2, repCtx_write _ hac h3⟩, ?_⟩
      · simp [relink, load_ok hn, ok_bind, hp, load_ok h1, setLeft_ok h1, pure_eq_ok, plugPtr,
          Frame.addr]
      · intro y hy
        exact write_other _ _ (fun e => hy (by rw [e]))
    | R a l kv g p =>
      obtain ⟨h1, h2, h3⟩ := hc
      simp only [ctxAddrs, Frame.addr, Frame.sibling, ctxPtr] at hnc hnd hp ⊢
      have hal : a ∉ l.addrs := fun h => (List.nodup_cons.1 hnd).1 (by simp [h])
      have hac : a ∉ ctxAddrs c := fun h => (List.nodup_cons.1 hnd).1 (by simp [h])
      have hne : l.ptr ≠ some node := Tree.ptr_ne (fun h => hnc (by simp [h]))
      refine ⟨_, ?_, ⟨write_same _ _ _, rep_write _ hal h2, repCtx_write _ hac h3⟩, ?_⟩
      · simp [relink, load_ok hn, ok_bind, hp, load_ok h1, setRight_ok h1, pure_eq_ok, plugPtr,
          Frame.addr, hne]
      · intro y hy
        exact write_other _ _ (fun e => hy (by rw [e]))

theorem rotate_right_ok (aug : V → V → V) {m : Mem K V} {c : List (Frame K V)} {pa n : Nat}
    {kvp kvn : K × V} {gp gn : V} {pp pn : Nat} {r ln rn : Tree K V}
    (hrep : Rep m none (plug (Frame.L pa kvp gp pp r :: c) (Tree.node n ln kvn gn pn rn)))
    (hnd : ((Tree.node n ln kvn gn pn rn).addrs ++
      ctxAddrs (Frame.L pa kvp gp pp r :: c)).Nodup) :
    ∃ m2, rotate_right aug m (plugPtr (Frame.L pa kvp gp pp r :: c) (some n)) pa =
        Except.ok (m2, plugPtr c (some n)) ∧
      Rep m2 none (plug c (Tree.node n ln kvn gp pn
        (Tree.node pa rn kvp (nodeAug aug rn kvp.2 r) pp r))) ∧
      ∀ y, y ∉ (Tree.node n ln kvn gn pn rn).addrs ++ ctxAddrs (Frame.L pa kvp gp pp r :: c) →
        m2 y = m y := by
  obtain ⟨⟨hpa, hr, hc⟩, hn, hln, hrn⟩ := rep_plug.1 hrep
  simp only [Tree.ptr_node, ctxPtr_cons, Frame.addr] at hpa hn hln hrn hr
  simp only [Tree.addrs_node, ctxAddrs, Frame.addr, Frame.sibling] at hnd ⊢
  -- distinctness of the addresses involved
  have hN := List.nodup_append.1 hnd
  have hN1 := List.nodup_append.1 hN.1
  have hN2 := List.nodup_cons.1 hN.2.1
  have hN3 := List.nodup_append.1 hN2.2
  have hnpa : n ≠ pa := fun e => nodup_disj hnd n (by simp) (by simp [e])
  have hn_ln : n ∉ ln.addrs := fun h => hN1.2.2 h (by simp)
  have hn_rn : n ∉ rn.addrs := (List.nodup_cons.1 hN1.2.1).1
  have hn_r : n ∉ r.addrs := fun h => nodup_disj hnd n (by simp) (by simp [h])
  have hn_c : n ∉ ctxAddrs c := fun h => nodup_disj hnd n (by simp) (by simp [h])
  have hpa_ln : pa ∉ ln.addrs := fun h => nodup_disj hnd pa (by simp [h]) (by simp)
  have hpa_rn : pa ∉ rn.addrs := fun h => nodup_disj hnd pa (by simp [h]) (by simp)
  have hpa_r : pa ∉ r.addrs := fun h => hN2.1 (by simp [h])
  have hpa_c : pa ∉ ctxAddrs c := fun h => hN2.1 (by simp [h])
  have hrn_nd : rn.addrs.Nodup := (List.nodup_cons.1 hN1.2.1).2
  have hc_nd : (ctxAddrs c).Nodup := hN3.2.1
  have hln_c : ∀ y ∈ ln.addrs, y ∉ ctxAddrs c := fun y hy h =>
    nodup_disj hnd y (by simp [hy]) (by simp [h])
  have hrn_c : ∀ y ∈ rn.addrs, y ∉ ctxAddrs c := fun y hy h =>
    nodup_disj hnd y (by simp [hy]) (by simp [h])
  have hr_c : ∀ y ∈ r.addrs, y ∉ ctxAddrs c := fun y hy h => hN3.2.2 hy h
  have hln_rn : ∀ y ∈ ln.addrs, y ∉ rn.addrs := fun y hy h => hN1.2.2 hy (by simp [h])
  have hr_rn : ∀ y ∈ r.addrs, y ∉ rn.addrs := fun y hy h =>
    nodup_disj hnd y (by simp [h]) (by simp [hy])
  -- 1: node->left->parent = node->parent
  have e1 := setParent_ok hn (ctxPtr c)
  simp only at e1
  -- 2: relink
  have hpa1 := (write_other m (TreapNode.mk ln.ptr rn.ptr (ctxPtr c) kvn gn pn) hnpa.symm).trans hpa
  obtain ⟨m2, e2, hc2, hfr2⟩ := relink_ok (some n) hpa1 rfl
    (repCtx_write (TreapNode.mk ln.ptr rn.ptr (ctxPtr c) kvn gn pn) hn_c hc) hpa_c hc_nd
  have hpa_h : ctxPtr c ≠ some pa := ctxPtr_ne hpa_c
  have hn_h : ctxPtr c ≠ some n := ctxPtr_ne hn_c
  have hpa2 := (hfr2 pa hpa_h).trans hpa1
  have hn2 := (hfr2 n hn_h).trans (write_same m n _)
  -- 6: the root of the subtree that changes sides gets its new parent
  have hrn2 : Rep ((m2.write pa (TreapNode.mk rn.ptr r.ptr (some n) kvp gp pp)).write n
      (TreapNode.mk ln.ptr (some pa) (ctxPtr c) kvn gn pn)) (some n) rn := by
    refine rep_congr (fun y hy => ?_) hrn
    have hy1 : y ≠ n := fun e => hn_rn (e ▸ hy)
    have hy2 : y ≠ pa := fun e => hpa_rn (e ▸ hy)
    have hy3 : ctxPtr c ≠ some y := ctxPtr_ne (hrn_c y hy)
    rw [write_other _ _ hy1, write_other _ _ hy2, hfr2 y hy3, write_other _ _ hy1]
  obtain ⟨m6, e6, hrn6, hfr6⟩ := reparent_ok (some pa) hrn2 hrn_nd
  have hpa6 : m6 pa = some (TreapNode.mk rn.ptr r.ptr (some n) kvp gp pp) := by
    rw [hfr6 pa (Tree.ptr_ne hpa_rn), write_other _ _ hnpa.symm, write_same]
  have hn6 : m6 n = some (TreapNode.mk ln.ptr (some pa) (ctxPtr c) kvn gn pn) := by
    rw [hfr6 n (Tree.ptr_ne hn_rn), write_same]
  -- the memory before update_node
  have hfr7 : ∀ y, y ≠ n → y ≠ pa → rn.ptr ≠ some y → ctxPtr c ≠ some y →
      (m6.write n (TreapNode.mk ln.ptr (some pa) (ctxPtr c) kvn gp pn)) y = m y := by
    intro y hy1 hy2 hy3 hy4
    rw [write_other _ _ hy1, hfr6 y hy3, write_other _ _ hy1, write_other _ _ hy2,
      hfr2 y hy4, write_other _ _ hy1]
  have hrep7 : Rep (m6.write n (TreapNode.mk ln.ptr (some pa) (ctxPtr c) kvn gp pn)) (some n)
      (Tree.node pa rn kvp gp pp r) := by
    refine ⟨(write_other _ _ hnpa.symm).trans hpa6, rep_write _ hn_rn hrn6, ?_⟩
    refine rep_congr (fun y hy => ?_) hr
    refine hfr7 y (fun e => hn_r (e ▸ hy)) (fun e => hpa_r (e ▸ hy))
      (Tree.ptr_ne (hr_rn y hy)) (ctxPtr_ne (hr_c y hy))
  obtain ⟨m8, e8, hrep8, hfr8⟩ := update_node_rep aug hrep7 hpa_rn hpa_r
  refine ⟨m8, ?_, ?_, ?_⟩
  · simp only [rotate_right, load_ok hpa, deref, pure_eq_ok, ok_bind, e1, plugPtr, Frame.addr,
      load_ok hpa1, e2, load_ok hpa2, setParent_ok hpa2, load_ok (write_same _ _ _),
      load_ok ((write_other _ _ hnpa).trans hn2), setLeft_ok (write_same _ _ _), write_write,
      setRight_ok ((write_other _ _ hnpa).trans hn2)]
    simp only [load_ok ((write_other _ _ hnpa.symm).trans (write_same _ _ _))]
    have e7 : copy_attr m6 pa n = Except.ok
        (m6.write n (TreapNode.mk ln.ptr (some pa) (ctxPtr c) kvn gp pn)) := by
      simp only [copy_attr, load_ok hpa6, ok_bind, setAugment_ok hn6]
    cases rn with
    | nil =>
      simp only [Tree.ptr_nil, pure_eq_ok, Except.ok.injEq] at e6 ⊢
      rw [e6]
      simp only [load_ok hpa6, ok_bind, e7, e8]
    | node x rl rkv rg rp rr =>
      simp only [Tree.ptr_node] at e6 ⊢
      simp only [e6, ok_bind, load_ok hpa6, e7, e8]
  · refine rep_plug.2 ⟨?_, ?_⟩
    · refine repCtx_congr (fun y hy => ?_) hc2
      have hy1 : y ≠ n := fun e => hn_c (e ▸ hy)
      have hy2 : y ≠ pa := fun e => hpa_c (e ▸ hy)
      have hy3 : rn.ptr ≠ some y := Tree.ptr_ne (fun h => hrn_c y h hy)
      rw [hfr8 y hy2, write_other _ _ hy1, hfr6 y hy3, write_other _ _ hy1, write_other _ _ hy2]
    · refine ⟨?_, ?_, hrep8⟩
      · rw [hfr8 n hnpa, write_same]; rfl
      · refine rep_congr (fun y hy => ?_) hln
        rw [hfr8 y (fun e => hpa_ln (e ▸ hy))]
        exact hfr7 y (fun e => hn_ln (e ▸ hy)) (fun e => hpa_ln (e ▸ hy))
          (Tree.ptr_ne (hln_rn y hy)) (ctxPtr_ne (hln_c y hy))
  · intro y hy
    simp only [List.mem_append, List.mem_cons, not_or] at hy
    rw [hfr8 y (by tauto)]
    exact hfr7 y (by tauto) (by tauto) (Tree.ptr_ne (by tauto)) (ctxPtr_ne (by tauto))


theorem rotate_left_ok (aug : V → V → V) {m : Mem K V} {c : List (Frame K V)} {pa n : Nat}
    {kvp kvn : K × V} {gp gn : V} {pp pn : Nat} {l ln rn : Tree K V}
    (hrep : Rep m none (plug (Frame.R pa l kvp gp pp :: c) (Tree.node n ln kvn gn pn rn)))
    (hnd : ((Tree.node n ln kvn gn pn rn).addrs ++
      ctxAddrs (Frame.R pa l kvp gp pp :: c)).Nodup) :
    ∃ m2, rotate_left aug m (plugPtr (Frame.R pa l kvp gp pp :: c) (some n)) pa =
        Except.ok (m2, plugPtr c (some n)) ∧
      Rep m2 none (plug c (Tree.node n
        (Tree.node pa l kvp (nodeAug aug l kvp.2 ln) pp ln) kvn gp pn rn)) ∧
      ∀ y, y ∉ (Tree.node n ln kvn gn pn rn).addrs ++ ctxAddrs (Frame.R pa l kvp gp pp :: c) →
        m2 y = m y := by
  obtain ⟨⟨hpa, hl, hc⟩, hn, hln, hrn⟩ := rep_plug.1 hrep
  simp only [Tree.ptr_node, ctxPtr_cons, Frame.addr] at hpa hn hln hrn hl
  simp only [Tree.addrs_node, ctxAddrs, Frame.addr, Frame.sibling] at hnd ⊢
  -- distinctness of the addresses involved
  have hN := List.nodup_append.1 hnd
  have hN1 := List.nodup_append.1 hN.1
  have hN2 := List.nodup_cons.1 hN.2.1
  have hN3 := List.nodup_append.1 hN2.2
  have hnpa : n ≠ pa := fun e => nodup_disj hnd n (by simp) (by simp [e])
  have hn_ln : n ∉ ln.addrs := fun h => hN1.2.2 h (by simp)
  have hn_rn : n ∉ rn.addrs := (List.nodup_cons.1 hN1.2.1).1
  have hn_l : n ∉ l.addrs := fun h => nodup_disj hnd n (by simp) (by simp [h])
  have hn_c : n ∉ ctxAddrs c := fun h => nodup_disj hnd n (by simp) (by simp [h])
  have hpa_ln : pa ∉ ln.addrs := fun h => nodup_disj hnd pa (by simp [h]) (by simp)
  have hpa_rn : pa ∉ rn.addrs := fun h => nodup_disj hnd pa (by simp [h]) (by simp)
  have hpa_l : pa ∉ l.addrs := fun h => hN2.1 (by simp [h])
  have hpa_c : pa ∉ ctxAddrs c := fun h => hN2.1 (by simp [h])
  have hln_nd : ln.addrs.Nodup := hN1.1
  have hc_nd : (ctxAddrs c).Nodup := hN3.2.1
  have hln_c : ∀ y ∈ ln.addrs, y ∉ ctxAddrs c := fun y hy h =>
    nodup_disj hnd y (by simp [hy]) (by simp [h])
  have hrn_c : ∀ y ∈ rn.addrs, y ∉ ctxAddrs c := fun y hy h =>
    nodup_disj hnd y (by simp [hy]) (by simp [h])
  have hl_c : ∀ y ∈ l.addrs, y ∉ ctxAddrs c := fun y hy h => hN3.2.2 hy h
  have hrn_ln : ∀ y ∈ rn.addrs, y ∉ ln.addrs := fun y hy h => hN1.2.2 h (by simp [hy])
  have hl_ln : ∀ y ∈ l.addrs, y ∉ ln.addrs := fun y hy h =>
    nodup_disj hnd y (by simp [h]) (by simp [hy])
  -- 1: node->right->parent = node->parent
  have e1 := setParent_ok hn (ctxPtr c)
  simp only at e1
  -- 2: relink
  have hpa1 := (write_other m (TreapNode.mk ln.ptr rn.ptr (ctxPtr c) kvn gn pn) hnpa.symm).trans hpa
  obtain ⟨m2, e2, hc2, hfr2⟩ := relink_ok (some n) hpa1 rfl
    (repCtx_write (TreapNode.mk ln.ptr rn.ptr (ctxPtr c) kvn gn pn) hn_c hc) hpa_c hc_nd
  have hpa_h : ctxPtr c ≠ some pa := ctxPtr_ne hpa_c
  have hn_h : ctxPtr c ≠ some n := ctxPtr_ne hn_c
  have hpa2 := (hfr2 pa hpa_h).trans hpa1
  have hn2 := (hfr2 n hn_h).trans (write_same m n _)
  -- 6: the root of the subtree that changes sides gets its new parent
  have hln2 : Rep ((m2.write pa (TreapNode.mk l.ptr ln.ptr (some n) kvp gp pp)).write n
      (TreapNode.mk (some pa) rn.ptr (ctxPtr c) kvn gn pn)) (some n) ln := by
    refine rep_congr (fun y hy => ?_) hln
    have hy1 : y ≠ n := fun e => hn_ln (e ▸ hy)
    have hy2 : y ≠ pa := fun e => hpa_ln (e ▸ hy)
    have hy3 : ctxPtr c ≠ some y := ctxPtr_ne (hln_c y hy)
    rw [write_other _ _ hy1, write_other _ _ hy2, hfr2 y hy3, write_other _ _ hy1]
  obtain ⟨m6, e6, hln6, hfr6⟩ := reparent_ok (some pa) hln2 hln_nd
  have hpa6 : m6 pa = some (TreapNode.mk l.ptr ln.ptr (some n) kvp gp pp) := by
    rw [hfr6 pa (Tree.ptr_ne hpa_ln), write_other _ _ hnpa.symm, write_same]
  have hn6 : m6 n = some (TreapNode.mk (some pa) rn.ptr (ctxPtr c) kvn gn pn) := by
    rw [hfr6 n (Tree.ptr_ne hn_ln), write_same]
  -- the memory before update_node
  have hfr7 : ∀ y, y ≠ n → y ≠ pa → ln.ptr ≠ some y → ctxPtr c ≠ some y →
      (m6.write n (TreapNode.mk (some pa) rn.ptr (ctxPtr c) kvn gp pn)) y = m y := by
    intro y hy1 hy2 hy3 hy4
    rw [write_other _ _ hy1, hfr6 y hy3, write_other _ _ hy1, write_other _ _ hy2,
      hfr2 y hy4, write_other _ _ hy1]
  have hrep7 : Rep (m6.write n (TreapNode.mk (some pa) rn.ptr (ctxPtr c) kvn gp pn)) (some n)
      (Tree.node pa l kvp gp pp ln) := by
    refine ⟨(write_other _ _ hnpa.symm).trans hpa6, ?_, rep_write _ hn_ln hln6⟩
    refine rep_congr (fun y hy => ?_) hl
    exact hfr7 y (fun e => hn_l (e ▸ hy)) (fun e => hpa_l (e ▸ hy))
      (Tree.ptr_ne (hl_ln y hy)) (ctxPtr_ne (hl_c y hy))
  obtain ⟨m8, e8, hrep8, hfr8⟩ := update_node_rep aug hrep7 hpa_l hpa_ln
  refine ⟨m8, ?_, ?_, ?_⟩
  · simp only [rotate_left, load_ok hpa, deref, pure_eq_ok, ok_bind, e1, plugPtr, Frame.addr,
      load_ok hpa1, e2, load_ok hpa2, setParent_ok hpa2, load_ok (write_same _ _ _),
      load_ok ((write_other _ _ hnpa).trans hn2), setRight_ok (write_same _ _ _), write_write,
      setLeft_ok ((write_other _ _ hnpa).trans hn2)]
    simp only [load_ok ((write_other _ _ hnpa.symm).trans (write_same _ _ _))]
    have e7 : copy_attr m6 pa n = Except.ok
        (m6.write n (TreapNode.mk (some pa) rn.ptr (ctxPtr c) kvn gp pn)) := by
      simp only [copy_attr, load_ok hpa6, ok_bind, setAugment_ok hn6]
    cases ln with
    | nil =>
      simp only [Tree.ptr_nil, pure_eq_ok, Except.ok.injEq] at e6 ⊢
      rw [e6]
      simp only [load_ok hpa6, ok_bind, e7, e8]
    | node x rl rkv rg rp rr =>
      simp only [Tree.ptr_node] at e6 ⊢
      simp only [e6, ok_bind, load_ok hpa6, e7, e8]
  · refine rep_plug.2 ⟨?_, ?_⟩
    · refine repCtx_congr (fun y hy => ?_) hc2
      have hy1 : y ≠ n := fun e => hn_c (e ▸ hy)
      have hy2 : y ≠ pa := fun e => hpa_c (e ▸ hy)
      have hy3 : ln.ptr ≠ some y := Tree.ptr_ne (fun h => hln_c y h hy)
      rw [hfr8 y hy2, write_other _ _ hy1, hfr6 y hy3, write_other _ _ hy1, write_other _ _ hy2]
    · refine ⟨?_, hrep8, ?_⟩
      · rw [hfr8 n hnpa, write_same]; rfl
      · refine rep_congr (fun y hy => ?_) hrn
        rw [hfr8 y (fun e => hpa_rn (e ▸ hy))]
        exact hfr7 y (fun e => hn_rn (e ▸ hy)) (fun e => hpa_rn (e ▸ hy))
          (Tree.ptr_ne (hrn_ln y hy)) (ctxPtr_ne (hrn_c y hy))
  · intro y hy
    simp only [List.mem_append, List.mem_cons, not_or] at hy
    rw [hfr8 y (by tauto)]
    exact hfr7 y (by tauto) (by tauto) (Tree.ptr_ne (by tauto)) (ctxPtr_ne (by tauto))

end Rotate

/-!
## The rotation loop of `set`
-/

section RotLoop

variable {K V : Type}

theorem rotUp_L_perm (c : List (Frame K V)) (pa n : Nat) (r ln rn : Tree K V)
    (kvp kvn : K × V) (gp gn g2 g3 : V) (pp pn : Nat) :
    List.Perm ((Tree.node n ln kvn g2 pn (Tree.node pa rn kvp g3 pp r)).addrs ++ ctxAddrs c)
      ((Tree.node n ln kvn gn pn rn).addrs ++ ctxAddrs (Frame.L pa kvp gp pp r :: c)) := by
  simp only [Tree.addrs_node, ctxAddrs, Frame.addr, Frame.sibling, List.append_assoc,
    List.cons_append]
  refine List.Perm.append_left _ (List.Perm.cons _ ?_)
  exact List.Perm.append_left _ (List.Perm.refl _)

theorem rotUp_R_perm (c : List (Frame K V)) (pa n : Nat) (l ln rn : Tree K V)
    (kvp kvn : K × V) (gp gn g2 g3 : V) (pp pn : Nat) :
    List.Perm ((Tree.node n (Tree.node pa l kvp g3 pp ln) kvn g2 pn rn).addrs ++ ctxAddrs c)
      ((Tree.node n ln kvn gn pn rn).addrs ++ ctxAddrs (Frame.R pa l kvp gp pp :: c)) := by
  simp only [Tree.addrs_node, ctxAddrs, Frame.addr, Frame.sibling, List.append_assoc,
    List.cons_append]
  -- l ++ pa :: ln ++ n :: rn ++ c  ~  ln ++ n :: rn ++ pa :: l ++ c
  have h1 : List.Perm (l.addrs ++ pa :: (ln.addrs ++ n :: (rn.addrs ++ ctxAddrs c)))
      ((pa :: l.addrs) ++ (ln.addrs ++ n :: rn.addrs) ++ ctxAddrs c) := by
    simp only [List.append_assoc, List.cons_append]
    exact List.perm_middle
  have h2 : List.Perm ((pa :: l.addrs) ++ (ln.addrs ++ n :: rn.addrs) ++ ctxAddrs c)
      ((ln.addrs ++ n :: rn.addrs) ++ (pa :: l.addrs) ++ ctxAddrs c) :=
    List.Perm.append_right _ List.perm_append_comm
  refine (h1.trans h2).trans ?_
  simp only [List.append_assoc, List.cons_append]
  exact List.Perm.refl _

theorem set_rotate_ok (aug : V → V → V) (c : List (Frame K V)) :
    ∀ (fuel : Nat) (m : Mem K V) (n : Nat) (ln rn : Tree K V) (kvn : K × V) (gn : V) (pn : Nat),
      c.length < fuel →
      Rep m none (plug c (Tree.node n ln kvn gn pn rn)) →
      ((Tree.node n ln kvn gn pn rn).addrs ++ ctxAddrs c).Nodup →
      ∃ m2, set_rotate aug fuel m (plugPtr c (some n)) n =
          Except.ok (m2, (rotUp aug c (Tree.node n ln kvn gn pn rn)).ptr) ∧
        Rep m2 none (rotUp aug c (Tree.node n ln kvn gn pn rn)) ∧
        ∀ y, y ∉ (Tree.node n ln kvn gn pn rn).addrs ++ ctxAddrs c → m2 y = m y := by
  induction c with
  | nil =>
    intro fuel m n ln rn kvn gn pn hf hrep _
    cases fuel with
    | zero => simp at hf
    | succ fuel =>
      refine ⟨m, ?_, hrep, fun _ _ => rfl⟩
      simp only [plug] at hrep
      simp only [set_rotate, load_ok hrep.1, ok_bind, pure_eq_ok, plugPtr, rotUp, Tree.ptr_node]
  | cons f c ih =>
    intro fuel m n ln rn kvn gn pn hf hrep hnd
    cases fuel with
    | zero => simp at hf
    | succ fuel =>
      cases f with
      | L pa kvp gp pp r =>
        obtain ⟨⟨hpa, hr, hc⟩, hn, hln, hrn⟩ := rep_plug.1 hrep
        simp only [Tree.ptr_node, ctxPtr_cons, Frame.addr] at hpa hn
        by_cases hlt : pp < pn
        · obtain ⟨m1, e1, hrep1, hfr1⟩ := rotate_right_ok aug hrep hnd
          have hnd1 := (rotUp_L_perm c pa n r ln rn kvp kvn gp gn gp
            (nodeAug aug rn kvp.2 r) pp pn).nodup_iff.2 hnd
          obtain ⟨m2, e2, hrep2, hfr2⟩ := ih fuel m1 n ln _ kvn gp pn (by simpa using hf)
            hrep1 hnd1
          refine ⟨m2, ?_, ?_, ?_⟩
          · simp only [set_rotate, load_ok hn, ok_bind, load_ok hpa, hlt, if_true, e1, e2, rotUp]
          · simpa only [rotUp, hlt, if_true] using hrep2
          · intro y hy
            rw [hfr2 y (fun h => hy ((rotUp_L_perm c pa n r ln rn kvp kvn gp gn gp
              (nodeAug aug rn kvp.2 r) pp pn).mem_iff.1 h)), hfr1 y hy]
        · refine ⟨m, ?_, by simpa only [rotUp, hlt, if_false] using hrep, fun _ _ => rfl⟩
          simp only [set_rotate, load_ok hn, ok_bind, load_ok hpa, hlt, if_false, pure_eq_ok,
            rotUp, plug_ptr, Tree.ptr_node]
      | R pa l kvp gp pp =>
        obtain ⟨⟨hpa, hl, hc⟩, hn, hln, hrn⟩ := rep_plug.1 hrep
        simp only [Tree.ptr_node, ctxPtr_cons, Frame.addr] at hpa hn
        have hne : l.ptr ≠ some n := Tree.ptr_ne (fun h =>
          nodup_disj hnd n (by simp [Tree.addrs]) (by simp [ctxAddrs, Frame.sibling, h]))
        by_cases hlt : pp < pn
        · obtain ⟨m1, e1, hrep1, hfr1⟩ := rotate_left_ok aug hrep hnd
          have hnd1 := (rotUp_R_perm c pa n l ln rn kvp kvn gp gn gp
            (nodeAug aug l kvp.2 ln) pp pn).nodup_iff.2 hnd
          obtain ⟨m2, e2, hrep2, hfr2⟩ := ih fuel m1 n _ rn kvn gp pn (by simpa using hf)
            hrep1 hnd1
          refine ⟨m2, ?_, ?_, ?_⟩
          · simp only [set_rotate, load_ok hn, ok_bind, load_ok hpa, hlt, if_true, hne, if_false,
              e1, e2, rotUp]
          · simpa only [rotUp, hlt, if_true] using hrep2
          · intro y hy
            rw [hfr2 y (fun h => hy ((rotUp_R_perm c pa n l ln rn kvp kvn gp gn gp
              (nodeAug aug l kvp.2 ln) pp pn).mem_iff.1 h)), hfr1 y hy]
        · refine ⟨m, ?_, by simpa only [rotUp, hlt, if_false] using hrep, fun _ _ => rfl⟩
          simp only [set_rotate, load_ok hn, ok_bind, load_ok hpa, hlt, if_false, pure_eq_ok,
            rotUp, plug_ptr, Tree.ptr_node]

end RotLoop

/-!
## The trees built by `set` and `erase`
-/

section Func

variable {K V : Type}

theorem refresh_addrs (aug : V → V → V) (c : List (Frame K V)) (t : Tree K V) :
    ctxAddrs (refresh aug c t) = ctxAddrs c := by
  induction c generalizing t with
  | nil => rfl
  | cons f c ih => cases f <;> simp [refresh, ctxAddrs, ih, Frame.addr, Frame.sibling]

theorem refresh_before (aug : V → V → V) (c : List (Frame K V)) (t : Tree K V) :
    ctxBefore (refresh aug c t) = ctxBefore c := by
  induction c generalizing t with
  | nil => rfl
  | cons f c ih => cases f <;> simp [refresh, ctxBefore, ih]

theorem refresh_after (aug : V → V → V) (c : List (Frame K V)) (t : Tree K V) :
    ctxAfter (refresh aug c t) = ctxAfter c := by
  induction c generalizing t with
  | nil => rfl
  | cons f c ih => cases f <;> simp [refresh, ctxAfter, ih]

theorem refresh_plugPtr (aug : V → V → V) (c : List (Frame K V)) (t : Tree K V) (h : Ptr) :
    plugPtr (refresh aug c t) h = plugPtr c h := by
  induction c generalizing t h with
  | nil => rfl
  | cons f c ih => cases f <;> simp [refresh, plugPtr, ih, Frame.addr]

theorem refresh_ctxPtr (aug : V → V → V) (c : List (Frame K V)) (t : Tree K V) :
    ctxPtr (refresh aug c t) = ctxPtr c := by
  cases c with
  | nil => rfl
  | cons f c => cases f <;> rfl

theorem rotUp_addrs_perm (aug : V → V → V) (c : List (Frame K V)) (t : Tree K V) :
    List.Perm (rotUp aug c t).addrs (t.addrs ++ ctxAddrs c) := by
  induction c generalizing t with
  | nil => simp [rotUp, ctxAddrs]
  | cons f c ih =>
    cases t with
    | nil => cases f <;> exact plug_addrs_perm _ _
    | node n ln kvn gn pn rn =>
      cases f with
      | L pa kvp gp pp r =>
        simp only [rotUp]
        split
        · exact (ih _).trans (rotUp_L_perm c pa n r ln rn kvp kvn gp gn gp _ pp pn)
        · exact plug_addrs_perm _ _
      | R pa l kvp gp pp =>
        simp only [rotUp]
        split
        · exact (ih _).trans (rotUp_R_perm c pa n l ln rn kvp kvn gp gn gp _ pp pn)
        · exact plug_addrs_perm _ _

theorem rotUp_toList (aug : V → V → V) (c : List (Frame K V)) (t : Tree K V) :
    (rotUp aug c t).toList = ctxBefore c ++ t.toList ++ ctxAfter c := by
  induction c generalizing t with
  | nil => simp [rotUp, ctxBefore, ctxAfter]
  | cons f c ih =>
    cases t with
    | nil => cases f <;> exact plug_toList _ _
    | node n ln kvn gn pn rn =>
      cases f with
      | L pa kvp gp pp r =>
        simp only [rotUp]
        split
        · rw [ih]; simp [Tree.toList, ctxBefore, ctxAfter]
        · exact plug_toList _ _
      | R pa l kvp gp pp =>
        simp only [rotUp]
        split
        · rw [ih]; simp [Tree.toList, ctxBefore, ctxAfter]
        · exact plug_toList _ _

/-- In a stored tree, a node whose parent pointer is null is the root. -/
theorem rep_parent_root {m : Mem K V} {t : Tree K V} {p : Ptr} {n : Nat} {cell : TreapNode K V}
    (hr : Rep m p t) (hn : n ∈ t.addrs) (hc : m n = some cell) :
    (t.ptr = some n ∧ cell.parent = p) ∨ ∃ a, cell.parent = some a := by
  induction t generalizing p with
  | nil => simp [Tree.addrs] at hn
  | node a l kv g pr r ihl ihr =>
    obtain ⟨h1, h2, h3⟩ := hr
    simp only [Tree.addrs_node, List.mem_append, List.mem_cons] at hn
    rcases hn with h | h | h
    · rcases ihl h2 h with ⟨_, h5⟩ | h5
      · exact Or.inr ⟨a, h5⟩
      · exact Or.inr h5
    · subst h
      rw [h1] at hc
      simp only [Option.some.injEq] at hc
      subst hc
      exact Or.inl ⟨rfl, rfl⟩
    · rcases ihr h3 h with ⟨_, h5⟩ | h5
      · exact Or.inr ⟨a, h5⟩
      · exact Or.inr h5

variable [LinearOrder K]

end Func

/-!
## The contract on association lists, and where the search ends
-/

section SpecLists

variable {K V : Type} [LinearOrder K]

theorem filter_all {α : Type} (p : α → Bool) (xs : List α) (h : ∀ x ∈ xs, p x = true) :
    xs.filter p = xs :=
  List.filter_eq_self.2 h

theorem filter_none {α : Type} (p : α → Bool) (xs : List α) (h : ∀ x ∈ xs, p x = false) :
    xs.filter p = [] :=
  List.filter_eq_nil_iff.2 (fun x hx => by simp [h x hx])

theorem specSet_mid (k : K) (v : V) (B A : List (K × V))
    (hB : ∀ x ∈ B, x.1 < k) (hA : ∀ x ∈ A, k < x.1) :
    specSet k v (B ++ A) = B ++ (k, v) :: A := by
  simp only [specSet, List.filter_append]
  rw [filter_all _ B (by simpa using hB),
    filter_none _ A (fun x hx => by simpa using le_of_lt (hA x hx)),
    filter_none _ B (fun x hx => by simpa using le_of_lt (hB x hx)),
    filter_all _ A (by simpa using hA)]
  simp

theorem specSet_at (k : K) (v w : V) (B A : List (K × V))
    (hB : ∀ x ∈ B, x.1 < k) (hA : ∀ x ∈ A, k < x.1) :
    specSet k v (B ++ (k, w) :: A) = B ++ (k, v) :: A := by
  simp only [specSet, List.filter_append, List.filter_cons, lt_self_iff_false, decide_False]
  rw [filter_all _ B (by simpa using hB),
    filter_none _ A (fun x hx => by simpa using le_of_lt (hA x hx)),
    filter_none _ B (fun x hx => by simpa using le_of_lt (hB x hx)),
    filter_all _ A (by simpa using hA)]
  simp

theorem specErase_mid (k : K) (B A : List (K × V))
    (hB : ∀ x ∈ B, x.1 < k) (hA : ∀ x ∈ A, k < x.1) :
    specErase k (B ++ A) = B ++ A := by
  simp only [specErase]
  refine filter_all _ _ (fun x hx => ?_)
  rcases List.mem_append.1 hx with h | h
  · simpa using ne_of_lt (hB x h)
  · simpa using ne_of_gt (hA x h)

theorem specErase_at (k : K) (w : V) (B A : List (K × V))
    (hB : ∀ x ∈ B, x.1 < k) (hA : ∀ x ∈ A, k < x.1) :
    specErase k (B ++ (k, w) :: A) = B ++ A := by
  simp only [specErase, List.filter_append, List.filter_cons, ne_eq, not_true_eq_false,
    decide_False]
  rw [filter_all _ B (fun x hx => by simpa using ne_of_lt (hB x hx)),
    filter_all _ A (fun x hx => by simpa using ne_of_gt (hA x hx))]
  simp

theorem keysIncreasing_specSet (k : K) (v : V) (xs : List (K × V)) (h : KeysIncreasing xs) :
    KeysIncreasing (specSet k v xs) := by
  unfold KeysIncreasing specSet
  rw [List.pairwise_append]
  refine ⟨h.sublist (List.filter_sublist _), ?_, ?_⟩
  · rw [List.pairwise_cons]
    refine ⟨fun y hy => ?_, h.sublist (List.filter_sublist _)⟩
    simpa using (List.mem_filter.1 hy).2
  · intro x hx y hy
    have hx1 : x.1 < k := by simpa using (List.mem_filter.1 hx).2
    rcases List.mem_cons.1 hy with rfl | hy
    · exact hx1
    · have hy1 : k < y.1 := by simpa using (List.mem_filter.1 hy).2
      exact lt_trans hx1 hy1

theorem keysIncreasing_specErase (k : K) (xs : List (K × V)) (h : KeysIncreasing xs) :
    KeysIncreasing (specErase k xs) :=
  List.Pairwise.sublist (List.filter_sublist _) h

theorem descend_split (k : K) (c : List (Frame K V)) (t : Tree K V)
    (hs : KeysIncreasing (plug c t).toList) (hc : CtxSplit k c) :
    CtxSplit k (descend k c t).1 := by
  induction t generalizing c with
  | nil => exact hc
  | node a l kv g p r ihl ihr =>
    have hs2 := hs
    rw [plug_toList] at hs2
    unfold KeysIncreasing at hs2
    simp only [Tree.toList] at hs2
    unfold descend
    split
    · rename_i hlt
      refine ihl _ hs ⟨hc.1, ?_⟩
      intro x hx
      simp only [ctxAfter, List.mem_cons, List.mem_append] at hx
      rcases hx with (rfl | hx) | hx
      · exact hlt
      · have := (List.pairwise_append.1 (List.pairwise_append.1
          (List.pairwise_append.1 hs2).1).2.1).2.1
        exact lt_trans hlt ((List.pairwise_cons.1 this).1 x hx)
      · exact hc.2 x hx
    · rename_i hnlt
      split
      · rename_i hlt
        refine ihr _ hs ⟨?_, hc.2⟩
        intro x hx
        simp only [ctxBefore, List.mem_append, List.mem_singleton] at hx
        rcases hx with (hx | hx) | rfl
        · exact hc.1 x hx
        · have := (List.pairwise_append.1 (List.pairwise_append.1
            (List.pairwise_append.1 hs2).1).2.1).2.2
          exact lt_trans (this x hx kv (by simp)) hlt
        · exact hlt
      · exact hc

/-- The pairs on both sides of the node found by the search. -/
theorem descend_sides (k : K) (t : Tree K V) (hs : KeysIncreasing t.toList)
    {c : List (Frame K V)} {a : Nat} {l r : Tree K V} {kv : K × V} {g : V} {p : Nat}
    (hd : descend k [] t = (c, Tree.node a l kv g p r)) :
    kv.1 = k ∧ (∀ x ∈ ctxBefore c ++ l.toList, x.1 < k) ∧
      (∀ x ∈ r.toList ++ ctxAfter c, k < x.1) ∧
      t.toList = (ctxBefore c ++ l.toList) ++ kv :: (r.toList ++ ctxAfter c) := by
  have hkey : kv.1 = k := descend_key k [] t (by rw [hd])
  have hpl : plug c (Tree.node a l kv g p r) = t := by
    have := plug_descend k [] t
    rw [hd] at this
    exact this
  have hsp : CtxSplit k c := by
    have := descend_split k [] t hs ⟨by simp [ctxBefore], by simp [ctxAfter]⟩
    rw [hd] at this
    exact this
  have hl : t.toList = (ctxBefore c ++ l.toList) ++ kv :: (r.toList ++ ctxAfter c) := by
    rw [← hpl, plug_toList]; simp [Tree.toList]
  have hs2 := hs
  rw [hl] at hs2
  unfold KeysIncreasing at hs2
  refine ⟨hkey, ?_, ?_, hl⟩
  · intro x hx
    have := (List.pairwise_append.1 hs2).2.2 x hx kv (by simp)
    rwa [hkey] at this
  · intro x hx
    have := (List.pairwise_cons.1 (List.pairwise_append.1 hs2).2.1).1 x hx
    rwa [hkey] at this

/-- The pairs on both sides of the place where the search ends without
finding the key. -/
theorem descend_gap (k : K) (t : Tree K V) (hs : KeysIncreasing t.toList)
    {c : List (Frame K V)} (hd : descend k [] t = (c, Tree.nil)) :
    (∀ x ∈ ctxBefore c, x.1 < k) ∧ (∀ x ∈ ctxAfter c, k < x.1) ∧
      t.toList = ctxBefore c ++ ctxAfter c ∧ plug c Tree.nil = t := by
  have hpl : plug c Tree.nil = t := by
    have := plug_descend k [] t
    rw [hd] at this
    exact this
  have hsp : CtxSplit k c := by
    have := descend_split k [] t hs ⟨by simp [ctxBefore], by simp [ctxAfter]⟩
    rw [hd] at this
    exact this
  refine ⟨hsp.1, hsp.2, ?_, hpl⟩
  rw [← hpl, plug_toList]; simp [Tree.toList]

end SpecLists

/-!
## `set` on a container that holds a tree
-/

section SetOk

variable {K V : Type}

theorem length_le_of_bound (l : List Nat) (n : Nat) (hnd : l.Nodup) (hb : ∀ a ∈ l, a < n) :
    l.length ≤ n := by
  have h1 : l.toFinset ⊆ Finset.range n := by
    intro a ha
    simp only [List.mem_toFinset] at ha
    simp [hb a ha]
  have h2 := Finset.card_le_card h1
  rw [List.toFinset_card_of_nodup hnd, Finset.card_range] at h2
  exact h2

theorem rep_cell {m : Mem K V} {t : Tree K V} {p : Ptr} {n : Nat}
    (hr : Rep m p t) (hn : n ∈ t.addrs) : ∃ cell, m n = some cell := by
  induction t generalizing p with
  | nil => simp [Tree.addrs] at hn
  | node a l kv g pr r ihl ihr =>
    obtain ⟨h1, h2, h3⟩ := hr
    simp only [Tree.addrs_node, List.mem_append, List.mem_cons] at hn
    rcases hn with h | h | h
    · exact ihl h2 h
    · exact ⟨_, h ▸ h1⟩
    · exact ihr h3 h

variable [LinearOrder K]

theorem Good.count_le {s : Treemap K V} {t : Tree K V} (hg : Good s t) : t.count ≤ s.brk := by
  rw [Tree.count_eq_length]
  exact length_le_of_bound _ _ hg.nodup hg.bound

theorem set_new_ok (aug : V → V → V) {s : Treemap K V} {t : Tree K V} (hg : Good s t)
    (k : K) (v : V) (prio : Nat) {c : List (Frame K V)}
    (hd : descend k [] t = (c, Tree.nil)) :
    ∃ s2, set aug s k v prio = Except.ok s2 ∧
      Rep s2.mem none (rotUp aug (refresh aug c (Tree.node s.brk Tree.nil (k, v) v prio Tree.nil))
        (Tree.node s.brk Tree.nil (k, v) v prio Tree.nil)) ∧
      s2.root = (rotUp aug (refresh aug c (Tree.node s.brk Tree.nil (k, v) v prio Tree.nil))
        (Tree.node s.brk Tree.nil (k, v) v prio Tree.nil)).ptr ∧
      s2.id = s.id ∧ s2.brk = s.brk + 1 ∧ s2.tsize = s.tsize + 1 := by
  obtain ⟨hB, hA, hlist, hpl⟩ := descend_gap k t hg.sorted hd
  have hcnt := hg.count_le
  have hsearch := set_search_ok k (c := []) hg.rep (by omega : t.count < s.brk + 1)
  rw [hd] at hsearch
  simp only [Tree.ptr_nil, ctxPtr_nil] at hsearch
  rw [← hg.root] at hsearch
  have hperm := plug_addrs_perm c (Tree.nil : Tree K V)
  rw [hpl] at hperm
  simp only [Tree.addrs, List.nil_append] at hperm
  have hcnd : (ctxAddrs c).Nodup := hperm.nodup_iff.1 hg.nodup
  have hac : s.brk ∉ ctxAddrs c := fun h =>
    absurd (hg.bound _ (hperm.mem_iff.2 h)) (lt_irrefl _)
  have hrep0 := hg.rep
  rw [← hpl] at hrep0
  obtain ⟨hc0, -⟩ := rep_plug.1 hrep0
  simp only [Tree.ptr_nil] at hc0
  have hlen : c.length ≤ s.brk := by
    have := descend_size k [] t
    rw [hd] at this
    simp only [Tree.count, List.length_nil] at this
    omega
  have hnd2 : ((Tree.node s.brk Tree.nil (k, v) v prio Tree.nil : Tree K V).addrs ++
      ctxAddrs c).Nodup := by
    simp only [Tree.addrs, List.nil_append, List.cons_append]
    exact List.nodup_cons.2 ⟨hac, hcnd⟩
  -- what follows the linking of the leaf
  have htail : ∀ m2 : Mem K V,
      Rep m2 none (plug c (Tree.node s.brk Tree.nil (k, v) v prio Tree.nil)) →
      ∃ s2, (do
          let m ← update_ancestors aug (s.brk + 2) m2 s.brk
          let d ← set_rotate aug (s.brk + 2) m (plugPtr c (some s.brk)) s.brk
          let n ← load d.1 s.brk
          (pure { mem := d.1, brk := s.brk + 1,
                  root := if n.parent = none then some s.brk else d.2,
                  id := s.id, tsize := s.tsize + 1 } : Exec (Treemap K V))) = Except.ok s2 ∧
        Rep s2.mem none (rotUp aug
          (refresh aug c (Tree.node s.brk Tree.nil (k, v) v prio Tree.nil))
          (Tree.node s.brk Tree.nil (k, v) v prio Tree.nil)) ∧
        s2.root = (rotUp aug (refresh aug c (Tree.node s.brk Tree.nil (k, v) v prio Tree.nil))
          (Tree.node s.brk Tree.nil (k, v) v prio Tree.nil)).ptr ∧
        s2.id = s.id ∧ s2.brk = s.brk + 1 ∧ s2.tsize = s.tsize + 1 := by
    intro m2 hrep2
    obtain ⟨hc2, hleaf2⟩ := rep_plug.1 hrep2
    obtain ⟨m3, e3, hrep3, -⟩ := update_ancestors_ok aug c (s.brk + 2) m2 _ s.brk _
      (by omega) hleaf2.1 rfl hc2 hleaf2 hnd2
    have hnd3 : ((Tree.node s.brk Tree.nil (k, v) v prio Tree.nil : Tree K V).addrs ++
        ctxAddrs (refresh aug c (Tree.node s.brk Tree.nil (k, v) v prio Tree.nil))).Nodup := by
      rw [refresh_addrs]; exact hnd2
    obtain ⟨m4, e4, hrep4, -⟩ := set_rotate_ok aug
      (refresh aug c (Tree.node s.brk Tree.nil (k, v) v prio Tree.nil)) (s.brk + 2) m3 s.brk
      Tree.nil Tree.nil (k, v) v prio (by rw [refresh_length]; omega) hrep3 hnd3
    rw [refresh_plugPtr] at e4
    have hmem : s.brk ∈ (rotUp aug
        (refresh aug c (Tree.node s.brk Tree.nil (k, v) v prio Tree.nil))
        (Tree.node s.brk Tree.nil (k, v) v prio Tree.nil)).addrs :=
      (rotUp_addrs_perm aug _ _).mem_iff.2 (by simp [Tree.addrs])
    obtain ⟨cell, hcell⟩ := rep_cell hrep4 hmem
    refine ⟨{ mem := m4, brk := s.brk + 1,
              root := if cell.parent = none then some s.brk else (rotUp aug
                (refresh aug c (Tree.node s.brk Tree.nil (k, v) v prio Tree.nil))
                (Tree.node s.brk Tree.nil (k, v) v prio Tree.nil)).ptr,
              id := s.id, tsize := s.tsize + 1 },
      by simp only [e3, ok_bind, e4, load_ok hcell, pure_eq_ok], hrep4, ?_, rfl, rfl, rfl⟩
    rcases rep_parent_root hrep4 hmem hcell with ⟨h1, h2⟩ | ⟨b, h2⟩
    · simp [h1, h2]
    · simp [h2]
  cases c with
  | nil =>
    have hrep2 : Rep (s.mem.write s.brk (TreapNode.mk none none none (k, v) v prio)) none
        (plug [] (Tree.node s.brk Tree.nil (k, v) v prio Tree.nil)) :=
      ⟨write_same _ _ _, trivial, trivial⟩
    simp only [set, hsearch, ok_bind, setParent_ok (write_same _ _ _), write_write, ctxPtr_nil,
      pure_eq_ok]
    exact htail _ hrep2
  | cons f c =>
    have hroot : s.root = plugPtr (f :: c) (some s.brk) := by
      rw [hg.root, ← hpl, plug_ptr]; rfl
    cases f with
    | L p kvp gp pp r =>
      obtain ⟨hp, hr, hc1⟩ := hc0
      simp only [ctxAddrs, Frame.addr, Frame.sibling] at hac hcnd
      have hpb : p ≠ s.brk := fun e => hac (by simp [e])
      have hlt : k < kvp.1 := hA kvp (by simp [ctxAfter])
      have hp_r : p ∉ r.addrs := fun h => (List.nodup_cons.1 hcnd).1 (by simp [h])
      have hp_c : p ∉ ctxAddrs c := fun h => (List.nodup_cons.1 hcnd).1 (by simp [h])
      have hp1 := (write_other s.mem (TreapNode.mk none none (some p) (k, v) v prio) hpb).trans hp
      have hrep2 : Rep ((s.mem.write s.brk (TreapNode.mk none none (some p) (k, v) v prio)).write p
          (TreapNode.mk (some s.brk) r.ptr (ctxPtr c) kvp gp pp)) none
          (plug (Frame.L p kvp gp pp r :: c) (Tree.node s.brk Tree.nil (k, v) v prio Tree.nil)) := by
        refine rep_plug.2 ⟨⟨write_same _ _ _, ?_, ?_⟩, ?_, trivial, trivial⟩
        · exact rep_write _ hp_r (rep_write _ (fun h => hac (by simp [h])) hr)
        · exact repCtx_write _ hp_c (repCtx_write _ (fun h => hac (by simp [h])) hc1)
        · exact (write_other _ _ hpb.symm).trans (write_same _ _ _)
      simp only [set, hsearch, ok_bind]
      simp only [ok_bind, setParent_ok (write_same _ _ _), write_write, ctxPtr_cons,
        Frame.addr, pure_eq_ok, load_ok hp1, hlt, if_true, setLeft_ok hp1, hroot]
      exact htail _ hrep2
    | R p l kvp gp pp =>
      obtain ⟨hp, hl, hc1⟩ := hc0
      simp only [ctxAddrs, Frame.addr, Frame.sibling] at hac hcnd
      have hpb : p ≠ s.brk := fun e => hac (by simp [e])
      have hlt : ¬ k < kvp.1 := not_lt.2 (le_of_lt (hB kvp (by simp [ctxBefore])))
      have hp_l : p ∉ l.addrs := fun h => (List.nodup_cons.1 hcnd).1 (by simp [h])
      have hp_c : p ∉ ctxAddrs c := fun h => (List.nodup_cons.1 hcnd).1 (by simp [h])
      have hp1 := (write_other s.mem (TreapNode.mk none none (some p) (k, v) v prio) hpb).trans hp
      have hrep2 : Rep ((s.mem.write s.brk (TreapNode.mk none none (some p) (k, v) v prio)).write p
          (TreapNode.mk l.ptr (some s.brk) (ctxPtr c) kvp gp pp)) none
          (plug (Frame.R p l kvp gp pp :: c) (Tree.node s.brk Tree.nil (k, v) v prio Tree.nil)) := by
        refine rep_plug.2 ⟨⟨write_same _ _ _, ?_, ?_⟩, ?_, trivial, trivial⟩
        · exact rep_write _ hp_l (rep_write _ (fun h => hac (by simp [h])) hl)
        · exact repCtx_write _ hp_c (repCtx_write _ (fun h => hac (by simp [h])) hc1)
        · exact (write_other _ _ hpb.symm).trans (write_same _ _ _)
      simp only [set, hsearch, ok_bind]
      simp only [ok_bind, setParent_ok (write_same _ _ _), write_write, ctxPtr_cons,
        Frame.addr, pure_eq_ok, load_ok hp1, hlt, if_false, setRight_ok hp1, hroot]
      exact htail _ hrep2

theorem set_found_ok (aug : V → V → V) {s : Treemap K V} {t : Tree K V} (hg : Good s t)
    (k : K) (v : V) (prio : Nat) {c : List (Frame K V)} {b : Nat} {l r : Tree K V}
    {kv : K × V} {g : V} {p : Nat}
    (hd : descend k [] t = (c, Tree.node b l kv g p r)) :
    ∃ s2, set aug s k v prio = Except.ok s2 ∧
      Rep s2.mem none (plug (refresh aug c (Tree.node b l (kv.1, v) (nodeAug aug l v r) p r))
        (Tree.node b l (kv.1, v) (nodeAug aug l v r) p r)) ∧
      s2.root = (plug (refresh aug c (Tree.node b l (kv.1, v) (nodeAug aug l v r) p r))
        (Tree.node b l (kv.1, v) (nodeAug aug l v r) p r)).ptr ∧
      s2.id = s.id ∧ s2.brk = s.brk ∧ s2.tsize = s.tsize := by
  have hpl : plug c (Tree.node b l kv g p r) = t := by
    have := plug_descend k [] t
    rw [hd] at this
    exact this
  have hcnt := hg.count_le
  have hsearch := set_search_ok k (c := []) hg.rep (by omega : t.count < s.brk + 1)
  rw [hd] at hsearch
  simp only [Tree.ptr_node, ctxPtr_nil] at hsearch
  rw [← hg.root] at hsearch
  have hperm := plug_addrs_perm c (Tree.node b l kv g p r)
  rw [hpl] at hperm
  have hnd : ((Tree.node b l kv g p r).addrs ++ ctxAddrs c).Nodup := hperm.nodup_iff.1 hg.nodup
  have hrep0 := hg.rep
  rw [← hpl] at hrep0
  obtain ⟨hc0, hb, hl, hr⟩ := rep_plug.1 hrep0
  simp only [Tree.ptr_node] at hc0
  have hlen : c.length < s.brk := by
    have := descend_size k [] t
    rw [hd] at this
    simp only [Tree.count, List.length_nil] at this
    omega
  simp only [Tree.addrs_node] at hnd
  have hN := List.nodup_append.1 hnd
  have hb_l : b ∉ l.addrs := fun h => (List.nodup_append.1 hN.1).2.2 h (by simp)
  have hb_r : b ∉ r.addrs := (List.nodup_cons.1 (List.nodup_append.1 hN.1).2.1).1
  have hb_c : b ∉ ctxAddrs c := fun h => nodup_disj hnd b (by simp) h
  have hrep1 : Rep (s.mem.write b (TreapNode.mk l.ptr r.ptr (ctxPtr c) (kv.1, v) g p)) (ctxPtr c)
      (Tree.node b l (kv.1, v) g p r) :=
    ⟨write_same _ _ _, rep_write _ hb_l hl, rep_write _ hb_r hr⟩
  obtain ⟨m2, e2, hrep2, hfr2⟩ := update_node_rep aug hrep1 hb_l hb_r
  have hc2 : RepCtx m2 c (Tree.node b l (kv.1, v) (nodeAug aug l v r) p r).ptr := by
    refine repCtx_congr (fun y hy => ?_) hc0
    have hyb : y ≠ b := fun e => hb_c (e ▸ hy)
    rw [hfr2 y hyb, write_other _ _ hyb]
  obtain ⟨m3, e3, hrep3, -⟩ := update_ancestors_ok aug c (s.brk + 1) m2
    (Tree.node b l (kv.1, v) (nodeAug aug l v r) p r) b _ (by omega) hrep2.1 rfl hc2 hrep2
    (by simpa only [Tree.addrs_node] using hnd)
  refine ⟨{ s with mem := m3 }, ?_, hrep3, ?_, rfl, rfl, rfl⟩
  · simp only [set, hsearch, ok_bind, setItem_ok hb, e2, e3, pure_eq_ok]
  · show s.root = _
    rw [hg.root, ← hpl, plug_ptr, plug_ptr, refresh_plugPtr]; rfl

end SetOk
section SetGood

variable {K V : Type} [LinearOrder K]

theorem setT_toList (aug : V → V → V) (t : Tree K V) (hs : KeysIncreasing t.toList)
    (k : K) (v : V) (prio a : Nat) :
    (setT aug t k v prio a).toList = specSet k v t.toList := by
  rcases hd : descend k [] t with ⟨c, t2⟩
  cases t2 with
  | nil =>
    obtain ⟨hB, hA, hlist, -⟩ := descend_gap k t hs hd
    simp only [setT, hd, rotUp_toList, refresh_before, refresh_after, Tree.toList]
    rw [hlist, specSet_mid k v _ _ hB hA]
    simp
  | node b l kv g p r =>
    obtain ⟨hkey, hB, hA, hlist⟩ := descend_sides k t hs hd
    simp only [setT, hd, plug_toList, refresh_before, refresh_after, Tree.toList]
    have hkv : kv = (k, kv.2) := by rw [← hkey]
    rw [hlist, hkv, specSet_at k v kv.2 _ _ hB hA]
    simp

theorem setT_addrs_new (aug : V → V → V) (t : Tree K V) (k : K) (v : V) (prio a : Nat)
    {c : List (Frame K V)} (hd : descend k [] t = (c, Tree.nil)) :
    List.Perm (setT aug t k v prio a).addrs (a :: t.addrs) := by
  have hpl : plug c Tree.nil = t := by
    have := plug_descend k [] t
    rw [hd] at this
    exact this
  simp only [setT, hd]
  refine (rotUp_addrs_perm aug _ _).trans ?_
  rw [refresh_addrs]
  have := plug_addrs_perm c (Tree.nil : Tree K V)
  rw [hpl] at this
  simp only [Tree.addrs, List.nil_append, List.cons_append] at this ⊢
  exact List.Perm.cons _ this.symm

theorem setT_addrs_found (aug : V → V → V) (t : Tree K V) (k : K) (v : V) (prio a : Nat)
    {c : List (Frame K V)} {b : Nat} {l r : Tree K V} {kv : K × V} {g : V} {p : Nat}
    (hd : descend k [] t = (c, Tree.node b l kv g p r)) :
    List.Perm (setT aug t k v prio a).addrs t.addrs := by
  have hpl : plug c (Tree.node b l kv g p r) = t := by
    have := plug_descend k [] t
    rw [hd] at this
    exact this
  simp only [setT, hd]
  refine (plug_addrs_perm _ _).trans ?_
  rw [refresh_addrs]
  have := plug_addrs_perm c (Tree.node b l kv g p r)
  rw [hpl] at this
  exact this.symm

/-- `set` on a container that holds a tree returns a container that holds the
tree `setT`, whose pairs are those the contract prescribes. -/
theorem set_good (aug : V → V → V) {s : Treemap K V} {t : Tree K V} (hg : Good s t)
    (k : K) (v : V) (prio : Nat) :
    ∃ s2, set aug s k v prio = Except.ok s2 ∧ Good s2 (setT aug t k v prio s.brk) ∧
      s2.id = s.id ∧ (setT aug t k v prio s.brk).toList = specSet k v t.toList := by
  have hlist := setT_toList aug t hg.sorted k v prio s.brk
  have hsorted : KeysIncreasing (setT aug t k v prio s.brk).toList := by
    rw [hlist]; exact keysIncreasing_specSet k v _ hg.sorted
  rcases hd : descend k [] t with ⟨c, t2⟩
  cases t2 with
  | nil =>
    obtain ⟨s2, e, hrep, hroot, hid, hbrk, hsz⟩ := set_new_ok aug hg k v prio hd
    have hperm := setT_addrs_new aug t k v prio s.brk hd
    have hT : setT aug t k v prio s.brk = rotUp aug
        (refresh aug c (Tree.node s.brk Tree.nil (k, v) v prio Tree.nil))
        (Tree.node s.brk Tree.nil (k, v) v prio Tree.nil) := by
      simp only [setT, hd]
    rw [← hT] at hrep hroot
    refine ⟨s2, e, ⟨hrep, hroot, ?_, ?_, hsorted, ?_⟩, hid, hlist⟩
    · refine hperm.nodup_iff.2 (List.nodup_cons.2 ⟨fun h => ?_, hg.nodup⟩)
      exact absurd (hg.bound _ h) (lt_irrefl _)
    · intro x hx
      rw [hbrk]
      rcases List.mem_cons.1 (hperm.mem_iff.1 hx) with rfl | h
      · exact Nat.lt_succ_self _
      · exact Nat.lt_succ_of_lt (hg.bound _ h)
    · rw [hsz, hg.size, Tree.count_eq_length, Tree.count_eq_length, hperm.length_eq]
      simp
  | node b l kv g p r =>
    obtain ⟨s2, e, hrep, hroot, hid, hbrk, hsz⟩ := set_found_ok aug hg k v prio hd
    have hperm := setT_addrs_found aug t k v prio s.brk hd
    have hT : setT aug t k v prio s.brk = plug
        (refresh aug c (Tree.node b l (kv.1, v) (nodeAug aug l v r) p r))
        (Tree.node b l (kv.1, v) (nodeAug aug l v r) p r) := by
      simp only [setT, hd]
    rw [← hT] at hrep hroot
    refine ⟨s2, e, ⟨hrep, hroot, hperm.nodup_iff.2 hg.nodup, ?_, hsorted, ?_⟩, hid, hlist⟩
    · intro x hx
      rw [hbrk]
      exact hg.bound _ (hperm.mem_iff.1 hx)
    · rw [hsz, hg.size, Tree.count_eq_length, Tree.count_eq_length, hperm.length_eq]

end SetGood

/-!
## `erase` on a container that holds a tree
-/

section EraseOk

variable {K V : Type}

theorem free_other (m : Mem K V) {a y : Nat} (h : y ≠ a) : (m.free a) y = m y := by
  simp [Mem.free, h]

variable [LinearOrder K]

theorem find_node_ok {s : Treemap K V} {t : Tree K V} (hg : Good s t) (k : K) :
    find_node s k = Except.ok (descend k [] t).2.ptr := by
  have hcnt := hg.count_le
  have := find_loop_ok k hg.rep (by omega : t.count < s.brk + 1)
  rw [← hg.root] at this
  exact this

theorem erase_found_ok (aug : V → V → V) {s : Treemap K V} {t : Tree K V} (hg : Good s t)
    (k : K) {c : List (Frame K V)} {a : Nat} {l r : Tree K V} {kv : K × V} {g : V} {p : Nat}
    (hd : descend k [] t = (c, Tree.node a l kv g p r)) :
    ∃ s2, erase aug s k = Except.ok s2 ∧
      Rep s2.mem none (plug (refresh aug c (mergeT aug (s.brk + 1) l r))
        (mergeT aug (s.brk + 1) l r)) ∧
      s2.root = (plug (refresh aug c (mergeT aug (s.brk + 1) l r))
        (mergeT aug (s.brk + 1) l r)).ptr ∧
      s2.id = s.id ∧ s2.brk = s.brk ∧ s2.tsize = s.tsize - 1 := by
  have hpl : plug c (Tree.node a l kv g p r) = t := by
    have := plug_descend k [] t
    rw [hd] at this
    exact this
  have hcnt := hg.count_le
  have hfind := find_node_ok hg k
  rw [hd] at hfind
  simp only [Tree.ptr_node] at hfind
  have hperm := plug_addrs_perm c (Tree.node a l kv g p r)
  rw [hpl] at hperm
  have hnd : ((Tree.node a l kv g p r).addrs ++ ctxAddrs c).Nodup := hperm.nodup_iff.1 hg.nodup
  have hrep0 := hg.rep
  rw [← hpl] at hrep0
  obtain ⟨hc0, ha, hl, hr⟩ := rep_plug.1 hrep0
  simp only [Tree.ptr_node] at hc0
  have hsize := descend_size k [] t
  rw [hd] at hsize
  simp only [Tree.count, List.length_nil] at hsize
  simp only [Tree.addrs_node] at hnd
  have hN := List.nodup_append.1 hnd
  have hN1 := List.nodup_append.1 hN.1
  have ha_l : a ∉ l.addrs := fun h => hN1.2.2 h (by simp)
  have ha_r : a ∉ r.addrs := (List.nodup_cons.1 hN1.2.1).1
  have ha_c : a ∉ ctxAddrs c := fun h => nodup_disj hnd a (by simp) h
  have hlr : (l.addrs ++ r.addrs).Nodup := by
    refine List.nodup_append.2 ⟨hN1.1, (List.nodup_cons.1 hN1.2.1).2, ?_⟩
    intro x hx hx2
    exact hN1.2.2 hx (by simp [hx2])
  have hlr_c : ∀ y ∈ l.addrs ++ r.addrs, y ∉ ctxAddrs c := by
    intro y hy h
    rcases List.mem_append.1 hy with h1 | h1
    · exact nodup_disj hnd y (by simp [h1]) h
    · exact nodup_disj hnd y (by simp [h1]) h
  -- merge
  obtain ⟨m1, q, e1, hrep1, hfr1⟩ := merge_ok aug (s.brk + 1) s.mem l r (some a) (some a)
    (by omega) hl hr hlr
  have hadd := mergeT_addrs aug (s.brk + 1) l r (by omega)
  have ha_M : a ∉ (mergeT aug (s.brk + 1) l r).addrs := by
    rw [hadd]; simp only [List.mem_append, not_or]; exact ⟨ha_l, ha_r⟩
  have ha1 : m1 a = _ := (hfr1 a (by rw [← hadd]; exact ha_M)).trans ha
  -- the replacement takes the parent of the erased node
  obtain ⟨m2, e2, hrep2, hfr2⟩ := reparent_ok (ctxPtr c) hrep1 (by rw [hadd]; exact hlr)
  have ha2 : m2 a = _ := (hfr2 a (Tree.ptr_ne ha_M)).trans ha1
  have hc2 : RepCtx m2 c (some a) := by
    refine repCtx_congr (fun y hy => ?_) hc0
    have hy1 : y ∉ l.addrs ++ r.addrs := fun h => hlr_c y h hy
    rw [hfr2 y (Tree.ptr_ne (by rw [hadd]; exact hy1)), hfr1 y hy1]
  -- relink
  have hc_nd : (ctxAddrs c).Nodup := hN.2.1
  obtain ⟨m3, e3, hc3, hfr3⟩ := relink_ok (mergeT aug (s.brk + 1) l r).ptr ha2 rfl hc2 ha_c hc_nd
  have ha3 : m3 a = _ := (hfr3 a (ctxPtr_ne ha_c)).trans ha2
  have hrep3 : Rep m3 (ctxPtr c) (mergeT aug (s.brk + 1) l r) := by
    refine rep_congr (fun y hy => ?_) hrep2
    rw [hadd] at hy
    exact hfr3 y (ctxPtr_ne (hlr_c y hy))
  -- update_ancestors
  obtain ⟨m4, e4, hrep4, -⟩ := update_ancestors_ok aug c (s.brk + 1) m3
    (mergeT aug (s.brk + 1) l r) a _ (by omega) ha3 rfl hc3 hrep3
    (by
      rw [hadd]
      refine List.nodup_append.2 ⟨hlr, hc_nd, ?_⟩
      intro x hx hx2
      exact hlr_c x hx hx2)
  have ha_T : a ∉ (plug (refresh aug c (mergeT aug (s.brk + 1) l r))
      (mergeT aug (s.brk + 1) l r)).addrs := by
    intro h
    have := (plug_addrs_perm _ _).mem_iff.1 h
    rw [refresh_addrs] at this
    rcases List.mem_append.1 this with h1 | h1
    · exact ha_M h1
    · exact ha_c h1
  have hroot : s.root = plugPtr c (some a) := by
    rw [hg.root, ← hpl, plug_ptr]; rfl
  refine ⟨{ s with mem := m4.free a, root := plugPtr c (mergeT aug (s.brk + 1) l r).ptr,
                   tsize := s.tsize - 1 }, ?_, ?_, ?_, rfl, rfl, rfl⟩
  · simp only [erase, hfind, ok_bind, erase_node, load_ok ha, e1]
    cases hM : mergeT aug (s.brk + 1) l r with
    | nil =>
      rw [hM] at e2 e3
      simp only [Tree.ptr_nil, pure_eq_ok, Except.ok.injEq] at e2 e3 ⊢
      subst e2
      rw [← hroot] at e3
      simp only [ok_bind, e3, e4, pure_eq_ok]
    | node x lM kvM gM pM rM =>
      rw [hM] at e2 e3
      simp only [Tree.ptr_node] at e2 e3 ⊢
      rw [← hroot] at e3
      simp only [ok_bind, load_ok ha1, e2, e3, e4, pure_eq_ok]
  · exact rep_congr (fun y hy => free_other _ (fun e => ha_T (e ▸ hy))) hrep4
  · show plugPtr c _ = _
    rw [plug_ptr, refresh_plugPtr]

end EraseOk
section EraseGood

variable {K V : Type} [LinearOrder K]

theorem eraseT_toList (aug : V → V → V) (fuel : Nat) (t : Tree K V)
    (hs : KeysIncreasing t.toList) (hf : t.count ≤ fuel) (k : K) :
    (eraseT aug fuel t k).toList = specErase k t.toList := by
  rcases hd : descend k [] t with ⟨c, t2⟩
  cases t2 with
  | nil =>
    obtain ⟨hB, hA, hlist, -⟩ := descend_gap k t hs hd
    simp only [eraseT, hd]
    rw [hlist, specErase_mid k _ _ hB hA]
  | node b l kv g p r =>
    obtain ⟨hkey, hB, hA, hlist⟩ := descend_sides k t hs hd
    have hsize := descend_size k [] t
    rw [hd] at hsize
    simp only [Tree.count, List.length_nil] at hsize
    simp only [eraseT, hd, plug_toList, refresh_before, refresh_after]
    rw [mergeT_toList aug fuel l r (by omega)]
    have hkv : kv = (k, kv.2) := by rw [← hkey]
    rw [hlist, hkv, specErase_at k kv.2 _ _ hB hA]
    simp

/-- `erase` on a container that holds a tree returns a container that holds
the tree `eraseT`, whose pairs are those the contract prescribes. -/
theorem erase_good (aug : V → V → V) {s : Treemap K V} {t : Tree K V} (hg : Good s t) (k : K) :
    ∃ s2, erase aug s k = Except.ok s2 ∧ Good s2 (eraseT aug (s.brk + 1) t k) ∧
      s2.id = s.id ∧ (eraseT aug (s.brk + 1) t k).toList = specErase k t.toList := by
  have hcnt := hg.count_le
  have hlist := eraseT_toList aug (s.brk + 1) t hg.sorted (by omega) k
  have hsorted : KeysIncreasing (eraseT aug (s.brk + 1) t k).toList := by
    rw [hlist]; exact keysIncreasing_specErase k _ hg.sorted
  rcases hd : descend k [] t with ⟨c, t2⟩
  cases t2 with
  | nil =>
    have hfind := find_node_ok hg k
    rw [hd] at hfind
    have hT : eraseT aug (s.brk + 1) t k = t := by simp only [eraseT, hd]
    refine ⟨s, ?_, ?_, rfl, hlist⟩
    · simp only [erase, hfind, ok_bind, Tree.ptr_nil, erase_node, pure_eq_ok]
    · rw [hT]; exact hg
  | node a l kv g p r =>
    obtain ⟨s2, e, hrep, hroot, hid, hbrk, hsz⟩ := erase_found_ok aug hg k hd
    have hpl : plug c (Tree.node a l kv g p r) = t := by
      have := plug_descend k [] t
      rw [hd] at this
      exact this
    have hsize := descend_size k [] t
    rw [hd] at hsize
    simp only [Tree.count, List.length_nil] at hsize
    have hT : eraseT aug (s.brk + 1) t k = plug (refresh aug c (mergeT aug (s.brk + 1) l r))
        (mergeT aug (s.brk + 1) l r) := by
      simp only [eraseT, hd]
    rw [← hT] at hrep hroot
    have hperm1 : List.Perm (eraseT aug (s.brk + 1) t k).addrs
        ((l.addrs ++ r.addrs) ++ ctxAddrs c) := by
      rw [hT]
      refine (plug_addrs_perm _ _).trans ?_
      rw [refresh_addrs, mergeT_addrs aug (s.brk + 1) l r (by omega)]
    have hperm2 : List.Perm t.addrs (a :: ((l.addrs ++ r.addrs) ++ ctxAddrs c)) := by
      rw [← hpl]
      refine (plug_addrs_perm _ _).trans ?_
      simp only [Tree.addrs_node, List.append_assoc, List.cons_append]
      exact List.perm_middle
    have hnd2 := hperm2.nodup_iff.1 hg.nodup
    refine ⟨s2, e, ⟨hrep, hroot, hperm1.nodup_iff.2 (List.nodup_cons.1 hnd2).2, ?_, hsorted, ?_⟩,
      hid, hlist⟩
    · intro x hx
      rw [hbrk]
      exact hg.bound _ (hperm2.mem_iff.2 (List.mem_cons_of_mem _ (hperm1.mem_iff.1 hx)))
    · rw [hsz, hg.size, Tree.count_eq_length, Tree.count_eq_length, hperm1.length_eq,
        hperm2.length_eq]
      simp

theorem empty_good (id : V) : Good (empty id : Treemap K V) Tree.nil :=
  ⟨trivial, rfl, List.nodup_nil, fun _ h => by simp [Tree.addrs] at h, List.Pairwise.nil, rfl⟩

end EraseGood

/-!
## Coherence of the cached augments
-/

section Coh

variable {K V : Type}

theorem nodeAug_congr (aug : V → V → V) {l l2 r r2 : Tree K V} (v : V)
    (hl : l.rootAug = l2.rootAug) (hr : r.rootAug = r2.rootAug) :
    nodeAug aug l v r = nodeAug aug l2 v r2 := by
  cases l <;> cases l2 <;> cases r <;> cases r2 <;>
    simp_all [Tree.rootAug, nodeAug]

theorem coherent_of_plug (aug : V → V → V) (c : List (Frame K V)) (t : Tree K V)
    (h : Coherent aug (plug c t)) : Coherent aug t ∧ CoherentCtx aug c := by
  induction c generalizing t with
  | nil => exact ⟨h, trivial⟩
  | cons f c ih =>
    obtain ⟨h1, h2⟩ := ih _ h
    cases f with
    | L a kv g p r => exact ⟨h1.2.1, h1.2.2, h2⟩
    | R a l kv g p => exact ⟨h1.2.2, h1.2.1, h2⟩

theorem coherent_refresh (aug : V → V → V) (c : List (Frame K V)) (t : Tree K V)
    (ht : Coherent aug t) (hc : CoherentCtx aug c) :
    Coherent aug (plug (refresh aug c t) t) := by
  induction c generalizing t with
  | nil => exact ht
  | cons f c ih =>
    cases f with
    | L a kv g p r => exact ih _ ⟨rfl, ht, hc.1⟩ hc.2
    | R a l kv g p => exact ih _ ⟨rfl, hc.1, ht⟩ hc.2

theorem coherent_replace (aug : V → V → V) (c : List (Frame K V)) (t t2 : Tree K V)
    (hroot : t.rootAug = t2.rootAug) (ht2 : Coherent aug t2)
    (h : Coherent aug (plug c t)) : Coherent aug (plug c t2) := by
  induction c generalizing t t2 with
  | nil => exact ht2
  | cons f c ih =>
    have hf := (coherent_of_plug aug c _ h).1
    cases f with
    | L a kv g p r =>
      refine ih (Tree.node a t kv g p r) (Tree.node a t2 kv g p r) rfl ?_ h
      exact ⟨hf.1.trans (nodeAug_congr aug kv.2 hroot rfl), ht2, hf.2.2⟩
    | R a l kv g p =>
      refine ih (Tree.node a l kv g p t) (Tree.node a l kv g p t2) rfl ?_ h
      exact ⟨hf.1.trans (nodeAug_congr aug kv.2 rfl hroot), hf.2.1, ht2⟩

theorem coherent_mergeT (aug : V → V → V) (fuel : Nat) (t1 t2 : Tree K V)
    (h1 : Coherent aug t1) (h2 : Coherent aug t2) :
    Coherent aug (mergeT aug fuel t1 t2) := by
  induction fuel generalizing t1 t2 with
  | zero => trivial
  | succ fuel ih =>
    cases t1 with
    | nil => simpa [mergeT] using h2
    | node a l1 kv1 g1 p1 r1 =>
      cases t2 with
      | nil => simpa [mergeT] using h1
      | node b l2 kv2 g2 p2 r2 =>
        simp only [mergeT]
        split
        · exact ⟨rfl, h1.2.1, ih _ _ h1.2.2 h2⟩
        · exact ⟨rfl, ih _ _ h1 h2.2.1, h2.2.2⟩

theorem coherent_rotUp (aug : V → V → V) (hassoc : ∀ x y z, aug (aug x y) z = aug x (aug y z))
    (c : List (Frame K V)) (t : Tree K V) (h : Coherent aug (plug c t)) :
    Coherent aug (rotUp aug c t) := by
  induction c generalizing t with
  | nil => exact h
  | cons f c ih =>
    cases t with
    | nil => cases f <;> exact h
    | node n ln kvn gn pn rn =>
      cases f with
      | L pa kvp gp pp r =>
        simp only [rotUp]
        split
        · refine ih _ (coherent_replace aug c (Tree.node pa (Tree.node n ln kvn gn pn rn) kvp gp pp r)
            _ rfl ?_ h)
          obtain ⟨hgp, ⟨hgn, hln, hrn⟩, hr⟩ := (coherent_of_plug aug c _ h).1
          refine ⟨?_, hln, rfl, hrn, hr⟩
          rw [hgp, hgn]
          cases ln <;> cases rn <;> cases r <;> simp [nodeAug, hassoc]
        · exact h
      | R pa l kvp gp pp =>
        simp only [rotUp]
        split
        · refine ih _ (coherent_replace aug c (Tree.node pa l kvp gp pp (Tree.node n ln kvn gn pn rn))
            _ rfl ?_ h)
          obtain ⟨hgp, hl, hgn, hln, hrn⟩ := (coherent_of_plug aug c _ h).1
          refine ⟨?_, ⟨rfl, hl, hln⟩, hrn⟩
          rw [hgp, hgn]
          cases ln <;> cases rn <;> cases l <;> simp [nodeAug, hassoc]
        · exact h

variable [LinearOrder K]

theorem coherent_setT (aug : V → V → V) (hassoc : ∀ x y z, aug (aug x y) z = aug x (aug y z))
    (t : Tree K V) (h : Coherent aug t) (k : K) (v : V) (prio a : Nat) :
    Coherent aug (setT aug t k v prio a) := by
  rcases hd : descend k [] t with ⟨c, t2⟩
  have hpl := plug_descend k [] t
  rw [hd] at hpl
  simp only [plug] at hpl
  rw [← hpl] at h
  obtain ⟨h1, h2⟩ := coherent_of_plug aug c t2 h
  cases t2 with
  | nil =>
    simp only [setT, hd]
    exact coherent_rotUp aug hassoc _ _ (coherent_refresh aug c _ ⟨rfl, trivial, trivial⟩ h2)
  | node b l kv g p r =>
    simp only [setT, hd]
    exact coherent_refresh aug c _ ⟨rfl, h1.2.1, h1.2.2⟩ h2

theorem coherent_eraseT (aug : V → V → V) (fuel : Nat) (t : Tree K V) (h : Coherent aug t)
    (k : K) : Coherent aug (eraseT aug fuel t k) := by
  rcases hd : descend k [] t with ⟨c, t2⟩
  have hpl := plug_descend k [] t
  rw [hd] at hpl
  simp only [plug] at hpl
  cases t2 with
  | nil => simpa only [eraseT, hd] using h
  | node b l kv g p r =>
    rw [← hpl] at h
    obtain ⟨h1, h2⟩ := coherent_of_plug aug c _ h
    simp only [eraseT, hd]
    exact coherent_refresh aug c _ (coherent_mergeT aug fuel l r h1.2.1 h1.2.2) h2

end Coh

/-!
## `query`
-/

section Query

variable {K V : Type} [LinearOrder K]

theorem node_query_left_ok (aug : V → V → V) (id : V) (lo : K) {m : Mem K V} {t : Tree K V}
    {p : Ptr} {fuel : Nat} (hr : Rep m p t) (hf : t.count < fuel) :
    node_query_left aug id fuel m t.ptr lo = Except.ok (nqlT aug id t lo) := by
  induction t generalizing p fuel with
  | nil =>
    cases fuel with
    | zero => simp at hf
    | succ fuel => rfl
  | node a l kv g pr r ihl ihr =>
    cases fuel with
    | zero => simp at hf
    | succ fuel =>
      obtain ⟨h1, h2, h3⟩ := hr
      simp only [Tree.count] at hf
      simp only [Tree.ptr_node, node_query_left, load_ok h1, ok_bind, nqlT]
      split
      · exact ihr h3 (by omega)
      · rw [ihl h2 (by omega)]
        cases r with
        | nil => rfl
        | node b rl rkv rg rpr rr =>
          simp only [Tree.ptr_node, ok_bind, load_ok h3.1, pure_eq_ok]

theorem node_query_right_ok (aug : V → V → V) (id : V) (hi : K) {m : Mem K V} {t : Tree K V}
    {p : Ptr} {fuel : Nat} (hr : Rep m p t) (hf : t.count < fuel) :
    node_query_right aug id fuel m t.ptr hi = Except.ok (nqrT aug id t hi) := by
  induction t generalizing p fuel with
  | nil =>
    cases fuel with
    | zero => simp at hf
    | succ fuel => rfl
  | node a l kv g pr r ihl ihr =>
    cases fuel with
    | zero => simp at hf
    | succ fuel =>
      obtain ⟨h1, h2, h3⟩ := hr
      simp only [Tree.count] at hf
      simp only [Tree.ptr_node, node_query_right, load_ok h1, ok_bind, nqrT]
      split
      · exact ihl h2 (by omega)
      · rw [ihr h3 (by omega)]
        cases l with
        | nil => rfl
        | node b rl rkv rg rpr rr =>
          simp only [Tree.ptr_node, ok_bind, load_ok h2.1, pure_eq_ok]

theorem node_query_ok (aug : V → V → V) (id : V) (lo hi : K) {m : Mem K V} {t : Tree K V}
    {p : Ptr} {fuel : Nat} (hr : Rep m p t) (hf : t.count < fuel) :
    node_query aug id fuel m t.ptr lo hi = Except.ok (nqT aug id t lo hi) := by
  induction t generalizing p fuel with
  | nil =>
    cases fuel with
    | zero => simp at hf
    | succ fuel => rfl
  | node a l kv g pr r ihl ihr =>
    cases fuel with
    | zero => simp at hf
    | succ fuel =>
      obtain ⟨h1, h2, h3⟩ := hr
      simp only [Tree.count] at hf
      simp only [Tree.ptr_node, node_query, load_ok h1, ok_bind, nqT]
      split
      · exact ihl h2 (by omega)
      · split
        · exact ihr h3 (by omega)
        · rw [node_query_left_ok aug id lo h2 (by omega),
            node_query_right_ok aug id hi h3 (by omega)]
          rfl

/-- On a container that holds a tree, `query` returns the value of `nqT`. -/
theorem query_ok (aug : V → V → V) {s : Treemap K V} {t : Tree K V} (hg : Good s t)
    (lo hi : K) : query aug s lo hi = Except.ok (nqT aug s.id t lo hi) := by
  have hcnt := hg.count_le
  have := node_query_ok aug s.id lo hi hg.rep (by omega : t.count < s.brk + 1)
  rw [← hg.root] at this
  exact this

end Query

section QuerySpec

variable {K V : Type}

theorem foldl_aug_shift (aug : V → V → V) (id : V)
    (hassoc : ∀ x y z, aug (aug x y) z = aug x (aug y z))
    (hidl : ∀ x, aug id x = x) (hidr : ∀ x, aug x id = x) (a : V) (vs : List V) :
    vs.foldl aug a = aug a (vs.foldl aug id) := by
  induction vs generalizing a with
  | nil => simp [hidr]
  | cons v vs ih =>
    simp only [List.foldl_cons]
    rw [ih (aug a v), ih (aug id v), hidl, hassoc]

theorem foldAug_nil (aug : V → V → V) (id : V) : foldAug aug id [] = id := rfl

theorem foldAug_cons (aug : V → V → V) (id : V)
    (hassoc : ∀ x y z, aug (aug x y) z = aug x (aug y z))
    (hidl : ∀ x, aug id x = x) (hidr : ∀ x, aug x id = x) (v : V) (vs : List V) :
    foldAug aug id (v :: vs) = aug v (foldAug aug id vs) := by
  simp only [foldAug, List.foldl_cons]
  rw [foldl_aug_shift aug id hassoc hidl hidr (aug id v), hidl]

theorem foldAug_append (aug : V → V → V) (id : V)
    (hassoc : ∀ x y z, aug (aug x y) z = aug x (aug y z))
    (hidl : ∀ x, aug id x = x) (hidr : ∀ x, aug x id = x) (xs ys : List V) :
    foldAug aug id (xs ++ ys) = aug (foldAug aug id xs) (foldAug aug id ys) := by
  simp only [foldAug, List.foldl_append]
  exact foldl_aug_shift aug id hassoc hidl hidr _ ys

theorem nodeAug_total (aug : V → V → V) (id : V)
    (hidl : ∀ x, aug id x = x) (hidr : ∀ x, aug x id = x) (l r : Tree K V) (v : V) :
    nodeAug aug l v r = aug (aug (l.total id) v) (r.total id) := by
  cases l <;> cases r <;> simp [nodeAug, Tree.total, hidl, hidr]

/-- In a coherent tree the cached augment of the root is the combiner folded
over all items in key order. -/
theorem total_spec (aug : V → V → V) (id : V)
    (hassoc : ∀ x y z, aug (aug x y) z = aug x (aug y z))
    (hidl : ∀ x, aug id x = x) (hidr : ∀ x, aug x id = x) (t : Tree K V)
    (hc : Coherent aug t) :
    t.total id = foldAug aug id (t.toList.map Prod.snd) := by
  induction t with
  | nil => rfl
  | node a l kv g p r ihl ihr =>
    obtain ⟨hg, hl, hr⟩ := hc
    simp only [Tree.total, Tree.toList, List.map_append, List.map_cons]
    rw [hg, nodeAug_total aug id hidl hidr, ihl hl, ihr hr,
      foldAug_append aug id hassoc hidl hidr, foldAug_cons aug id hassoc hidl hidr, hassoc]

variable [LinearOrder K]

theorem keysIncreasing_node {l r : List (K × V)} {kv : K × V}
    (h : KeysIncreasing (l ++ kv :: r)) :
    KeysIncreasing l ∧ KeysIncreasing r ∧ (∀ x ∈ l, x.1 < kv.1) ∧ (∀ x ∈ r, kv.1 < x.1) := by
  unfold KeysIncreasing at h ⊢
  obtain ⟨h1, h2, h3⟩ := List.pairwise_append.1 h
  obtain ⟨h4, h5⟩ := List.pairwise_cons.1 h2
  exact ⟨h1, h5, fun x hx => h3 x hx kv (by simp), h4⟩

theorem nqlT_spec (aug : V → V → V) (id : V)
    (hassoc : ∀ x y z, aug (aug x y) z = aug x (aug y z))
    (hidl : ∀ x, aug id x = x) (hidr : ∀ x, aug x id = x) (t : Tree K V)
    (hc : Coherent aug t) (hs : KeysIncreasing t.toList) (lo : K) :
    nqlT aug id t lo =
      foldAug aug id ((t.toList.filter (fun kv => lo ≤ kv.1)).map Prod.snd) := by
  induction t with
  | nil => rfl
  | node a l kv g p r ihl ihr =>
    obtain ⟨hg, hl, hr⟩ := hc
    simp only [Tree.toList] at hs
    obtain ⟨hsl, hsr, hlt, hgt⟩ := keysIncreasing_node hs
    simp only [nqlT, Tree.toList, List.filter_append, List.filter_cons]
    by_cases hk : kv.1 < lo
    · rw [if_pos hk, ihr hr hsr,
        filter_none _ l.toList (fun x hx => by simpa using lt_trans (hlt x hx) hk)]
      simp [not_le.2 hk]
    · have hle : lo ≤ kv.1 := not_lt.1 hk
      rw [if_neg hk, filter_all _ r.toList (fun x hx => by
        simpa using le_of_lt (lt_of_le_of_lt hle (hgt x hx)))]
      simp only [hle, decide_True, if_true, List.map_append, List.map_cons]
      rw [foldAug_append aug id hassoc hidl hidr, foldAug_cons aug id hassoc hidl hidr,
        ← total_spec aug id hassoc hidl hidr r hr, ← ihl hl hsl, ← hassoc]
      cases r with
      | nil => simp [Tree.total, hidr]
      | node b rl rkv rg rp rr => simp [Tree.total]

theorem nqrT_spec (aug : V → V → V) (id : V)
    (hassoc : ∀ x y z, aug (aug x y) z = aug x (aug y z))
    (hidl : ∀ x, aug id x = x) (hidr : ∀ x, aug x id = x) (t : Tree K V)
    (hc : Coherent aug t) (hs : KeysIncreasing t.toList) (hi : K) :
    nqrT aug id t hi =
      foldAug aug id ((t.toList.filter (fun kv => kv.1 ≤ hi)).map Prod.snd) := by
  induction t with
  | nil => rfl
  | node a l kv g p r ihl ihr =>
    obtain ⟨hg, hl, hr⟩ := hc
    simp only [Tree.toList] at hs
    obtain ⟨hsl, hsr, hlt, hgt⟩ := keysIncreasing_node hs
    simp only [nqrT, Tree.toList, List.filter_append, List.filter_cons]
    by_cases hk : hi < kv.1
    · rw [if_pos hk, ihl hl hsl,
        filter_none _ r.toList (fun x hx => by simpa using lt_trans hk (hgt x hx))]
      simp [not_le.2 hk]
    · have hle : kv.1 ≤ hi := not_lt.1 hk
      rw [if_neg hk, filter_all _ l.toList (fun x hx => by
        simpa using le_of_lt (lt_of_lt_of_le (hlt x hx) hle))]
      simp only [hle, decide_True, if_true, List.map_append, List.map_cons]
      rw [foldAug_append aug id hassoc hidl hidr, foldAug_cons aug id hassoc hidl hidr,
        ← total_spec aug id hassoc hidl hidr l hl, ← ihr hr hsr]
      cases l with
      | nil => simp [Tree.total, hidl]
      | node b rl rkv rg rp rr => simp [Tree.total]

/-- The value of `node_query` on a coherent search tree is the combiner
folded over the items whose key lies in the range. -/
theorem nqT_spec (aug : V → V → V) (id : V)
    (hassoc : ∀ x y z, aug (aug x y) z = aug x (aug y z))
    (hidl : ∀ x, aug id x = x) (hidr : ∀ x, aug x id = x) (t : Tree K V)
    (hc : Coherent aug t) (hs : KeysIncreasing t.toList) (lo hi : K) :
    nqT aug id t lo hi = foldAug aug id (rangeItems lo hi t.toList) := by
  induction t with
  | nil => rfl
  | node a l kv g p r ihl ihr =>
    obtain ⟨hg, hl, hr⟩ := hc
    simp only [Tree.toList] at hs
    obtain ⟨hsl, hsr, hlt, hgt⟩ := keysIncreasing_node hs
    simp only [nqT, rangeItems, Tree.toList, List.filter_append, List.filter_cons]
    by_cases hk : hi < kv.1
    · rw [if_pos hk, ihl hl hsl,
        filter_none _ r.toList (fun x hx => by
          simp only [decide_eq_false_iff_not, not_and, not_le]
          exact fun _ => lt_trans hk (hgt x hx))]
      simp [rangeItems, not_le.2 hk]
    · rw [if_neg hk]
      have hle : kv.1 ≤ hi := not_lt.1 hk
      by_cases hk2 : kv.1 < lo
      · rw [if_pos hk2, ihr hr hsr,
          filter_none _ l.toList (fun x hx => by
            simp only [decide_eq_false_iff_not, not_and, not_le]
            exact fun h => absurd (lt_of_le_of_lt h (lt_trans (hlt x hx) hk2)) (lt_irrefl _))]
        simp [rangeItems, not_le.2 hk2]
      · have hle2 : lo ≤ kv.1 := not_lt.1 hk2
        rw [if_neg hk2, nqlT_spec aug id hassoc hidl hidr l hl hsl,
          nqrT_spec aug id hassoc hidl hidr r hr hsr]
        have e1 : l.toList.filter (fun kv => decide (lo ≤ kv.1 ∧ kv.1 ≤ hi)) =
            l.toList.filter (fun kv => decide (lo ≤ kv.1)) := by
          refine List.filter_congr (fun x hx => ?_)
          have := le_of_lt (lt_of_lt_of_le (hlt x hx) hle)
          simp [this]
        have e2 : r.toList.filter (fun kv => decide (lo ≤ kv.1 ∧ kv.1 ≤ hi)) =
            r.toList.filter (fun kv => decide (kv.1 ≤ hi)) := by
          refine List.filter_congr (fun x hx => ?_)
          have := le_of_lt (lt_of_le_of_lt hle2 (hgt x hx))
          simp [this]
        rw [e1, e2]
        simp only [hle, hle2, and_self, decide_True, if_true, List.map_append, List.map_cons]
        rw [foldAug_append aug id hassoc hidl hidr, foldAug_cons aug id hassoc hidl hidr,
          hassoc]

end QuerySpec

/-!
## `get` and `find`
-/

section GetSpec

variable {K V : Type} [LinearOrder K]

theorem specGet_at (k : K) (w : V) (B A : List (K × V)) (hB : ∀ x ∈ B, x.1 < k) :
    specGet k (B ++ (k, w) :: A) = some w := by
  induction B with
  | nil => simp [specGet]
  | cons b B ih =>
    have hb : ¬ b.1 = k := ne_of_lt (hB b (by simp))
    have := ih (fun x hx => hB x (by simp [hx]))
    simp only [specGet, List.cons_append, List.find?_cons, hb, decide_False] at this ⊢
    exact this

theorem specGet_mid (k : K) (B A : List (K × V)) (hB : ∀ x ∈ B, x.1 < k)
    (hA : ∀ x ∈ A, k < x.1) : specGet k (B ++ A) = none := by
  simp only [specGet, Option.map_eq_none', List.find?_eq_none, decide_eq_true_eq]
  intro x hx
  rcases List.mem_append.1 hx with h | h
  · exact ne_of_lt (hB x h)
  · exact ne_of_gt (hA x h)

/-- What the search for `k` finds, in terms of the stored pairs. -/
theorem descend_spec (k : K) (t : Tree K V) (hs : KeysIncreasing t.toList) :
    specGet k t.toList = (match (descend k [] t).2 with
      | Tree.nil => none
      | Tree.node _ _ kv _ _ _ => some kv.2) := by
  rcases hd : descend k [] t with ⟨c, t2⟩
  cases t2 with
  | nil =>
    obtain ⟨hB, hA, hlist, -⟩ := descend_gap k t hs hd
    rw [hlist]
    exact specGet_mid k _ _ hB hA
  | node b l kv g p r =>
    obtain ⟨hkey, hB, hA, hlist⟩ := descend_sides k t hs hd
    have hkv : kv = (k, kv.2) := by rw [← hkey]
    rw [hlist, hkv]
    exact specGet_at k kv.2 _ _ hB

/-- The cell of the node the search finds. -/
theorem descend_cell (k : K) {m : Mem K V} {t : Tree K V} (hr : Rep m none t)
    {c : List (Frame K V)} {b : Nat} {l r : Tree K V} {kv : K × V} {g : V} {p : Nat}
    (hd : descend k [] t = (c, Tree.node b l kv g p r)) :
    m b = some (TreapNode.mk l.ptr r.ptr (ctxPtr c) kv g p) := by
  have hpl := plug_descend k [] t
  rw [hd] at hpl
  simp only [plug] at hpl
  rw [← hpl] at hr
  exact (rep_plug.1 hr).2.1

/-- `get` returns the item the contract pairs with the key, and reaches the
end of the function without returning when the key is not stored. -/
theorem get_spec {s : Treemap K V} {t : Tree K V} (hg : Good s t) (k : K) :
    get s k = (match specGet k t.toList with
      | some v => Except.ok v
      | none => Except.error Fault.missingReturn) := by
  rw [descend_spec k t hg.sorted]
  have hfind := find_node_ok hg k
  rcases hd : descend k [] t with ⟨c, t2⟩
  rw [hd] at hfind
  cases t2 with
  | nil =>
    simp only [get, hfind, ok_bind, Tree.ptr_nil]
    rfl
  | node b l kv g p r =>
    simp only [get, hfind, ok_bind, Tree.ptr_node, load_ok (descend_cell k hg.rep hd),
      pure_eq_ok]

/-- `find` returns the null pointer exactly when the key is not stored, and
otherwise a pointer to a node holding the key and its item. -/
theorem find_spec {s : Treemap K V} {t : Tree K V} (hg : Good s t) (k : K) :
    (specGet k t.toList = none ∧ find s k = Except.ok none) ∨
    ∃ a n, find s k = Except.ok (some a) ∧ s.mem a = some n ∧ n.value.1 = k ∧
      specGet k t.toList = some n.value.2 := by
  rw [descend_spec k t hg.sorted]
  have hfind := find_node_ok hg k
  rcases hd : descend k [] t with ⟨c, t2⟩
  rw [hd] at hfind
  cases t2 with
  | nil => exact Or.inl ⟨rfl, hfind⟩
  | node b l kv g p r =>
    exact Or.inr ⟨b, _, hfind, descend_cell k hg.rep hd, descend_key k [] t (by rw [hd]), rfl⟩

theorem specGet_specSet_same (k : K) (v : V) (xs : List (K × V)) :
    specGet k (specSet k v xs) = some v := by
  unfold specSet
  exact specGet_at k v _ _ (fun x hx => by simpa using (List.mem_filter.1 hx).2)

theorem find?_filter_of_imp {α : Type} (p q : α → Bool) (xs : List α)
    (h : ∀ x ∈ xs, p x = true → q x = true) :
    (xs.filter q).find? p = xs.find? p := by
  induction xs with
  | nil => rfl
  | cons x xs ih =>
    have ih2 := ih (fun y hy => h y (by simp [hy]))
    by_cases hq : q x = true
    · simp only [List.filter_cons, hq, if_true, List.find?_cons, ih2]
    · have hp : p x = false := by
        by_contra hp
        exact hq (h x (by simp) (by simpa using hp))
      simp [List.filter_cons, hq, List.find?_cons, hp, ih2]

theorem specGet_specErase_same (k : K) (xs : List (K × V)) :
    specGet k (specErase k xs) = none := by
  simp only [specGet, specErase, Option.map_eq_none', List.find?_eq_none, decide_eq_true_eq]
  intro x hx
  simpa using (List.mem_filter.1 hx).2

theorem specGet_specErase_other (k k2 : K) (xs : List (K × V)) (h : k2 ≠ k) :
    specGet k2 (specErase k xs) = specGet k2 xs := by
  simp only [specGet, specErase]
  rw [find?_filter_of_imp]
  intro x _ hx
  simp only [decide_eq_true_eq] at hx
  simp [hx, h]

theorem specGet_specSet_other (k k2 : K) (v : V) (xs : List (K × V)) (h : k2 ≠ k) :
    specGet k2 (specSet k v xs) = specGet k2 xs := by
  simp only [specGet, specSet, List.find?_append, List.find?_cons]
  have hk : decide (k = k2) = false := by simpa using h.symm
  simp only [hk]
  rcases lt_or_gt_of_ne h with hlt | hgt
  · rw [find?_filter_of_imp _ _ xs (fun x _ hx => by
      simp only [decide_eq_true_eq] at hx ⊢
      rw [hx]; exact hlt)]
    have : (xs.filter (fun kv => decide (k < kv.1))).find? (fun kv => decide (kv.1 = k2)) =
        none := by
      simp only [List.find?_eq_none, decide_eq_true_eq]
      intro x hx
      have : k < x.1 := by simpa using (List.mem_filter.1 hx).2
      exact ne_of_gt (lt_trans hlt this)
    rw [this]
    simp
  · rw [find?_filter_of_imp _ (fun kv => decide (k < kv.1)) xs (fun x _ hx => by
      simp only [decide_eq_true_eq] at hx ⊢
      rw [hx]; exact hgt)]
    have : (xs.filter (fun kv => decide (kv.1 < k))).find? (fun kv => decide (kv.1 = k2)) =
        none := by
      simp only [List.find?_eq_none, decide_eq_true_eq]
      intro x hx
      have : x.1 < k := by simpa using (List.mem_filter.1 hx).2
      exact ne_of_lt (lt_trans this hgt)
    rw [this]
    simp

end GetSpec

/-!
## Iteration
-/

section Iter

variable {K V : Type}

theorem Tree.first_leaf (a : Nat) (kv : K × V) (g : V) (p : Nat) (r : Tree K V) :
    (Tree.node a Tree.nil kv g p r).first = some a := rfl

theorem Tree.first_left (a b : Nat) (kv lkv : K × V) (g lg : V) (p lp : Nat)
    (r ll lr : Tree K V) :
    (Tree.node a (Tree.node b ll lkv lg lp lr) kv g p r).first =
      (Tree.node b ll lkv lg lp lr).first := rfl

theorem leftmost_ok {m : Mem K V} {t : Tree K V} {p : Ptr} {fuel : Nat} {a : Nat}
    (hr : Rep m p t) (hf : t.count ≤ fuel) (ha : t.ptr = some a) :
    ∃ x, leftmost fuel m a = Except.ok x ∧ t.first = some x := by
  induction t generalizing p fuel a with
  | nil => simp [Tree.ptr_nil] at ha
  | node b l kv g pr r ihl _ =>
    simp only [Tree.ptr_node, Option.some.injEq] at ha
    subst ha
    obtain ⟨h1, h2, -⟩ := hr
    cases fuel with
    | zero => simp [Tree.count] at hf
    | succ fuel =>
      simp only [Tree.count] at hf
      cases l with
      | nil =>
        exact ⟨b, by simp only [leftmost, load_ok h1, ok_bind, Tree.ptr_nil, pure_eq_ok], rfl⟩
      | node c ll lkv lg lp lr =>
        obtain ⟨x, hx, hfirst⟩ := @ihl (some b) fuel c h2 (by omega) rfl
        exact ⟨x, by simp only [leftmost, load_ok h1, ok_bind, Tree.ptr_node, hx], hfirst⟩

theorem climb_ok {m : Mem K V} (c : List (Frame K V)) :
    ∀ {fuel : Nat} {x : Nat} {n : TreapNode K V}, c.length < fuel → m x = some n →
      n.parent = ctxPtr c → RepCtx m c (some x) → x ∉ ctxAddrs c → (ctxAddrs c).Nodup →
      climb fuel m x = Except.ok (climbT c) := by
  induction c with
  | nil =>
    intro fuel x n hf hx hp _ _ _
    cases fuel with
    | zero => simp at hf
    | succ fuel =>
      simp only [ctxPtr_nil] at hp
      simp only [climb, load_ok hx, ok_bind, hp, pure_eq_ok, climbT]
  | cons f c ih =>
    intro fuel x n hf hx hp hc hxc hnd
    cases fuel with
    | zero => simp at hf
    | succ fuel =>
      cases f with
      | L a kv g p r =>
        obtain ⟨h1, -, -⟩ := hc
        simp only [ctxPtr_cons, Frame.addr] at hp
        have hne : r.ptr ≠ some x :=
          Tree.ptr_ne (fun h => hxc (by simp [ctxAddrs, Frame.sibling, h]))
        simp only [climb, load_ok hx, ok_bind, hp, load_ok h1, hne, if_false, pure_eq_ok, climbT]
      | R a l kv g p =>
        obtain ⟨h1, -, h3⟩ := hc
        simp only [ctxPtr_cons, Frame.addr] at hp
        simp only [ctxAddrs, Frame.addr, Frame.sibling] at hnd
        have hac : a ∉ ctxAddrs c := fun h => (List.nodup_cons.1 hnd).1 (by simp [h])
        have hnd2 : (ctxAddrs c).Nodup := (List.nodup_append.1 (List.nodup_cons.1 hnd).2).2.1
        simp only [climb, load_ok hx, ok_bind, hp, load_ok h1, if_true, climbT]
        exact ih (by simpa using hf) h1 rfl h3 hac hnd2

theorem ctx_length_le (c : List (Frame K V)) : c.length ≤ (ctxAddrs c).length := by
  induction c with
  | nil => simp
  | cons f c ih =>
    simp only [ctxAddrs, List.length_cons, List.length_append]
    omega

/-- The iteration started at the first node of the subtree in the hole visits
the pairs of the subtree in order, then goes on where `climb` leads. -/
theorem traverse_from_ok (s : Treemap K V) (t : Tree K V) :
    ∀ (c : List (Frame K V)) (fuel : Nat) (rest : List (K × V)),
      t ≠ Tree.nil →
      Rep s.mem none (plug c t) → (t.addrs ++ ctxAddrs c).Nodup →
      t.count + (ctxAddrs c).length ≤ s.brk →
      traverse_from s fuel (climbT c) = Except.ok rest →
      traverse_from s (fuel + t.count) t.first = Except.ok (t.toList ++ rest) := by
  induction t with
  | nil => intro c fuel rest h; exact absurd rfl h
  | node a l kv g p r ihl ihr =>
    intro c fuel rest _ hrep hnd hbound hrest
    obtain ⟨hc, ha, hl, hr⟩ := rep_plug.1 hrep
    simp only [Tree.ptr_node] at hc
    simp only [Tree.count] at hbound
    have hndc : (ctxAddrs c).Nodup := (List.nodup_append.1 hnd).2.1
    have hac : a ∉ ctxAddrs c := fun h => nodup_disj hnd a (by simp [Tree.addrs]) h
    have hlen := ctx_length_le c
    -- from the node itself onwards
    have hA : traverse_from s (fuel + r.count + 1) (some a) =
        Except.ok (kv :: (r.toList ++ rest)) := by
      cases r with
      | nil =>
        have hcl : climb (s.brk + 1) s.mem a = Except.ok (climbT c) :=
          climb_ok c (by omega) ha rfl hc hac hndc
        simp only [traverse_from, iterator_deref, load_ok ha, ok_bind, pure_eq_ok,
          iterator_incr, successor, Tree.ptr_nil, hcl, Tree.count, Tree.toList, Nat.add_zero,
          hrest, List.nil_append]
      | node b rl rkv rg rp rr =>
        obtain ⟨x, hx, hfirst⟩ := leftmost_ok (a := b) hr
          (by omega : (Tree.node b rl rkv rg rp rr).count ≤ s.brk + 1) rfl
        have hsub := ihr (Frame.R a l kv g p :: c) fuel rest (by simp) hrep
          (by
            refine (List.Perm.nodup_iff ?_).2 hnd
            simp only [Tree.addrs_node, ctxAddrs, Frame.addr, Frame.sibling, List.append_assoc,
              List.cons_append]
            have h1 : List.Perm (rl.addrs ++ b :: (rr.addrs ++ a :: (l.addrs ++ ctxAddrs c)))
                ((rl.addrs ++ b :: rr.addrs) ++ (a :: l.addrs) ++ ctxAddrs c) := by
              simp only [List.append_assoc, List.cons_append]
              exact List.Perm.refl _
            have h2 : List.Perm ((rl.addrs ++ b :: rr.addrs) ++ (a :: l.addrs) ++ ctxAddrs c)
                ((a :: l.addrs) ++ (rl.addrs ++ b :: rr.addrs) ++ ctxAddrs c) :=
              List.Perm.append_right _ List.perm_append_comm
            have h3 : List.Perm ((a :: l.addrs) ++ (rl.addrs ++ b :: rr.addrs) ++ ctxAddrs c)
                (l.addrs ++ a :: (rl.addrs ++ b :: (rr.addrs ++ ctxAddrs c))) := by
              simp only [List.append_assoc, List.cons_append]
              exact List.perm_middle.symm
            exact (h1.trans h2).trans h3)
          (by
            simp only [ctxAddrs, Frame.addr, Frame.sibling, List.length_cons, List.length_append,
              ← Tree.count_eq_length]
            omega)
          (by simpa only [climbT] using hrest)
        rw [hfirst] at hsub
        simp only [traverse_from, iterator_deref, load_ok ha, ok_bind, pure_eq_ok,
          iterator_incr, successor, Tree.ptr_node, minimum_node, hx, hsub, Tree.toList]
    cases l with
    | nil =>
      simp only [Tree.first_leaf, Tree.count, Tree.toList, List.nil_append, Nat.zero_add]
      have : fuel + (1 + r.count) = fuel + r.count + 1 := by omega
      rw [this]
      exact hA
    | node b ll lkv lg lp lr =>
      have hsub := ihl (Frame.L a kv g p r :: c) (fuel + r.count + 1) (kv :: (r.toList ++ rest))
        (by simp) hrep
        (by
          refine (List.Perm.nodup_iff ?_).2 hnd
          simp only [Tree.addrs_node, ctxAddrs, Frame.addr, Frame.sibling, List.append_assoc,
            List.cons_append]
          exact List.Perm.refl _)
        (by
          simp only [ctxAddrs, Frame.addr, Frame.sibling, List.length_cons, List.length_append,
            ← Tree.count_eq_length]
          omega)
        (by simpa only [climbT] using hA)
      rw [Tree.first_left]
      have : fuel + (Tree.node a (Tree.node b ll lkv lg lp lr) kv g p r).count =
          fuel + r.count + 1 + (Tree.node b ll lkv lg lp lr).count := by
        simp only [Tree.count]; omega
      rw [this, hsub]
      simp [Tree.toList]

end Iter
section IterTop

variable {K V : Type} [LinearOrder K]

/-- On a container that holds a tree, the iteration from `begin()` to `end()`
visits the pairs of the tree in order. -/
theorem traverse_ok {s : Treemap K V} {t : Tree K V} (hg : Good s t) :
    traverse s = Except.ok t.toList := by
  have hcnt := hg.count_le
  cases t with
  | nil =>
    have hroot : s.root = none := hg.root
    simp only [traverse, begin, hroot, minimum_node, pure_eq_ok, ok_bind, traverse_from,
      Tree.toList]
  | node a l kv g p r =>
    have hroot : s.root = some a := hg.root
    obtain ⟨x, hx, hfirst⟩ := leftmost_ok (a := a) hg.rep
      (by omega : (Tree.node a l kv g p r).count ≤ s.brk + 1) rfl
    have hsub := traverse_from_ok s (Tree.node a l kv g p r) []
      (s.brk + 1 - (Tree.node a l kv g p r).count) [] (by simp) hg.rep
      (by simpa [ctxAddrs] using hg.nodup) (by simpa [ctxAddrs] using hcnt)
      (by
        have : s.brk + 1 - (Tree.node a l kv g p r).count =
            (s.brk - (Tree.node a l kv g p r).count) + 1 := by omega
        rw [this]
        rfl)
    have hfuel : s.brk + 1 - (Tree.node a l kv g p r).count + (Tree.node a l kv g p r).count =
        s.brk + 1 := by omega
    rw [hfuel, hfirst, List.append_nil] at hsub
    simp only [traverse, begin, hroot, minimum_node, hx, ok_bind, pure_eq_ok, hsub]

theorem lower_bound_loop_ok (x : K) {m : Mem K V} {t : Tree K V} {p : Ptr} {fuel : Nat}
    (best : Option (Nat × K × V)) (hr : Rep m p t) (hf : t.count < fuel) :
    lower_bound_loop fuel m t.ptr (best.map Prod.fst) x =
      Except.ok ((lbT t best x).map Prod.fst) := by
  induction t generalizing p fuel best with
  | nil =>
    cases fuel with
    | zero => simp at hf
    | succ fuel => rfl
  | node a l kv g pr r ihl ihr =>
    cases fuel with
    | zero => simp at hf
    | succ fuel =>
      obtain ⟨h1, h2, h3⟩ := hr
      simp only [Tree.count] at hf
      simp only [Tree.ptr_node, lower_bound_loop, load_ok h1, ok_bind, lbT]
      split
      · exact ihr best h3 (by omega)
      · exact ihl (some (a, kv)) h2 (by omega)

/-- The candidate the loop ends with: the initial one if every key of the tree
is below `x`, and otherwise the node of the tree with the least key not below
`x`. -/
theorem lbT_spec (x : K) {m : Mem K V} {t : Tree K V} {p : Ptr}
    (best : Option (Nat × K × V)) (hr : Rep m p t) (hs : KeysIncreasing t.toList) :
    (lbT t best x = best ∧ ∀ kv ∈ t.toList, kv.1 < x) ∨
    ∃ a n, lbT t best x = some (a, n.value) ∧ m a = some n ∧ n.value ∈ t.toList ∧
      x ≤ n.value.1 ∧ ∀ kv ∈ t.toList, x ≤ kv.1 → n.value.1 ≤ kv.1 := by
  induction t generalizing p best with
  | nil => exact Or.inl ⟨rfl, fun _ h => by simp [Tree.toList] at h⟩
  | node a l kv g pr r ihl ihr =>
    obtain ⟨h1, h2, h3⟩ := hr
    simp only [Tree.toList] at hs
    obtain ⟨hsl, hsr, hlt, hgt⟩ := keysIncreasing_node hs
    simp only [lbT, Tree.toList, List.mem_append, List.mem_cons]
    by_cases hk : kv.1 < x
    · rw [if_pos hk]
      rcases ihr best h3 hsr with ⟨e, hall⟩ | ⟨b, n, e, hm, hmem, hx, hmin⟩
      · refine Or.inl ⟨e, ?_⟩
        rintro y (hy | rfl | hy)
        · exact lt_trans (hlt y hy) hk
        · exact hk
        · exact hall y hy
      · refine Or.inr ⟨b, n, e, hm, Or.inr (Or.inr hmem), hx, ?_⟩
        rintro y (hy | rfl | hy) hxy
        · exact absurd (lt_of_le_of_lt hxy (lt_trans (hlt y hy) hk)) (lt_irrefl _)
        · exact absurd (lt_of_le_of_lt hxy hk) (lt_irrefl _)
        · exact hmin y hy hxy
    · rw [if_neg hk]
      have hle : x ≤ kv.1 := not_lt.1 hk
      rcases ihl (some (a, kv)) h2 hsl with ⟨e, hall⟩ | ⟨b, n, e, hm, hmem, hx, hmin⟩
      · refine Or.inr ⟨a, _, e, h1, Or.inr (Or.inl rfl), hle, ?_⟩
        rintro y (hy | rfl | hy) hxy
        · exact absurd (lt_of_le_of_lt hxy (hall y hy)) (lt_irrefl _)
        · exact le_refl _
        · exact le_of_lt (hgt y hy)
      · refine Or.inr ⟨b, n, e, hm, Or.inl hmem, hx, ?_⟩
        rintro y (hy | rfl | hy) hxy
        · exact hmin y hy hxy
        · exact le_of_lt (hlt _ hmem)
        · exact le_of_lt (lt_trans (hlt _ hmem) (hgt y hy))

/-- On a container that holds a tree, `lower_bound(x)` returns `end()` if
every stored key is below `x`, and otherwise a pointer to the node with the
least stored key not below `x`. -/
theorem lower_bound_ok {s : Treemap K V} {t : Tree K V} (hg : Good s t) (x : K) :
    (lower_bound s x = Except.ok none ∧ ∀ kv ∈ t.toList, kv.1 < x) ∨
    ∃ a n, lower_bound s x = Except.ok (some a) ∧ s.mem a = some n ∧ n.value ∈ t.toList ∧
      x ≤ n.value.1 ∧ ∀ kv ∈ t.toList, x ≤ kv.1 → n.value.1 ≤ kv.1 := by
  have hcnt := hg.count_le
  have hloop := lower_bound_loop_ok x none hg.rep (by omega : t.count < s.brk + 1)
  rw [← hg.root] at hloop
  rcases lbT_spec x none hg.rep hg.sorted with ⟨e, hall⟩ | ⟨a, n, e, hm, hmem, hx, hmin⟩
  · rw [e] at hloop
    exact Or.inl ⟨hloop, hall⟩
  · rw [e] at hloop
    exact Or.inr ⟨a, n, hloop, hm, hmem, hx, hmin⟩

end IterTop

/-!
## Sequences of calls
-/

section Run

variable {K V : Type} [LinearOrder K]

/-- One call keeps the container well formed and follows the contract; it
keeps the cached augments coherent when the combiner is associative. -/
theorem step_good (aug : V → V → V) {s : Treemap K V} {t : Tree K V} (hg : Good s t)
    (op : Op K V) :
    ∃ s2 t2, step aug s op = Except.ok s2 ∧ Good s2 t2 ∧ s2.id = s.id ∧
      t2.toList = specStep t.toList op ∧
      ((∀ x y z, aug (aug x y) z = aug x (aug y z)) → Coherent aug t → Coherent aug t2) := by
  cases op with
  | set k v prio =>
    obtain ⟨s2, e, hg2, hid, hl⟩ := set_good aug hg k v prio
    exact ⟨s2, _, e, hg2, hid, hl, fun ha hc => coherent_setT aug ha t hc k v prio s.brk⟩
  | erase k =>
    obtain ⟨s2, e, hg2, hid, hl⟩ := erase_good aug hg k
    exact ⟨s2, _, e, hg2, hid, hl, fun _ hc => coherent_eraseT aug (s.brk + 1) t hc k⟩

theorem runFrom_good (aug : V → V → V) (ops : List (Op K V)) :
    ∀ {s : Treemap K V} {t : Tree K V}, Good s t →
      ∃ s2 t2, runFrom aug s ops = Except.ok s2 ∧ Good s2 t2 ∧ s2.id = s.id ∧
        t2.toList = ops.foldl specStep t.toList ∧
        ((∀ x y z, aug (aug x y) z = aug x (aug y z)) → Coherent aug t → Coherent aug t2) := by
  induction ops with
  | nil =>
    intro s t hg
    exact ⟨s, t, rfl, hg, rfl, rfl, fun _ h => h⟩
  | cons op ops ih =>
    intro s t hg
    obtain ⟨s1, t1, e1, hg1, hid1, hl1, hc1⟩ := step_good aug hg op
    obtain ⟨s2, t2, e2, hg2, hid2, hl2, hc2⟩ := ih hg1
    refine ⟨s2, t2, ?_, hg2, hid2.trans hid1, ?_, fun ha hc => hc2 ha (hc1 ha hc)⟩
    · simp only [runFrom, e1, ok_bind, e2]
    · rw [hl2, hl1]; rfl

/-- Every sequence of calls on the empty map runs to completion; the
container then holds a tree whose pairs are those of the contract. -/
theorem run_good (aug : V → V → V) (id : V) (ops : List (Op K V)) :
    ∃ s t, run aug id ops = Except.ok s ∧ Good s t ∧ s.id = id ∧ t.toList = specRun ops ∧
      ((∀ x y z, aug (aug x y) z = aug x (aug y z)) → Coherent aug t) := by
  obtain ⟨s, t, e, hg, hid, hl, hc⟩ := runFrom_good aug ops (empty_good id)
  exact ⟨s, t, e, hg, hid, hl, fun ha => hc ha trivial⟩

/-- The pairs the contract stores after a sequence of calls are in strictly
increasing key order. -/
theorem specRun_increasing (ops : List (Op K V)) : KeysIncreasing (specRun ops) := by
  have key : ∀ (xs : List (K × V)), KeysIncreasing xs →
      KeysIncreasing (ops.foldl specStep xs) := by
    induction ops with
    | nil => intro xs h; exact h
    | cons op ops ih =>
      intro xs h
      refine ih _ ?_
      cases op with
      | set k v prio => exact keysIncreasing_specSet k v xs h
      | erase k => exact keysIncreasing_specErase k xs h
  exact key [] List.Pairwise.nil

theorem specGet_eq_none (k : K) (xs : List (K × V)) :
    specGet k xs = none ↔ ∀ kv ∈ xs, kv.1 ≠ k := by
  simp [specGet]

/-- `erase` of a key that is not stored returns the container it was given. -/
theorem erase_absent_ok (aug : V → V → V) {s : Treemap K V} {t : Tree K V} (hg : Good s t)
    (k : K) (hk : specGet k t.toList = none) : erase aug s k = Except.ok s := by
  rw [descend_spec k t hg.sorted] at hk
  have hfind := find_node_ok hg k
  rcases hd : descend k [] t with ⟨c, t2⟩
  rw [hd] at hfind hk
  cases t2 with
  | nil => simp only [erase, hfind, ok_bind, Tree.ptr_nil, erase_node, pure_eq_ok]
  | node a l kv g p r => simp at hk

/-- When no key of the tree lies in the range, `node_query` takes only the
two branches that leave the node out, and ends on the identity. -/
theorem nqT_empty_range (aug : V → V → V) (id : V) (t : Tree K V) (lo hi : K)
    (h : ∀ kv ∈ t.toList, ¬ (lo ≤ kv.1 ∧ kv.1 ≤ hi)) : nqT aug id t lo hi = id := by
  induction t with
  | nil => rfl
  | node a l kv g p r ihl ihr =>
    simp only [Tree.toList, List.mem_append, List.mem_cons] at h
    simp only [nqT]
    split
    · exact ihl (fun x hx => h x (Or.inl hx))
    · split
      · exact ihr (fun x hx => h x (Or.inr (Or.inr hx)))
      · rename_i h1 h2
        exact absurd ⟨not_lt.1 h2, not_lt.1 h1⟩ (h kv (Or.inr (Or.inl rfl)))

/-- The number of nodes after `set`. -/
theorem setT_count (aug : V → V → V) (t : Tree K V) (hs : KeysIncreasing t.toList)
    (k : K) (v : V) (prio a : Nat) :
    (setT aug t k v prio a).count =
      if (specGet k t.toList).isSome then t.count else t.count + 1 := by
  rw [descend_spec k t hs]
  rcases hd : descend k [] t with ⟨c, t2⟩
  cases t2 with
  | nil =>
    rw [Tree.count_eq_length, (setT_addrs_new aug t k v prio a hd).length_eq,
      Tree.count_eq_length]
    simp
  | node b l kv g p r =>
    rw [Tree.count_eq_length, (setT_addrs_found aug t k v prio a hd).length_eq,
      Tree.count_eq_length]
    simp

/-- `set` allocates no node when the key is stored, and one node otherwise. -/
theorem set_brk (aug : V → V → V) {s s2 : Treemap K V} {t : Tree K V} (hg : Good s t)
    (k : K) (v : V) (prio : Nat) (e : set aug s k v prio = Except.ok s2) :
    s2.brk = if (specGet k t.toList).isSome then s.brk else s.brk + 1 := by
  rw [descend_spec k t hg.sorted]
  rcases hd : descend k [] t with ⟨c, t2⟩
  cases t2 with
  | nil =>
    obtain ⟨s3, e3, -, -, -, hbrk, -⟩ := set_new_ok aug hg k v prio hd
    rw [e] at e3
    simp only [Except.ok.injEq] at e3
    subst e3
    simpa using hbrk
  | node b l kv g p r =>
    obtain ⟨s3, e3, -, -, -, hbrk, -⟩ := set_found_ok aug hg k v prio hd
    rw [e] at e3
    simp only [Except.ok.injEq] at e3
    subst e3
    simpa using hbrk

end Run

/-!
## The heap invariant
-/

section Heap

variable {K V : Type}

theorem toList_singleton (t : Tree K V) (kv : K × V) (h : t.toList = [kv]) :
    ∃ a g p, t = Tree.node a Tree.nil kv g p Tree.nil := by
  cases t with
  | nil => simp [Tree.toList] at h
  | node a l kv2 g p r =>
    have hlen := congrArg List.length h
    simp only [Tree.toList, List.length_append, List.length_cons, List.length_nil,
      Tree.toList_length] at hlen
    have hl : l = Tree.nil := by
      cases l with
      | nil => rfl
      | node _ _ _ _ _ _ => simp [Tree.count] at hlen; omega
    have hr : r = Tree.nil := by
      cases r with
      | nil => rfl
      | node _ _ _ _ _ _ => simp [Tree.count] at hlen; omega
    subst hl; subst hr
    simp only [Tree.toList, List.nil_append, List.cons.injEq, and_true] at h
    exact ⟨a, g, p, by rw [h]⟩

theorem prioLe_mono {t : Tree K V} {p q : Nat} (h : t.prioLe p) (hpq : p ≤ q) : t.prioLe q := by
  cases t with
  | nil => trivial
  | node _ _ _ _ pt _ => exact Nat.le_trans h hpq

theorem holeLe_cons (f : Frame K V) (c : List (Frame K V)) (t : Tree K V) :
    holeLe (f :: c) t = t.prioLe f.prio := rfl

theorem holeLe_node (c : List (Frame K V)) (a : Nat) (l : Tree K V) (kv : K × V) (g : V)
    (p : Nat) (r : Tree K V) : holeLe c (Tree.node a l kv g p r) ↔ ctxGe c p := by
  cases c <;> simp [holeLe, ctxGe, Tree.prioLe]

theorem holeLe_of_ctxGe {c : List (Frame K V)} {t : Tree K V} {q : Nat}
    (h : ctxGe c q) (ht : t.prioLe q) : holeLe c t := by
  cases c with
  | nil => trivial
  | cons f c => exact prioLe_mono ht h

/-- The heap invariant of a tree with a filled hole, part by part. -/
theorem heapOrdered_plug (c : List (Frame K V)) :
    ∀ t : Tree K V, HeapOrdered (plug c t) ↔ HeapOrdered t ∧ holeLe c t ∧ HeapCtx c := by
  induction c with
  | nil => intro t; simp [plug, holeLe, HeapCtx]
  | cons f c ih =>
    intro t
    rw [plug, ih]
    cases f with
    | L a kv g p r =>
      simp only [Frame.fill]
      rw [holeLe_node, holeLe_cons]
      simp only [HeapOrdered, HeapCtx, Frame.prio, Frame.sibling]
      tauto
    | R a l kv g p =>
      simp only [Frame.fill]
      rw [holeLe_node, holeLe_cons]
      simp only [HeapOrdered, HeapCtx, Frame.prio, Frame.sibling]
      tauto

theorem refresh_ctxGe (aug : V → V → V) (c : List (Frame K V)) (t : Tree K V) (q : Nat) :
    ctxGe (refresh aug c t) q ↔ ctxGe c q := by
  cases c with
  | nil => simp [refresh, ctxGe]
  | cons f c => cases f <;> simp [refresh, ctxGe, Frame.prio]

theorem refresh_holeLe (aug : V → V → V) (c : List (Frame K V)) (t u : Tree K V) :
    holeLe (refresh aug c t) u ↔ holeLe c u := by
  cases c with
  | nil => simp [refresh, holeLe]
  | cons f c => cases f <;> simp [refresh, holeLe, Frame.prio]

theorem refresh_heapCtx (aug : V → V → V) (c : List (Frame K V)) :
    ∀ t : Tree K V, HeapCtx (refresh aug c t) ↔ HeapCtx c := by
  induction c with
  | nil => intro t; simp [refresh, HeapCtx]
  | cons f c ih =>
    intro t
    cases f with
    | L a kv g p r =>
      simp only [refresh, HeapCtx, Frame.sibling, Frame.prio, refresh_ctxGe, ih]
    | R a l kv g p =>
      simp only [refresh, HeapCtx, Frame.sibling, Frame.prio, refresh_ctxGe, ih]

/-- The rotation loop of `set` restores the heap invariant: the node in the
hole may break it against its parent only, and its children fit under every
node above the hole. -/
theorem heapOrdered_rotUp (aug : V → V → V) (c : List (Frame K V)) :
    ∀ (n : Nat) (ln : Tree K V) (kvn : K × V) (gn : V) (pn : Nat) (rn : Tree K V),
      HeapCtx c → HeapOrdered ln → HeapOrdered rn → ln.prioLe pn → rn.prioLe pn →
      holeLe c ln → holeLe c rn →
      HeapOrdered (rotUp aug c (Tree.node n ln kvn gn pn rn)) := by
  induction c with
  | nil =>
    intro n ln kvn gn pn rn _ hl hr hlp hrp _ _
    exact ⟨hlp, hrp, hl, hr⟩
  | cons f c ih =>
    intro n ln kvn gn pn rn hc hl hr hlp hrp hfl hfr
    obtain ⟨hs, hso, hge, hc2⟩ := hc
    cases f with
    | L pa kvp gp pp r =>
      simp only [Frame.sibling, Frame.prio] at hs hso hge
      simp only [holeLe, Frame.prio] at hfl hfr
      simp only [rotUp]
      by_cases hlt : pp < pn
      · rw [if_pos hlt]
        refine ih n ln kvn gp pn _ hc2 hl ⟨hfr, hs, hr, hso⟩ hlp ?_ ?_ ?_
        · exact Nat.le_of_lt hlt
        · exact holeLe_of_ctxGe hge hfl
        · exact (holeLe_node _ _ _ _ _ _ _).2 hge
      · rw [if_neg hlt, heapOrdered_plug]
        refine ⟨⟨hlp, hrp, hl, hr⟩, ?_, hs, hso, hge, hc2⟩
        simp only [holeLe, Tree.prioLe, Frame.prio]
        omega
    | R pa l kvp gp pp =>
      simp only [Frame.sibling, Frame.prio] at hs hso hge
      simp only [holeLe, Frame.prio] at hfl hfr
      simp only [rotUp]
      by_cases hlt : pp < pn
      · rw [if_pos hlt]
        refine ih n _ kvn gp pn rn hc2 ⟨hs, hfl, hso, hl⟩ hr ?_ hrp ?_ ?_
        · exact Nat.le_of_lt hlt
        · exact (holeLe_node _ _ _ _ _ _ _).2 hge
        · exact holeLe_of_ctxGe hge hfr
      · rw [if_neg hlt, heapOrdered_plug]
        refine ⟨⟨hlp, hrp, hl, hr⟩, ?_, hs, hso, hge, hc2⟩
        simp only [holeLe, Tree.prioLe, Frame.prio]
        omega

/-- The root of a merged tree is one of the two roots. -/
theorem prioLe_mergeT (aug : V → V → V) (fuel : Nat) (t1 t2 : Tree K V) (q : Nat)
    (h1 : t1.prioLe q) (h2 : t2.prioLe q) : (mergeT aug fuel t1 t2).prioLe q := by
  cases fuel with
  | zero => simp [mergeT, Tree.prioLe]
  | succ fuel =>
    cases t1 with
    | nil => simpa [mergeT] using h2
    | node a l1 kv1 g1 p1 r1 =>
      cases t2 with
      | nil => simpa [mergeT] using h1
      | node b l2 kv2 g2 p2 r2 =>
        simp only [mergeT]
        split
        · exact h1
        · exact h2

/-- `merge` builds a heap-ordered tree from two heap-ordered trees, whatever
the priorities, equal ones included. -/
theorem heapOrdered_mergeT (aug : V → V → V) (fuel : Nat) :
    ∀ t1 t2 : Tree K V, HeapOrdered t1 → HeapOrdered t2 →
      HeapOrdered (mergeT aug fuel t1 t2) := by
  induction fuel with
  | zero => intro t1 t2 _ _; simp [mergeT, HeapOrdered]
  | succ fuel ih =>
    intro t1 t2 h1 h2
    cases t1 with
    | nil => simpa [mergeT] using h2
    | node a l1 kv1 g1 p1 r1 =>
      cases t2 with
      | nil => simpa [mergeT] using h1
      | node b l2 kv2 g2 p2 r2 =>
        obtain ⟨hl1, hr1, hol1, hor1⟩ := h1
        obtain ⟨hl2, hr2, hol2, hor2⟩ := h2
        simp only [mergeT]
        split
        · next hgt =>
          refine ⟨hl1, ?_, hol1, ih _ _ hor1 ⟨hl2, hr2, hol2, hor2⟩⟩
          exact prioLe_mergeT aug fuel _ _ p1 hr1 (by simp only [Tree.prioLe]; omega)
        · next hgt =>
          refine ⟨?_, hr2, ih _ _ ⟨hl1, hr1, hol1, hor1⟩ hol2, hor2⟩
          exact prioLe_mergeT aug fuel _ _ p2 (by simp only [Tree.prioLe]; omega) hl2

end Heap

section HeapOps

variable {K V : Type} [LinearOrder K]

/-- `set` keeps the heap invariant, whatever priority the new node draws. -/
theorem heapOrdered_setT (aug : V → V → V) (t : Tree K V) (h : HeapOrdered t)
    (k : K) (v : V) (prio : Nat) (a : Nat) : HeapOrdered (setT aug t k v prio a) := by
  have hpl := plug_descend k [] t
  simp only [plug] at hpl
  rw [← hpl, heapOrdered_plug] at h
  obtain ⟨ht2, hfit, hc⟩ := h
  unfold setT
  rcases hd : descend k [] t with ⟨c, t2⟩
  rw [hd] at ht2 hfit hc
  cases t2 with
  | nil =>
    simp only
    refine heapOrdered_rotUp aug _ a Tree.nil (k, v) v prio Tree.nil
      ((refresh_heapCtx aug c _).2 hc) trivial trivial trivial trivial ?_ ?_
    · exact (refresh_holeLe aug c _ _).2 (by cases c <;> trivial)
    · exact (refresh_holeLe aug c _ _).2 (by cases c <;> trivial)
  | node b l kv g p r =>
    simp only
    rw [heapOrdered_plug]
    refine ⟨ht2, ?_, (refresh_heapCtx aug c _).2 hc⟩
    rw [refresh_holeLe, holeLe_node]
    exact (holeLe_node _ _ _ _ _ _ _).1 hfit

/-- `erase` keeps the heap invariant. -/
theorem heapOrdered_eraseT (aug : V → V → V) (fuel : Nat) (t : Tree K V) (h : HeapOrdered t)
    (k : K) : HeapOrdered (eraseT aug fuel t k) := by
  have h0 := h
  have hpl := plug_descend k [] t
  simp only [plug] at hpl
  rw [← hpl, heapOrdered_plug] at h
  obtain ⟨ht2, hfit, hc⟩ := h
  unfold eraseT
  rcases hd : descend k [] t with ⟨c, t2⟩
  rw [hd] at ht2 hfit hc
  cases t2 with
  | nil => exact h0
  | node b l kv g p r =>
    simp only
    obtain ⟨hl, hr, hol, hor⟩ := ht2
    rw [heapOrdered_plug]
    refine ⟨heapOrdered_mergeT aug fuel l r hol hor, ?_, (refresh_heapCtx aug c _).2 hc⟩
    rw [refresh_holeLe]
    have hge := (holeLe_node _ _ _ _ _ _ _).1 hfit
    exact holeLe_of_ctxGe hge (prioLe_mergeT aug fuel l r p hl hr)

end HeapOps

/-!
## The documented invariants and the tree a memory holds
-/

section Invariants

variable {K V : Type}

/-- Every node of a tree is the root of the subtree in some hole. -/
theorem exists_plug_of_mem {x : Nat} :
    ∀ (t : Tree K V) (c0 : List (Frame K V)), x ∈ t.addrs →
      ∃ c l kv g p r, plug c0 t = plug c (Tree.node x l kv g p r) := by
  intro t
  induction t with
  | nil => intro c0 h; simp [Tree.addrs] at h
  | node a l kv g p r ihl ihr =>
    intro c0 h
    simp only [Tree.addrs_node, List.mem_append, List.mem_cons] at h
    rcases h with h | h | h
    · obtain ⟨c, l2, kv2, g2, p2, r2, e⟩ := ihl (Frame.L a kv g p r :: c0) h
      exact ⟨c, l2, kv2, g2, p2, r2, e⟩
    · subst h
      exact ⟨c0, l, kv, g, p, r, rfl⟩
    · obtain ⟨c, l2, kv2, g2, p2, r2, e⟩ := ihr (Frame.R a l kv g p :: c0) h
      exact ⟨c, l2, kv2, g2, p2, r2, e⟩

/-- The cell of a node of the stored tree: its parent pointer designates the
node above it, whose left or right pointer designates it in turn. -/
theorem rep_cell_links {m : Mem K V} {t : Tree K V} (hr : Rep m none t) {x : Nat}
    (hx : x ∈ t.addrs) :
    ∃ n, m x = some n ∧
      ((n.parent = none ∧ t.ptr = some x) ∨
        ∃ q nq, n.parent = some q ∧ q ∈ t.addrs ∧ m q = some nq ∧
          (nq.left = some x ∨ nq.right = some x)) ∧
      (∀ y, n.left = some y → ∃ ny, m y = some ny ∧ ny.parent = some x) ∧
      (∀ y, n.right = some y → ∃ ny, m y = some ny ∧ ny.parent = some x) := by
  obtain ⟨c, l, kv, g, p, r, e⟩ := exists_plug_of_mem t [] hx
  simp only [plug] at e
  rw [e] at hr
  obtain ⟨hc, hcell, hl, hrr⟩ := rep_plug.1 hr
  refine ⟨_, hcell, ?_, ?_, ?_⟩
  · cases c with
    | nil =>
      left
      exact ⟨rfl, by rw [e]; rfl⟩
    | cons f c =>
      right
      have hmem : f.addr ∈ t.addrs := by
        rw [e]
        refine (plug_addrs_perm (f :: c) _).mem_iff.2 ?_
        simp [ctxAddrs]
      cases f with
      | L a kv2 g2 p2 r2 =>
        obtain ⟨h1, -, -⟩ := hc
        exact ⟨a, _, rfl, hmem, h1, Or.inl rfl⟩
      | R a l2 kv2 g2 p2 =>
        obtain ⟨h1, -, -⟩ := hc
        exact ⟨a, _, rfl, hmem, h1, Or.inr rfl⟩
  · intro y hy
    simp only at hy
    cases l with
    | nil => simp [Tree.ptr_nil] at hy
    | node b _ _ _ _ _ =>
      simp only [Tree.ptr_node, Option.some.injEq] at hy
      subst hy
      exact ⟨_, hl.1, rfl⟩
  · intro y hy
    simp only at hy
    cases r with
    | nil => simp [Tree.ptr_nil] at hy
    | node b _ _ _ _ _ =>
      simp only [Tree.ptr_node, Option.some.injEq] at hy
      subst hy
      exact ⟨_, hrr.1, rfl⟩

/-- The parent pointers of a stored tree are consistent with its child
pointers, and the root pointer designates the one node without parent. -/
theorem parentConsistent_of_rep {s : Treemap K V} {t : Tree K V} (hr : Rep s.mem none t)
    (hroot : s.root = t.ptr) : ParentConsistent s t.addrs := by
  refine ⟨?_, ?_, ?_, ?_⟩
  · intro c hc p hp
    constructor
    · rintro ⟨n, hn, hpar⟩
      obtain ⟨n2, hn2, hup, -, -⟩ := rep_cell_links hr hc
      rw [hn] at hn2
      cases hn2
      rcases hup with ⟨h, -⟩ | ⟨q, nq, hq, -, hmq, hch⟩
      · rw [h] at hpar; cases hpar
      · rw [hq] at hpar
        cases hpar
        exact ⟨nq, hmq, hch⟩
    · rintro ⟨n, hn, hch⟩
      obtain ⟨n2, hn2, -, hl, hrr⟩ := rep_cell_links hr hp
      rw [hn] at hn2
      cases hn2
      rcases hch with h | h
      · exact hl c h
      · exact hrr c h
  · intro c hc n p hn hpar
    obtain ⟨n2, hn2, hup, -, -⟩ := rep_cell_links hr hc
    rw [hn] at hn2
    cases hn2
    rcases hup with ⟨h, -⟩ | ⟨q, nq, hq, hqm, -, -⟩
    · rw [h] at hpar; cases hpar
    · rw [hq] at hpar
      cases hpar
      exact hqm
  · intro c hc
    obtain ⟨n, hn, hup, -, -⟩ := rep_cell_links hr hc
    constructor
    · intro h
      rw [hroot] at h
      cases t with
      | nil => simp [Tree.ptr_nil] at h
      | node a l kv g p r =>
        simp only [Tree.ptr_node, Option.some.injEq] at h
        subst h
        exact ⟨_, hr.1, rfl⟩
    · rintro ⟨n2, hn2, hpar⟩
      rw [hn] at hn2
      cases hn2
      rcases hup with ⟨-, h⟩ | ⟨q, nq, hq, -, -, -⟩
      · rw [hroot, h]
      · rw [hq] at hpar; cases hpar
  · intro h
    rw [hroot]
    cases t with
    | nil => rfl
    | node a l kv g p r => simp [Tree.addrs] at h

theorem rep_shape {m : Mem K V} {t : Tree K V} : ∀ {p : Ptr}, Rep m p t → Shape m t := by
  induction t with
  | nil => intro p _; trivial
  | node a l kv g pr r ihl ihr =>
    intro p h
    exact ⟨⟨p, h.1⟩, ihl h.2.1, ihr h.2.2⟩

/-- Child pointers that store a tree, and parent pointers consistent with
them, store the tree with its parent pointers. -/
theorem rep_of_shape {m : Mem K V} {nodes : List Nat}
    (hpc : ∀ c ∈ nodes, ∀ p ∈ nodes,
      (∃ n, m p = some n ∧ (n.left = some c ∨ n.right = some c)) →
        ∃ n, m c = some n ∧ n.parent = some p) :
    ∀ (t : Tree K V) (p0 : Ptr), Shape m t → (∀ a ∈ t.addrs, a ∈ nodes) →
      (∀ a n, t.ptr = some a → m a = some n → n.parent = p0) → Rep m p0 t := by
  intro t
  induction t with
  | nil => intro p0 _ _ _; trivial
  | node a l kv g pr r ihl ihr =>
    intro p0 hs hsub hp
    obtain ⟨⟨p, hcell⟩, hsl, hsr⟩ := hs
    have hpp : p = p0 := hp a _ rfl hcell
    subst hpp
    have ha : a ∈ nodes := hsub a (by simp [Tree.addrs])
    refine ⟨hcell, ihl (some a) hsl (fun x hx => hsub x (by simp [Tree.addrs, hx])) ?_,
      ihr (some a) hsr (fun x hx => hsub x (by simp [Tree.addrs, hx])) ?_⟩
    · intro b n hb hn
      have hbm : b ∈ nodes := hsub b (by simp [Tree.addrs, Tree.ptr_mem hb])
      obtain ⟨n2, hn2, hpar⟩ := hpc b hbm a ha ⟨_, hcell, Or.inl hb⟩
      rw [hn] at hn2
      cases hn2
      exact hpar
    · intro b n hb hn
      have hbm : b ∈ nodes := hsub b (by simp [Tree.addrs, Tree.ptr_mem hb])
      obtain ⟨n2, hn2, hpar⟩ := hpc b hbm a ha ⟨_, hcell, Or.inr hb⟩
      rw [hn] at hn2
      cases hn2
      exact hpar

theorem rep_of_linked {s : Treemap K V} {t : Tree K V} (hl : Linked s t)
    (hpc : ParentConsistent s t.addrs) : Rep s.mem none t := by
  obtain ⟨h1, -, h3, -⟩ := hpc
  refine rep_of_shape (fun c hc p hp h => (h1 c hc p hp).2 h) t none hl.shape (fun _ h => h) ?_
  intro a n ha hn
  have := (h3 a (Tree.ptr_mem ha)).1 (by rw [hl.root, ha])
  obtain ⟨n2, hn2, hpar⟩ := this
  rw [hn] at hn2
  cases hn2
  exact hpar

/-- With a two-sided identity, the documented form of augment coherence is
the form `update_node` establishes. -/
theorem coherentId_iff (aug : V → V → V) (id : V)
    (hidl : ∀ x, aug id x = x) (hidr : ∀ x, aug x id = x) (t : Tree K V) :
    CoherentId aug id t ↔ Coherent aug t := by
  induction t with
  | nil => simp [CoherentId, Coherent]
  | node a l kv g p r ihl ihr =>
    simp only [CoherentId, Coherent, ihl, ihr, nodeAug_total aug id hidl hidr]

end Invariants

section InvariantsOrder

variable {K V : Type} [LinearOrder K]

/-- The binary-search-tree invariant says that the keys increase strictly in
order. -/
theorem bst_iff (t : Tree K V) : BST t ↔ KeysIncreasing t.toList := by
  induction t with
  | nil => simp [BST, KeysIncreasing, Tree.toList]
  | node a l kv g p r ihl ihr =>
    simp only [BST, Tree.toList, ihl, ihr]
    constructor
    · rintro ⟨h1, h2, h3, h4⟩
      unfold KeysIncreasing at h3 h4 ⊢
      rw [List.pairwise_append]
      refine ⟨h3, List.pairwise_cons.2 ⟨h2, h4⟩, ?_⟩
      intro x hx y hy
      rcases List.mem_cons.1 hy with h | h
      · rw [h]; exact h1 x hx
      · exact lt_trans (h1 x hx) (h2 y h)
    · intro h
      obtain ⟨h1, h2, h3, h4⟩ := keysIncreasing_node h
      exact ⟨h3, h4, h1, h2⟩

theorem good_iff {s : Treemap K V} {t : Tree K V} : Good s t ↔ Stored s t ∧ BST t := by
  constructor
  · intro h
    exact ⟨⟨h.rep, h.root, h.nodup, h.bound, h.size⟩, (bst_iff t).2 h.sorted⟩
  · rintro ⟨h, hb⟩
    exact ⟨h.rep, h.root, h.nodup, h.bound, (bst_iff t).1 hb, h.size⟩

theorem good_of_linked {s : Treemap K V} {t : Tree K V} (hl : Linked s t) (hb : BST t)
    (hpc : ParentConsistent s t.addrs) : Good s t :=
  ⟨rep_of_linked hl hpc, hl.root, hl.nodup, hl.bound, (bst_iff t).1 hb, hl.size⟩

theorem linked_of_good {s : Treemap K V} {t : Tree K V} (hg : Good s t) :
    Linked s t ∧ ParentConsistent s t.addrs :=
  ⟨⟨rep_shape hg.rep, hg.root, hg.nodup, hg.bound, hg.size⟩,
    parentConsistent_of_rep hg.rep hg.root⟩

theorem demo_good : Good demoMap demoTree := by
  refine ⟨⟨rfl, ⟨rfl, trivial, trivial⟩, ⟨rfl, trivial, trivial⟩⟩, rfl, by decide, ?_, ?_, rfl⟩
  · intro a ha
    simp [demoTree, Tree.addrs] at ha
    rcases ha with h | h | h <;> subst h <;> decide
  · simp [demoTree, Tree.toList, KeysIncreasing]

end InvariantsOrder

section DemoFacts

theorem demo_heapOrdered : HeapOrdered demoTree := by
  simp [demoTree, HeapOrdered, Tree.prioLe]

theorem demo_coherentId : CoherentId (fun x y : Int => x + y) demoMap.id demoTree := by
  simp [demoTree, demoMap, CoherentId, Tree.total]

theorem leaf_heapOrdered {K V : Type} (a : Nat) (kv : K × V) (g : V) (p : Nat) :
    HeapOrdered (Tree.node a Tree.nil kv g p Tree.nil) :=
  ⟨trivial, trivial, trivial, trivial⟩

end DemoFacts

/-!
## What `update_node` and `update_ancestors` write
-/

section Frame

variable {K V : Type}

theorem error_bind {α β : Type} (e : Fault) (f : α → Exec β) :
    (Except.error e >>= f) = Except.error e := rfl

theorem load_none {m : Mem K V} {a : Nat} (h : m a = none) :
    load m a = Except.error Fault.badPointer := by
  simp [load, h, throw, throwThe, MonadExceptOf.throw]

theorem augmentsOnly_refl (m : Mem K V) (S : List Nat) : AugmentsOnly m m S := by
  intro x
  refine ⟨fun _ => rfl, ?_⟩
  cases h : m x with
  | none => rfl
  | some n => exact ⟨n.augment, rfl⟩

theorem augmentsOnly_trans {m m2 m3 : Mem K V} {S : List Nat}
    (h1 : AugmentsOnly m m2 S) (h2 : AugmentsOnly m2 m3 S) : AugmentsOnly m m3 S := by
  intro x
  obtain ⟨a1, b1⟩ := h1 x
  obtain ⟨a2, b2⟩ := h2 x
  refine ⟨fun hx => (a2 hx).trans (a1 hx), ?_⟩
  cases h : m x with
  | none =>
    rw [h] at b1
    simp only at b1
    rw [b1] at b2
    exact b2
  | some n =>
    rw [h] at b1
    obtain ⟨g, hg⟩ := b1
    rw [hg] at b2
    obtain ⟨g2, hg2⟩ := b2
    exact ⟨g2, hg2⟩

theorem augmentsOnly_mono {m m2 : Mem K V} {S S2 : List Nat} (h : AugmentsOnly m m2 S)
    (hs : ∀ x ∈ S, x ∈ S2) : AugmentsOnly m m2 S2 := by
  intro x
  exact ⟨fun hx => (h x).1 (fun hx2 => hx (hs x hx2)), (h x).2⟩

theorem augmentsOnly_write {m : Mem K V} {a : Nat} {n : TreapNode K V} (h : m a = some n)
    (g : V) : AugmentsOnly m (m.write a { n with augment := g }) [a] := by
  intro x
  refine ⟨fun hx => write_other m _ (by simpa using hx), ?_⟩
  by_cases hxa : x = a
  · subst hxa
    rw [h]
    exact ⟨g, write_same m x _⟩
  · rw [write_other m _ hxa]
    cases h2 : m x with
    | none => rfl
    | some n2 => exact ⟨n2.augment, rfl⟩

/-- `update_node` assigns to the cached augment of its node and to nothing
else. -/
theorem update_node_writes (aug : V → V → V) {m m2 : Mem K V} {a : Nat}
    (h : update_node aug m a = Except.ok m2) : AugmentsOnly m m2 [a] := by
  cases hma : m a with
  | none =>
    simp [update_node, load_none hma, error_bind] at h
  | some n =>
    have e1 := setAugment_ok hma n.value.2
    have hm1 := write_same m a { n with augment := n.value.2 }
    have s1 := augmentsOnly_write hma n.value.2
    simp only [update_node, load_ok hma, ok_bind, e1, load_ok hm1] at h
    have key : ∀ (m1 : Mem K V) (n1 : TreapNode K V), AugmentsOnly m m1 [a] →
        m1 a = some n1 →
        (do
          let __do_lift ← load m1 a
          match __do_lift.right with
            | some r => do
              let __do_lift ← load m1 a
              let __do_lift_1 ← load m1 r
              let y ← setAugment m1 a (aug __do_lift.augment __do_lift_1.augment)
              pure y
            | none => do
              let y ← pure m1
              pure y) = Except.ok m2 → AugmentsOnly m m2 [a] := by
      intro m1 n1 hs hc hh
      simp only [load_ok hc, ok_bind] at hh
      cases hr : n1.right with
      | none =>
        simp only [hr, pure_eq_ok, ok_bind, Except.ok.injEq] at hh
        rw [← hh]; exact hs
      | some r =>
        simp only [hr] at hh
        cases hmr : m1 r with
        | none => simp [load_none hmr, error_bind] at hh
        | some nr =>
          simp only [load_ok hmr, ok_bind, setAugment_ok hc, pure_eq_ok, Except.ok.injEq] at hh
          rw [← hh]
          exact augmentsOnly_trans hs (augmentsOnly_write hc _)
    cases hl : n.left with
    | none =>
      simp only [hl, pure_eq_ok, ok_bind] at h s1 hm1
      exact key _ _ s1 hm1 h
    | some l =>
      simp only [hl] at h s1 hm1
      cases hml : (m.write a { n with augment := n.value.2 }) l with
      | none =>
        rw [hl] at hml
        simp [load_none hml, error_bind] at h
      | some nl =>
        rw [hl] at hml
        simp only [load_ok hml, ok_bind, setAugment_ok hm1] at h
        exact key _ _ (augmentsOnly_trans s1 (augmentsOnly_write hm1 _)) (write_same _ _ _) h

/-- The addresses reached by the parent pointers depend on the parent
pointers only. -/
theorem ancestors_congr_parent {m m2 : Mem K V}
    (h : ∀ x, (m2 x).map TreapNode.parent = (m x).map TreapNode.parent) (fuel : Nat) :
    ∀ a, ancestors m2 fuel a = ancestors m fuel a := by
  induction fuel with
  | zero => intro a; rfl
  | succ fuel ih =>
    intro a
    have h2 := h a
    cases hma : m a with
    | none =>
      rw [hma] at h2
      simp only [Option.map_none', Option.map_eq_none'] at h2
      simp [ancestors, hma, h2]
    | some n =>
      rw [hma] at h2
      cases hm2 : m2 a with
      | none => rw [hm2] at h2; simp at h2
      | some n2 =>
        rw [hm2] at h2
        simp only [Option.map_some', Option.some.injEq] at h2
        simp only [ancestors, hma, hm2, h2]
        cases n.parent with
        | none => rfl
        | some p => simp only [ih p]

/-- The addresses reached by the parent pointers are those of the memory
before the cached augments were written. -/
theorem ancestors_congr {m m2 : Mem K V} {S : List Nat} (h : AugmentsOnly m m2 S) (fuel : Nat) :
    ∀ a, ancestors m2 fuel a = ancestors m fuel a := by
  refine ancestors_congr_parent (fun x => ?_) fuel
  have h2 := (h x).2
  cases hma : m x with
  | none =>
    rw [hma] at h2
    simp only at h2
    rw [h2]
  | some n =>
    rw [hma] at h2
    obtain ⟨g, hg⟩ := h2
    rw [hg]
    rfl

/-- `update_ancestors` assigns to the cached augments of the ancestors of its
node and to nothing else. -/
theorem update_ancestors_writes (aug : V → V → V) (fuel : Nat) :
    ∀ {m m2 : Mem K V} {a : Nat}, update_ancestors aug fuel m a = Except.ok m2 →
      AugmentsOnly m m2 (ancestors m fuel a) := by
  induction fuel with
  | zero => intro m m2 a h; simp [update_ancestors, throw, throwThe, MonadExceptOf.throw] at h
  | succ fuel ih =>
    intro m m2 a h
    cases hma : m a with
    | none => simp [update_ancestors, load_none hma, error_bind] at h
    | some n =>
      simp only [update_ancestors, load_ok hma, ok_bind] at h
      cases hp : n.parent with
      | none =>
        simp only [hp, pure_eq_ok, Except.ok.injEq] at h
        rw [← h]
        exact augmentsOnly_refl m _
      | some p =>
        simp only [hp] at h
        cases hu : update_node aug m p with
        | error e => simp [hu, error_bind] at h
        | ok m1 =>
          simp only [hu, ok_bind] at h
          have w1 := update_node_writes aug hu
          have w2 := ih h
          rw [ancestors_congr w1 fuel p] at w2
          have hanc : ancestors m (fuel + 1) a = p :: ancestors m fuel p := by
            simp [ancestors, hma, hp]
          rw [hanc]
          exact augmentsOnly_trans (augmentsOnly_mono w1 (by simp))
            (augmentsOnly_mono w2 (fun x hx => List.mem_cons_of_mem p hx))

end Frame

/-!
## `erase` after `set` of a new key
-/

section Undo

variable {K V : Type}

theorem mergeT_nil_left (aug : V → V → V) (fuel : Nat) (t : Tree K V) :
    mergeT aug (fuel + 1) Tree.nil t = t := by
  simp [mergeT]

theorem mergeT_nil_right (aug : V → V → V) (fuel : Nat) (t : Tree K V) :
    mergeT aug (fuel + 1) t Tree.nil = t := by
  cases t <;> simp [mergeT]

/-- Fuel beyond the number of nodes makes no difference to `merge`. -/
theorem mergeT_fuel (aug : V → V → V) (fuel : Nat) :
    ∀ (fuel2 : Nat) (t1 t2 : Tree K V), t1.count + t2.count < fuel →
      t1.count + t2.count < fuel2 → mergeT aug fuel t1 t2 = mergeT aug fuel2 t1 t2 := by
  induction fuel with
  | zero => intro fuel2 t1 t2 h; simp at h
  | succ fuel ih =>
    intro fuel2 t1 t2 h1 h2
    cases fuel2 with
    | zero => simp at h2
    | succ fuel2 =>
      cases t1 with
      | nil => simp [mergeT]
      | node a l1 kv1 g1 p1 r1 =>
        cases t2 with
        | nil => simp [mergeT]
        | node b l2 kv2 g2 p2 r2 =>
          simp only [Tree.count] at h1 h2
          simp only [mergeT]
          split
          · rw [ih fuel2 r1 (Tree.node b l2 kv2 g2 p2 r2) (by simp only [Tree.count]; omega)
              (by simp only [Tree.count]; omega)]
          · rw [ih fuel2 (Tree.node a l1 kv1 g1 p1 r1) l2 (by simp only [Tree.count]; omega)
              (by simp only [Tree.count]; omega)]

theorem sameButAugments_refl (t : Tree K V) : SameButAugments t t := by
  induction t with
  | nil => trivial
  | node a l kv g p r ihl ihr => exact ⟨rfl, rfl, rfl, ihl, ihr⟩

theorem sameButAugments_trans {t1 t2 t3 : Tree K V} (h1 : SameButAugments t1 t2)
    (h2 : SameButAugments t2 t3) : SameButAugments t1 t3 := by
  induction t1 generalizing t2 t3 with
  | nil =>
    cases t2 with
    | nil => exact h2
    | node _ _ _ _ _ _ => exact absurd h1 (by simp [SameButAugments])
  | node a l kv g p r ihl ihr =>
    cases t2 with
    | nil => exact absurd h1 (by simp [SameButAugments])
    | node a2 l2 kv2 g2 p2 r2 =>
      cases t3 with
      | nil => exact absurd h2 (by simp [SameButAugments])
      | node a3 l3 kv3 g3 p3 r3 =>
        obtain ⟨e1, e2, e3, e4, e5⟩ := h1
        obtain ⟨f1, f2, f3, f4, f5⟩ := h2
        exact ⟨e1.trans f1, e2.trans f2, e3.trans f3, ihl e4 f4, ihr e5 f5⟩

/-- Two coherent trees that differ at most in their cached augments are
equal. -/
theorem sameButAugments_eq (aug : V → V → V) {t1 t2 : Tree K V} (h : SameButAugments t1 t2)
    (h1 : Coherent aug t1) (h2 : Coherent aug t2) : t1 = t2 := by
  induction t1 generalizing t2 with
  | nil =>
    cases t2 with
    | nil => rfl
    | node _ _ _ _ _ _ => exact absurd h (by simp [SameButAugments])
  | node a l kv g p r ihl ihr =>
    cases t2 with
    | nil => exact absurd h (by simp [SameButAugments])
    | node a2 l2 kv2 g2 p2 r2 =>
      obtain ⟨e1, e2, e3, e4, e5⟩ := h
      obtain ⟨c1, c2, c3⟩ := h1
      obtain ⟨d1, d2, d3⟩ := h2
      have hl := ihl e4 c2 d2
      have hr := ihr e5 c3 d3
      subst e1; subst e2; subst e3; subst hl; subst hr
      rw [c1, d1]

theorem sameButAugments_plug (c : List (Frame K V)) :
    ∀ {t t2 : Tree K V}, SameButAugments t t2 → SameButAugments (plug c t) (plug c t2) := by
  induction c with
  | nil => intro t t2 h; exact h
  | cons f c ih =>
    intro t t2 h
    cases f with
    | L a kv g p r => exact ih ⟨rfl, rfl, rfl, h, sameButAugments_refl r⟩
    | R a l kv g p => exact ih ⟨rfl, rfl, rfl, sameButAugments_refl l, h⟩

theorem sameButAugments_refresh (aug : V → V → V) (c : List (Frame K V)) :
    ∀ (x : Tree K V) {t t2 : Tree K V}, SameButAugments t t2 →
      SameButAugments (plug (refresh aug c x) t) (plug c t2) := by
  induction c with
  | nil => intro x t t2 h; exact h
  | cons f c ih =>
    intro x t t2 h
    cases f with
    | L a kv g p r => exact ih _ ⟨rfl, rfl, rfl, h, sameButAugments_refl r⟩
    | R a l kv g p => exact ih _ ⟨rfl, rfl, rfl, sameButAugments_refl l, h⟩

theorem plug_prios_perm (c : List (Frame K V)) (t : Tree K V) :
    List.Perm (plug c t).prios (t.prios ++ ctxPrios c) := by
  induction c generalizing t with
  | nil => simp [plug, ctxPrios]
  | cons f c ih =>
    cases f with
    | L a kv g p r =>
      refine (ih _).trans ?_
      simp only [Frame.fill, Tree.prios, ctxPrios, Frame.prio, Frame.sibling,
        List.append_assoc, List.cons_append]
      exact List.Perm.refl _
    | R a l kv g p =>
      refine (ih _).trans ?_
      simp only [Frame.fill, Tree.prios, ctxPrios, Frame.prio, Frame.sibling,
        List.append_assoc, List.cons_append]
      exact (List.perm_middle).trans
        (((List.perm_append_comm_assoc _ _ _).cons p).trans (List.perm_middle).symm)

theorem refresh_ctxPrios (aug : V → V → V) (c : List (Frame K V)) (t : Tree K V) :
    ctxPrios (refresh aug c t) = ctxPrios c := by
  induction c generalizing t with
  | nil => rfl
  | cons f c ih => cases f <;> simp [refresh, ctxPrios, ih, Frame.prio, Frame.sibling]

theorem refresh_coherentCtx (aug : V → V → V) (c : List (Frame K V)) (t : Tree K V) :
    CoherentCtx aug (refresh aug c t) ↔ CoherentCtx aug c := by
  induction c generalizing t with
  | nil => simp [refresh]
  | cons f c ih => cases f <;> simp [refresh, CoherentCtx, ih, Frame.sibling]

theorem Tree.prio_mem_prios (a : Nat) (l : Tree K V) (kv : K × V) (g : V) (p : Nat)
    (r : Tree K V) : p ∈ (Tree.node a l kv g p r).prios := by
  simp [Tree.prios]

/-- `merge` undoes a right rotation: the left operand has no root above the
priority of the node that was rotated down. -/
theorem merge_undoes_rotate_right (aug : V → V → V) (fuel : Nat) (ln rn r : Tree K V)
    (pa : Nat) (kvp : K × V) (g1 g2 : V) (pp : Nat)
    (hle : ln.prioLe pp) (hf : ln.count + rn.count + 1 + r.count < fuel) :
    SameButAugments (mergeT aug fuel ln (Tree.node pa rn kvp g1 pp r))
      (Tree.node pa (mergeT aug fuel ln rn) kvp g2 pp r) := by
  cases fuel with
  | zero => simp at hf
  | succ fuel =>
    cases ln with
    | nil =>
      rw [mergeT_nil_left, mergeT_nil_left]
      exact ⟨rfl, rfl, rfl, sameButAugments_refl _, sameButAugments_refl _⟩
    | node a l1 kv1 g p1 r1 =>
      have hnot : ¬ p1 > pp := by simp only [Tree.prioLe] at hle; omega
      simp only [Tree.count] at hf
      have e : mergeT aug (fuel + 1) (Tree.node a l1 kv1 g p1 r1)
          (Tree.node pa rn kvp g1 pp r) =
          Tree.node pa (mergeT aug fuel (Tree.node a l1 kv1 g p1 r1) rn) kvp
            (nodeAug aug (mergeT aug fuel (Tree.node a l1 kv1 g p1 r1) rn) kvp.2 r) pp r := by
        simp only [mergeT, if_neg hnot]
      rw [e, mergeT_fuel aug fuel (fuel + 1) _ rn (by simp only [Tree.count]; omega)
        (by simp only [Tree.count]; omega)]
      exact ⟨rfl, rfl, rfl, sameButAugments_refl _, sameButAugments_refl _⟩

/-- `merge` undoes a left rotation, provided the right operand has its root
strictly below the priority of the node that was rotated down. -/
theorem merge_undoes_rotate_left (aug : V → V → V) (fuel : Nat) (ln rn l : Tree K V)
    (pa : Nat) (kvp : K × V) (g1 g2 : V) (pp : Nat)
    (hle : rn.prioLe pp) (hne : pp ∉ rn.prios)
    (hf : ln.count + rn.count + 1 + l.count < fuel) :
    SameButAugments (mergeT aug fuel (Tree.node pa l kvp g1 pp ln) rn)
      (Tree.node pa l kvp g2 pp (mergeT aug fuel ln rn)) := by
  cases fuel with
  | zero => simp at hf
  | succ fuel =>
    cases rn with
    | nil =>
      rw [mergeT_nil_right, mergeT_nil_right]
      exact ⟨rfl, rfl, rfl, sameButAugments_refl _, sameButAugments_refl _⟩
    | node b l2 kv2 g p2 r2 =>
      have hgt : pp > p2 := by
        simp only [Tree.prioLe] at hle
        have : pp ≠ p2 := fun e => hne (e ▸ Tree.prio_mem_prios b l2 kv2 g p2 r2)
        omega
      simp only [Tree.count] at hf
      have e : mergeT aug (fuel + 1) (Tree.node pa l kvp g1 pp ln)
          (Tree.node b l2 kv2 g p2 r2) =
          Tree.node pa l kvp
            (nodeAug aug l kvp.2 (mergeT aug fuel ln (Tree.node b l2 kv2 g p2 r2))) pp
            (mergeT aug fuel ln (Tree.node b l2 kv2 g p2 r2)) := by
        simp only [mergeT, if_pos hgt]
      rw [e, mergeT_fuel aug fuel (fuel + 1) ln _ (by simp only [Tree.count]; omega)
        (by simp only [Tree.count]; omega)]
      exact ⟨rfl, rfl, rfl, sameButAugments_refl _, sameButAugments_refl _⟩

/-- Where the rotation loop of `set` leaves its node, and what `merge` makes
of the two subtrees the node then has: the tree the rotations started from,
up to the cached augments.  The priorities of the nodes above the hole are
pairwise distinct and differ from those below the node. -/
theorem rotUp_split (aug : V → V → V) (c : List (Frame K V)) :
    ∀ (n : Nat) (ln : Tree K V) (kvn : K × V) (gn : V) (pn : Nat) (rn : Tree K V),
      HeapCtx c → holeLe c ln → holeLe c rn →
      (∀ q ∈ ln.prios ++ rn.prios, q ∉ ctxPrios c) → (ctxPrios c).Nodup →
      Coherent aug ln → Coherent aug rn → CoherentCtx aug c →
      ∃ c2 L R g2, rotUp aug c (Tree.node n ln kvn gn pn rn) =
          plug c2 (Tree.node n L kvn g2 pn R) ∧
        Coherent aug L ∧ Coherent aug R ∧ CoherentCtx aug c2 ∧
        ∀ fuel, ln.count + rn.count + (ctxAddrs c).length < fuel →
          SameButAugments (plug c2 (mergeT aug fuel L R)) (plug c (mergeT aug fuel ln rn)) := by
  induction c with
  | nil =>
    intro n ln kvn gn pn rn _ _ _ _ _ hcl hcr _
    exact ⟨[], ln, rn, gn, rfl, hcl, hcr, trivial, fun _ _ => sameButAugments_refl _⟩
  | cons f c ih =>
    intro n ln kvn gn pn rn hc hfl hfr hdis hnd hcl hcr hcc
    obtain ⟨hs, hso, hge, hc2⟩ := hc
    by_cases hlt : f.prio < pn
    · cases f with
      | L pa kvp gp pp r =>
        simp only [Frame.sibling, Frame.prio] at hs hso hge hlt
        simp only [holeLe_cons, Frame.prio] at hfl hfr
        simp only [ctxPrios, Frame.prio, Frame.sibling] at hdis hnd
        obtain ⟨hcr_sib, hcc2⟩ := hcc
        simp only [Frame.sibling] at hcr_sib
        have hnd2 := List.nodup_cons.1 hnd
        have hnd3 := List.nodup_append.1 hnd2.2
        obtain ⟨c2, L, R, g2, e, hL, hR, hC, hsame⟩ := ih n ln kvn gp pn
          (Tree.node pa rn kvp (nodeAug aug rn kvp.2 r) pp r) hc2
          (holeLe_of_ctxGe hge hfl) ((holeLe_node _ _ _ _ _ _ _).2 hge)
          (by
            intro q hq hq2
            simp only [Tree.prios, List.mem_append, List.mem_cons] at hq
            rcases hq with h | h | h | h
            · exact hdis q (by simp [h]) (by simp [hq2])
            · exact hdis q (by simp [h]) (by simp [hq2])
            · subst h
              exact hnd2.1 (by simp [hq2])
            · exact hnd3.2.2 h hq2)
          hnd3.2.1 hcl ⟨rfl, hcr, hcr_sib⟩ hcc2
        refine ⟨c2, L, R, g2, ?_, hL, hR, hC, fun fuel hf => ?_⟩
        · simp only [rotUp, if_pos hlt]
          exact e
        · simp only [ctxAddrs, Frame.addr, Frame.sibling, List.length_cons,
            List.length_append, ← Tree.count_eq_length] at hf
          refine sameButAugments_trans
            (hsame fuel (by simp only [Tree.count]; omega)) ?_
          simp only [plug, Frame.fill]
          exact sameButAugments_plug c
            (merge_undoes_rotate_right aug fuel ln rn r pa kvp _ gp pp hfl (by omega))
      | R pa l kvp gp pp =>
        simp only [Frame.sibling, Frame.prio] at hs hso hge hlt
        simp only [holeLe_cons, Frame.prio] at hfl hfr
        simp only [ctxPrios, Frame.prio, Frame.sibling] at hdis hnd
        obtain ⟨hcl_sib, hcc2⟩ := hcc
        simp only [Frame.sibling] at hcl_sib
        have hnd2 := List.nodup_cons.1 hnd
        have hnd3 := List.nodup_append.1 hnd2.2
        obtain ⟨c2, L, R, g2, e, hL, hR, hC, hsame⟩ := ih n
          (Tree.node pa l kvp (nodeAug aug l kvp.2 ln) pp ln) kvn gp pn rn hc2
          ((holeLe_node _ _ _ _ _ _ _).2 hge) (holeLe_of_ctxGe hge hfr)
          (by
            intro q hq hq2
            simp only [Tree.prios, List.mem_append, List.mem_cons] at hq
            rcases hq with (h | h | h) | h
            · exact hnd3.2.2 h hq2
            · subst h
              exact hnd2.1 (by simp [hq2])
            · exact hdis q (by simp [h]) (by simp [hq2])
            · exact hdis q (by simp [h]) (by simp [hq2]))
          hnd3.2.1 ⟨rfl, hcl_sib, hcl⟩ hcr hcc2
        refine ⟨c2, L, R, g2, ?_, hL, hR, hC, fun fuel hf => ?_⟩
        · simp only [rotUp, if_pos hlt]
          exact e
        · simp only [ctxAddrs, Frame.addr, Frame.sibling, List.length_cons,
            List.length_append, ← Tree.count_eq_length] at hf
          refine sameButAugments_trans
            (hsame fuel (by simp only [Tree.count]; omega)) ?_
          simp only [plug, Frame.fill]
          exact sameButAugments_plug c
            (merge_undoes_rotate_left aug fuel ln rn l pa kvp _ gp pp hfr
              (fun h => hdis pp (by simp [h]) (by simp)) (by omega))
    · refine ⟨f :: c, ln, rn, gn, ?_, hcl, hcr, hcc, fun _ _ => sameButAugments_refl _⟩
      cases f with
      | L pa kvp gp pp r => simp only [Frame.prio] at hlt; simp only [rotUp, if_neg hlt]
      | R pa l kvp gp pp => simp only [Frame.prio] at hlt; simp only [rotUp, if_neg hlt]

end Undo

section UndoOrder

variable {K V : Type} [LinearOrder K]

/-- The search for `k` in a tree with a hole on the path of `k` reaches the
hole. -/
theorem descend_plug (k : K) (c : List (Frame K V)) :
    ∀ t : Tree K V, CtxSplit k c → descend k [] (plug c t) = descend k c t := by
  induction c with
  | nil => intro t _; rfl
  | cons f c ih =>
    intro t hsplit
    obtain ⟨hB, hA⟩ := hsplit
    cases f with
    | L a kv g p r =>
      have hk : k < kv.1 := hA kv (by simp [ctxAfter])
      have hc : CtxSplit k c :=
        ⟨fun x hx => hB x (by simpa [ctxBefore] using hx),
          fun x hx => hA x (by simp [ctxAfter, hx])⟩
      rw [plug, ih _ hc]
      simp only [Frame.fill]
      rw [descend, if_pos hk]
    | R a l kv g p =>
      have hk : kv.1 < k := hB kv (by simp [ctxBefore])
      have hc : CtxSplit k c :=
        ⟨fun x hx => hB x (by simp [ctxBefore, hx]),
          fun x hx => hA x (by simpa [ctxAfter] using hx)⟩
      rw [plug, ih _ hc]
      simp only [Frame.fill]
      rw [descend, if_neg (not_lt_of_gt hk), if_pos hk]

/-- In a tree whose priorities are pairwise distinct and which satisfies the
three invariants, `erase(k)` after `set(k, v)` of a key that was not stored
gives back the tree, cached augments included. -/
theorem eraseT_setT (aug : V → V → V) (t : Tree K V) (hs : KeysIncreasing t.toList)
    (hh : HeapOrdered t) (hc : Coherent aug t) (hd : t.prios.Nodup)
    (k : K) (v : V) (prio a : Nat) (hk : ∀ kv ∈ t.toList, kv.1 ≠ k)
    (fuel : Nat) (hf : t.count < fuel) :
    eraseT aug fuel (setT aug t k v prio a) k = t := by
  have hsorted : KeysIncreasing (setT aug t k v prio a).toList := by
    rw [setT_toList aug t hs]; exact keysIncreasing_specSet k v _ hs
  have hspec := descend_spec k t hs
  rw [(specGet_eq_none k t.toList).2 hk] at hspec
  rcases hd0 : descend k [] t with ⟨c, t2⟩
  rw [hd0] at hspec
  cases t2 with
  | node _ _ _ _ _ _ => simp at hspec
  | nil =>
    have hpl : plug c Tree.nil = t := by
      have := plug_descend k [] t
      rw [hd0] at this
      exact this
    have hset : setT aug t k v prio a =
        rotUp aug (refresh aug c (Tree.node a Tree.nil (k, v) v prio Tree.nil))
          (Tree.node a Tree.nil (k, v) v prio Tree.nil) := by
      simp only [setT, hd0]
    rw [← hpl] at hh hc hd
    obtain ⟨-, -, hctx⟩ := (heapOrdered_plug c Tree.nil).1 hh
    obtain ⟨-, hcctx⟩ := coherent_of_plug aug c Tree.nil hc
    have hndc : (ctxPrios c).Nodup := by
      have := (plug_prios_perm c Tree.nil).nodup_iff.1 hd
      simpa [Tree.prios] using this
    have hcount : (ctxAddrs c).length = t.count := by
      rw [← hpl, plug_count]; simp [Tree.count]
    obtain ⟨c2, L, R, g2, e, hL, hR, hC, hsame⟩ :=
      rotUp_split aug (refresh aug c (Tree.node a Tree.nil (k, v) v prio Tree.nil)) a
        Tree.nil (k, v) v prio Tree.nil ((refresh_heapCtx aug c _).2 hctx)
        ((refresh_holeLe aug c _ _).2 (by cases c <;> trivial))
        ((refresh_holeLe aug c _ _).2 (by cases c <;> trivial))
        (by intro q hq; simp [Tree.prios] at hq)
        (by rw [refresh_ctxPrios]; exact hndc) trivial trivial
        ((refresh_coherentCtx aug c _).2 hcctx)
    rw [hset, e]
    rw [hset, e] at hsorted
    have hsplit : CtxSplit k c2 := by
      rw [plug_toList] at hsorted
      unfold KeysIncreasing at hsorted
      obtain ⟨h1, h2, h3⟩ := List.pairwise_append.1 hsorted
      obtain ⟨-, -, h4⟩ := List.pairwise_append.1 h1
      constructor
      · intro x hx
        exact h4 x hx (k, v) (by simp [Tree.toList])
      · intro x hx
        exact h3 (k, v) (by simp [Tree.toList]) x hx
    have hdes : descend k [] (plug c2 (Tree.node a L (k, v) g2 prio R)) =
        (c2, Tree.node a L (k, v) g2 prio R) := by
      rw [descend_plug k c2 _ hsplit, descend, if_neg (lt_irrefl k), if_neg (lt_irrefl k)]
    simp only [eraseT, hdes]
    have hfuel : (Tree.nil : Tree K V).count + (Tree.nil : Tree K V).count +
        (ctxAddrs (refresh aug c (Tree.node a Tree.nil (k, v) v prio Tree.nil))).length <
        fuel := by
      rw [refresh_addrs, hcount]; simp only [Tree.count]; omega
    have h1 := hsame fuel hfuel
    have hfpos : fuel = (fuel - 1) + 1 := by omega
    have hnil : mergeT aug fuel (Tree.nil : Tree K V) Tree.nil = Tree.nil := by
      rw [hfpos, mergeT_nil_left]
    rw [hnil] at h1
    have h2 : SameButAugments
        (plug (refresh aug c2 (mergeT aug fuel L R)) (mergeT aug fuel L R))
        (plug c Tree.nil) :=
      sameButAugments_trans
        (sameButAugments_refresh aug c2 _ (sameButAugments_refl _))
        (sameButAugments_trans h1
          (sameButAugments_refresh aug c _ (sameButAugments_refl _)))
    rw [← hpl]
    exact sameButAugments_eq aug h2
      (coherent_refresh aug c2 _ (coherent_mergeT aug fuel L R hL hR) hC) hc

end UndoOrder

section UndoFacts

/-- The cells of the nodes of a tree are the same in every memory that stores
the tree. -/
theorem rep_determines {K V : Type} {m m2 : Mem K V} {t : Tree K V} :
    ∀ {p : Ptr}, Rep m p t → Rep m2 p t → ∀ a ∈ t.addrs, m2 a = m a := by
  induction t with
  | nil => intro p _ _ a ha; simp [Tree.addrs] at ha
  | node b l kv g pr r ihl ihr =>
    intro p h1 h2 a ha
    simp only [Tree.addrs_node, List.mem_append, List.mem_cons] at ha
    rcases ha with h | h | h
    · exact ihl h1.2.1 h2.2.1 a h
    · rw [h, h1.1, h2.1]
    · exact ihr h1.2.2 h2.2.2 a h

theorem tie_good : Good tieMap tieTree := by
  refine ⟨⟨rfl, trivial, ⟨rfl, trivial, trivial⟩⟩, rfl, by decide, ?_, ?_, rfl⟩
  · intro a ha
    simp [tieTree, Tree.addrs] at ha
    rcases ha with h | h <;> subst h <;> decide
  · simp [tieTree, Tree.toList, KeysIncreasing]

end UndoFacts

/-!
## Combiners that are monoids on part of the item type

The functor `gcd` of the test program has a defined value, and is
associative, on the non-negative integers; it is neither on all of `int`.
The lemmas on coherence and on `query` are therefore proved once more for a
combiner that is a monoid on the items satisfying `P`, in a tree all of whose
items satisfy `P`.
-/

section On

variable {K V : Type}

theorem foldl_on (P : V → Prop) (aug : V → V → V) (id : V) (hm : MonoidOn P aug id)
    (vs : List V) : ∀ a, P a → (∀ v ∈ vs, P v) → P (vs.foldl aug a) := by
  induction vs with
  | nil => intro a ha _; exact ha
  | cons v vs ih =>
    intro a ha hv
    exact ih _ (hm.2.1 a v ha (hv v (by simp))) (fun x hx => hv x (by simp [hx]))

theorem foldAug_on (P : V → Prop) (aug : V → V → V) (id : V) (hm : MonoidOn P aug id)
    (vs : List V) (hv : ∀ v ∈ vs, P v) : P (foldAug aug id vs) :=
  foldl_on P aug id hm vs id hm.1 hv

theorem foldl_aug_shift_on (P : V → Prop) (aug : V → V → V) (id : V)
    (hm : MonoidOn P aug id) (vs : List V) :
    ∀ a, P a → (∀ v ∈ vs, P v) → vs.foldl aug a = aug a (vs.foldl aug id) := by
  obtain ⟨hid, hcl, hassoc, hidl, hidr⟩ := hm
  induction vs with
  | nil => intro a ha _; simp [hidr a ha]
  | cons v vs ih =>
    intro a ha hv
    have hpv : P v := hv v (by simp)
    have hvs : ∀ x ∈ vs, P x := fun x hx => hv x (by simp [hx])
    simp only [List.foldl_cons]
    rw [ih (aug a v) (hcl a v ha hpv) hvs, ih (aug id v) (hcl id v hid hpv) hvs, hidl v hpv,
      hassoc a v _ ha hpv (foldl_on P aug id ⟨hid, hcl, hassoc, hidl, hidr⟩ vs id hid hvs)]

theorem foldAug_cons_on (P : V → Prop) (aug : V → V → V) (id : V) (hm : MonoidOn P aug id)
    (v : V) (vs : List V) (hpv : P v) (hvs : ∀ x ∈ vs, P x) :
    foldAug aug id (v :: vs) = aug v (foldAug aug id vs) := by
  simp only [foldAug, List.foldl_cons]
  rw [foldl_aug_shift_on P aug id hm vs (aug id v) (hm.2.1 id v hm.1 hpv) hvs,
    hm.2.2.2.1 v hpv]

theorem foldAug_append_on (P : V → Prop) (aug : V → V → V) (id : V) (hm : MonoidOn P aug id)
    (xs ys : List V) (hxs : ∀ x ∈ xs, P x) (hys : ∀ x ∈ ys, P x) :
    foldAug aug id (xs ++ ys) = aug (foldAug aug id xs) (foldAug aug id ys) := by
  simp only [foldAug, List.foldl_append]
  exact foldl_aug_shift_on P aug id hm ys _ (foldl_on P aug id hm xs id hm.1 hxs) hys

/-- In a coherent tree whose items satisfy `P`, the cached augment of the root
is the combiner folded over all items in key order. -/
theorem total_spec_on (P : V → Prop) (aug : V → V → V) (id : V) (hm : MonoidOn P aug id)
    (t : Tree K V) (hc : Coherent aug t) (hp : ∀ kv ∈ t.toList, P kv.2) :
    t.total id = foldAug aug id (t.toList.map Prod.snd) := by
  induction t with
  | nil => rfl
  | node a l kv g p r ihl ihr =>
    obtain ⟨hg, hl, hr⟩ := hc
    have hpl : ∀ x ∈ l.toList, P x.2 := fun x hx => hp x (by simp [Tree.toList, hx])
    have hpr : ∀ x ∈ r.toList, P x.2 := fun x hx => hp x (by simp [Tree.toList, hx])
    have hpv : P kv.2 := hp kv (by simp [Tree.toList])
    have hml : ∀ x ∈ l.toList.map Prod.snd, P x := by
      intro x hx
      obtain ⟨y, hy, e⟩ := List.mem_map.1 hx
      exact e ▸ hpl y hy
    have hmr : ∀ x ∈ r.toList.map Prod.snd, P x := by
      intro x hx
      obtain ⟨y, hy, e⟩ := List.mem_map.1 hx
      exact e ▸ hpr y hy
    have hfl := foldAug_on P aug id hm _ hml
    have hfr := foldAug_on P aug id hm _ hmr
    have el := ihl hl hpl
    have er := ihr hr hpr
    simp only [Tree.total, Tree.toList, List.map_append, List.map_cons]
    rw [foldAug_append_on P aug id hm _ _ hml (by
        intro x hx
        rcases List.mem_cons.1 hx with h | h
        · exact h ▸ hpv
        · exact hmr x h),
      foldAug_cons_on P aug id hm _ _ hpv hmr, ← el, ← er, hg]
    obtain ⟨hid, hcl, hassoc, hidl, hidr⟩ := hm
    rw [← el] at hfl
    rw [← er] at hfr
    cases l with
    | nil =>
      cases r with
      | nil => simp only [nodeAug, Tree.total]; rw [hidr _ hpv, hidl _ hpv]
      | node _ _ _ gr _ _ =>
        simp only [nodeAug, Tree.total] at hfr ⊢
        rw [hidl _ (hcl _ _ hpv hfr)]
    | node _ _ _ gl _ _ =>
      cases r with
      | nil => simp only [nodeAug, Tree.total] at hfl ⊢; rw [hidr _ hpv]
      | node _ _ _ gr _ _ =>
        simp only [nodeAug, Tree.total] at hfl hfr ⊢
        exact hassoc _ _ _ hfl hpv hfr

theorem items_on_filter (P : V → Prop) (xs : List (K × V)) (q : K × V → Bool)
    (hp : ∀ kv ∈ xs, P kv.2) : ∀ x ∈ (xs.filter q).map Prod.snd, P x := by
  intro x hx
  obtain ⟨y, hy, e⟩ := List.mem_map.1 hx
  exact e ▸ hp y (List.mem_filter.1 hy).1

theorem items_on_map (P : V → Prop) (xs : List (K × V))
    (hp : ∀ kv ∈ xs, P kv.2) : ∀ x ∈ xs.map Prod.snd, P x := by
  intro x hx
  obtain ⟨y, hy, e⟩ := List.mem_map.1 hx
  exact e ▸ hp y hy

theorem total_on (P : V → Prop) (aug : V → V → V) (id : V) (hm : MonoidOn P aug id)
    (t : Tree K V) (hc : Coherent aug t) (hp : ∀ kv ∈ t.toList, P kv.2) : P (t.total id) := by
  rw [total_spec_on P aug id hm t hc hp]
  exact foldAug_on P aug id hm _ (items_on_map P _ hp)

/-- The rotation loop of `set` keeps the cached augments coherent when the
combiner is a monoid on the items of the tree. -/
theorem coherent_rotUp_on (P : V → Prop) (aug : V → V → V) (id : V) (hm : MonoidOn P aug id)
    (c : List (Frame K V)) (t : Tree K V) (h : Coherent aug (plug c t))
    (hp : ∀ kv ∈ (plug c t).toList, P kv.2) : Coherent aug (rotUp aug c t) := by
  induction c generalizing t with
  | nil => exact h
  | cons f c ih =>
    cases t with
    | nil => cases f <;> exact h
    | node n ln kvn gn pn rn =>
      have hp2 : ∀ kv ∈ (f.fill (Tree.node n ln kvn gn pn rn)).toList, P kv.2 := by
        intro kv hkv
        refine hp kv ?_
        rw [plug, plug_toList]
        simp [hkv]
      obtain ⟨hid, hcl, hassoc, hidl, hidr⟩ := hm
      cases f with
      | L pa kvp gp pp r =>
        simp only [rotUp]
        split
        · obtain ⟨hgp, ⟨hgn, hln, hrn⟩, hr⟩ := (coherent_of_plug aug c _ h).1
          simp only [Frame.fill, Tree.toList] at hp2
          have hPl := total_on P aug id ⟨hid, hcl, hassoc, hidl, hidr⟩ ln hln
            (fun x hx => hp2 x (by simp [hx]))
          have hPr := total_on P aug id ⟨hid, hcl, hassoc, hidl, hidr⟩ rn hrn
            (fun x hx => hp2 x (by simp [hx]))
          have hPs := total_on P aug id ⟨hid, hcl, hassoc, hidl, hidr⟩ r hr
            (fun x hx => hp2 x (by simp [hx]))
          have hPn : P kvn.2 := hp2 kvn (by simp)
          have hPp : P kvp.2 := hp2 kvp (by simp)
          have hco : Coherent aug (Tree.node n ln kvn gp pn
              (Tree.node pa rn kvp (nodeAug aug rn kvp.2 r) pp r)) := by
            refine ⟨?_, hln, rfl, hrn, hr⟩
            rw [hgp, hgn]
            cases ln <;> cases rn <;> cases r <;> simp only [Tree.total] at hPl hPr hPs <;>
              simp (disch := first | assumption | (apply hcl <;> first | assumption |
                (apply hcl <;> first | assumption | (apply hcl <;> assumption))))
                only [nodeAug, hassoc]
          refine ih _ (coherent_replace aug c
            (Tree.node pa (Tree.node n ln kvn gn pn rn) kvp gp pp r) _ rfl hco h) ?_
          intro kv hkv
          refine hp kv ?_
          rw [plug_toList] at hkv
          rw [plug, plug_toList]
          simp only [Frame.fill, Tree.toList, List.mem_append, List.mem_cons] at hkv ⊢
          tauto
        · exact h
      | R pa l kvp gp pp =>
        simp only [rotUp]
        split
        · obtain ⟨hgp, hl, hgn, hln, hrn⟩ := (coherent_of_plug aug c _ h).1
          simp only [Frame.fill, Tree.toList] at hp2
          have hPl := total_on P aug id ⟨hid, hcl, hassoc, hidl, hidr⟩ ln hln
            (fun x hx => hp2 x (by simp [hx]))
          have hPr := total_on P aug id ⟨hid, hcl, hassoc, hidl, hidr⟩ rn hrn
            (fun x hx => hp2 x (by simp [hx]))
          have hPs := total_on P aug id ⟨hid, hcl, hassoc, hidl, hidr⟩ l hl
            (fun x hx => hp2 x (by simp [hx]))
          have hPn : P kvn.2 := hp2 kvn (by simp)
          have hPp : P kvp.2 := hp2 kvp (by simp)
          have hco : Coherent aug (Tree.node n
              (Tree.node pa l kvp (nodeAug aug l kvp.2 ln) pp ln) kvn gp pn rn) := by
            refine ⟨?_, ⟨rfl, hl, hln⟩, hrn⟩
            rw [hgp, hgn]
            cases ln <;> cases rn <;> cases l <;> simp only [Tree.total] at hPl hPr hPs <;>
              simp (disch := first | assumption | (apply hcl <;> first | assumption |
                (apply hcl <;> first | assumption | (apply hcl <;> assumption))))
                only [nodeAug, hassoc]
          refine ih _ (coherent_replace aug c
            (Tree.node pa l kvp gp pp (Tree.node n ln kvn gn pn rn)) _ rfl hco h) ?_
          intro kv hkv
          refine hp kv ?_
          rw [plug_toList] at hkv
          rw [plug, plug_toList]
          simp only [Frame.fill, Tree.toList, List.mem_append, List.mem_cons] at hkv ⊢
          tauto
        · exact h

variable [LinearOrder K]

theorem nqlT_spec_on (P : V → Prop) (aug : V → V → V) (id : V) (hm : MonoidOn P aug id)
    (t : Tree K V) (hc : Coherent aug t) (hs : KeysIncreasing t.toList)
    (hp : ∀ kv ∈ t.toList, P kv.2) (lo : K) :
    nqlT aug id t lo =
      foldAug aug id ((t.toList.filter (fun kv => lo ≤ kv.1)).map Prod.snd) := by
  induction t with
  | nil => rfl
  | node a l kv g p r ihl ihr =>
    obtain ⟨hg, hl, hr⟩ := hc
    have hpl : ∀ x ∈ l.toList, P x.2 := fun x hx => hp x (by simp [Tree.toList, hx])
    have hpr : ∀ x ∈ r.toList, P x.2 := fun x hx => hp x (by simp [Tree.toList, hx])
    have hpv : P kv.2 := hp kv (by simp [Tree.toList])
    simp only [Tree.toList] at hs
    obtain ⟨hsl, hsr, hlt, hgt⟩ := keysIncreasing_node hs
    simp only [nqlT, Tree.toList, List.filter_append, List.filter_cons]
    by_cases hk : kv.1 < lo
    · rw [if_pos hk, ihr hr hsr hpr,
        filter_none _ l.toList (fun x hx => by simpa using lt_trans (hlt x hx) hk)]
      simp [not_le.2 hk]
    · have hle : lo ≤ kv.1 := not_lt.1 hk
      rw [if_neg hk, filter_all _ r.toList (fun x hx => by
        simpa using le_of_lt (lt_of_le_of_lt hle (hgt x hx)))]
      simp only [hle, decide_True, if_true, List.map_append, List.map_cons]
      have hA : P (nqlT aug id l lo) := by
        rw [ihl hl hsl hpl]
        exact foldAug_on P aug id hm _ (items_on_filter P _ _ hpl)
      have hR := total_on P aug id hm r hr hpr
      rw [foldAug_append_on P aug id hm _ _ (items_on_filter P _ _ hpl) (by
          intro x hx
          rcases List.mem_cons.1 hx with h | h
          · exact h ▸ hpv
          · exact items_on_map P _ hpr x h),
        foldAug_cons_on P aug id hm _ _ hpv (items_on_map P _ hpr),
        ← total_spec_on P aug id hm r hr hpr, ← ihl hl hsl hpl]
      obtain ⟨hid, hcl, hassoc, hidl, hidr⟩ := hm
      cases r with
      | nil => simp only [Tree.total]; rw [hidr _ hpv]
      | node b rl rkv rg rp rr =>
        simp only [Tree.total] at hR ⊢
        exact hassoc _ _ _ hA hpv hR

theorem nqrT_spec_on (P : V → Prop) (aug : V → V → V) (id : V) (hm : MonoidOn P aug id)
    (t : Tree K V) (hc : Coherent aug t) (hs : KeysIncreasing t.toList)
    (hp : ∀ kv ∈ t.toList, P kv.2) (hi : K) :
    nqrT aug id t hi =
      foldAug aug id ((t.toList.filter (fun kv => kv.1 ≤ hi)).map Prod.snd) := by
  induction t with
  | nil => rfl
  | node a l kv g p r ihl ihr =>
    obtain ⟨hg, hl, hr⟩ := hc
    have hpl : ∀ x ∈ l.toList, P x.2 := fun x hx => hp x (by simp [Tree.toList, hx])
    have hpr : ∀ x ∈ r.toList, P x.2 := fun x hx => hp x (by simp [Tree.toList, hx])
    have hpv : P kv.2 := hp kv (by simp [Tree.toList])
    simp only [Tree.toList] at hs
    obtain ⟨hsl, hsr, hlt, hgt⟩ := keysIncreasing_node hs
    simp only [nqrT, Tree.toList, List.filter_append, List.filter_cons]
    by_cases hk : hi < kv.1
    · rw [if_pos hk, ihl hl hsl hpl,
        filter_none _ r.toList (fun x hx => by simpa using lt_trans hk (hgt x hx))]
      simp [not_le.2 hk]
    · have hle : kv.1 ≤ hi := not_lt.1 hk
      rw [if_neg hk, filter_all _ l.toList (fun x hx => by
        simpa using le_of_lt (lt_of_lt_of_le (hlt x hx) hle))]
      simp only [hle, decide_True, if_true, List.map_append, List.map_cons]
      have hB : P (nqrT aug id r hi) := by
        rw [ihr hr hsr hpr]
        exact foldAug_on P aug id hm _ (items_on_filter P _ _ hpr)
      have hL := total_on P aug id hm l hl hpl
      rw [foldAug_append_on P aug id hm _ _ (items_on_map P _ hpl) (by
          intro x hx
          rcases List.mem_cons.1 hx with h | h
          · exact h ▸ hpv
          · exact items_on_filter P _ _ hpr x h),
        foldAug_cons_on P aug id hm _ _ hpv (items_on_filter P _ _ hpr),
        ← total_spec_on P aug id hm l hl hpl, ← ihr hr hsr hpr]
      obtain ⟨hid, hcl, hassoc, hidl, hidr⟩ := hm
      cases l with
      | nil => simp only [Tree.total]; rw [hidl _ (hcl _ _ hpv hB)]
      | node b rl rkv rg rp rr => rfl

/-- The value of `node_query` on a coherent search tree whose items satisfy
`P` is the combiner folded over the items whose key lies in the range. -/
theorem nqT_spec_on (P : V → Prop) (aug : V → V → V) (id : V) (hm : MonoidOn P aug id)
    (t : Tree K V) (hc : Coherent aug t) (hs : KeysIncreasing t.toList)
    (hp : ∀ kv ∈ t.toList, P kv.2) (lo hi : K) :
    nqT aug id t lo hi = foldAug aug id (rangeItems lo hi t.toList) := by
  induction t with
  | nil => rfl
  | node a l kv g p r ihl ihr =>
    obtain ⟨hg, hl, hr⟩ := hc
    have hpl : ∀ x ∈ l.toList, P x.2 := fun x hx => hp x (by simp [Tree.toList, hx])
    have hpr : ∀ x ∈ r.toList, P x.2 := fun x hx => hp x (by simp [Tree.toList, hx])
    have hpv : P kv.2 := hp kv (by simp [Tree.toList])
    simp only [Tree.toList] at hs
    obtain ⟨hsl, hsr, hlt, hgt⟩ := keysIncreasing_node hs
    simp only [nqT, rangeItems, Tree.toList, List.filter_append, List.filter_cons]
    by_cases hk : hi < kv.1
    · rw [if_pos hk, ihl hl hsl hpl,
        filter_none _ r.toList (fun x hx => by
          simp only [decide_eq_false_iff_not, not_and, not_le]
          exact fun _ => lt_trans hk (hgt x hx))]
      simp [rangeItems, not_le.2 hk]
    · rw [if_neg hk]
      have hle : kv.1 ≤ hi := not_lt.1 hk
      by_cases hk2 : kv.1 < lo
      · rw [if_pos hk2, ihr hr hsr hpr,
          filter_none _ l.toList (fun x hx => by
            simp only [decide_eq_false_iff_not, not_and, not_le]
            exact fun h => absurd (lt_of_le_of_lt h (lt_trans (hlt x hx) hk2)) (lt_irrefl _))]
        simp [rangeItems, not_le.2 hk2]
      · have hle2 : lo ≤ kv.1 := not_lt.1 hk2
        rw [if_neg hk2, nqlT_spec_on P aug id hm l hl hsl hpl,
          nqrT_spec_on P aug id hm r hr hsr hpr]
        have e1 : l.toList.filter (fun kv => decide (lo ≤ kv.1 ∧ kv.1 ≤ hi)) =
            l.toList.filter (fun kv => decide (lo ≤ kv.1)) := by
          refine List.filter_congr (fun x hx => ?_)
          have := le_of_lt (lt_of_lt_of_le (hlt x hx) hle)
          simp [this]
        have e2 : r.toList.filter (fun kv => decide (lo ≤ kv.1 ∧ kv.1 ≤ hi)) =
            r.toList.filter (fun kv => decide (kv.1 ≤ hi)) := by
          refine List.filter_congr (fun x hx => ?_)
          have := le_of_lt (lt_of_le_of_lt hle2 (hgt x hx))
          simp [this]
        rw [e1, e2]
        simp only [hle, hle2, and_self, decide_True, if_true, List.map_append, List.map_cons]
        rw [foldAug_append_on P aug id hm _ _ (items_on_filter P _ _ hpl) (by
            intro x hx
            rcases List.mem_cons.1 hx with h | h
            · exact h ▸ hpv
            · exact items_on_filter P _ _ hpr x h),
          foldAug_cons_on P aug id hm _ _ hpv (items_on_filter P _ _ hpr)]
        exact hm.2.2.1 _ _ _ (foldAug_on P aug id hm _ (items_on_filter P _ _ hpl)) hpv
          (foldAug_on P aug id hm _ (items_on_filter P _ _ hpr))

theorem coherent_setT_on (P : V → Prop) (aug : V → V → V) (id : V) (hm : MonoidOn P aug id)
    (t : Tree K V) (h : Coherent aug t) (hp : ∀ kv ∈ t.toList, P kv.2)
    (k : K) (v : V) (hv : P v) (prio a : Nat) : Coherent aug (setT aug t k v prio a) := by
  rcases hd : descend k [] t with ⟨c, t2⟩
  have hpl := plug_descend k [] t
  rw [hd] at hpl
  simp only [plug] at hpl
  rw [← hpl] at h hp
  obtain ⟨h1, h2⟩ := coherent_of_plug aug c t2 h
  cases t2 with
  | nil =>
    simp only [setT, hd]
    refine coherent_rotUp_on P aug id hm _ _
      (coherent_refresh aug c _ ⟨rfl, trivial, trivial⟩ h2) ?_
    intro kv hkv
    rw [plug_toList, refresh_before, refresh_after] at hkv
    rw [plug_toList] at hp
    simp only [Tree.toList, List.nil_append, List.append_nil, List.mem_append,
      List.mem_cons, List.mem_singleton, List.not_mem_nil, or_false] at hkv hp
    rcases hkv with (h | h) | h
    · exact hp kv (Or.inl h)
    · rw [h]; exact hv
    · exact hp kv (Or.inr h)
  | node b l kv g p r =>
    simp only [setT, hd]
    exact coherent_refresh aug c _ ⟨rfl, h1.2.1, h1.2.2⟩ h2

/-- A sequence of calls whose items satisfy `P`, on a container that holds a
coherent tree whose items satisfy `P`, runs to completion and leaves such a
tree, when the combiner is a monoid on the items that satisfy `P`. -/
theorem runFrom_good_on (P : V → Prop) (aug : V → V → V) (id : V) (hm : MonoidOn P aug id)
    (ops : List (Op K V)) :
    ∀ {s : Treemap K V} {t : Tree K V}, Good s t → Coherent aug t →
      (∀ kv ∈ t.toList, P kv.2) → (∀ v ∈ setItems ops, P v) →
      ∃ s2 t2, runFrom aug s ops = Except.ok s2 ∧ Good s2 t2 ∧ s2.id = s.id ∧
        t2.toList = ops.foldl specStep t.toList ∧ Coherent aug t2 ∧
        ∀ kv ∈ t2.toList, P kv.2 := by
  induction ops with
  | nil =>
    intro s t hg hc hp _
    exact ⟨s, t, rfl, hg, rfl, rfl, hc, hp⟩
  | cons op ops ih =>
    intro s t hg hc hp hv
    cases op with
    | set k v prio =>
      obtain ⟨s1, e1, hg1, hid1, hl1⟩ := set_good aug hg k v prio
      have hpv : P v := hv v (by simp [setItems])
      have hp1 : ∀ kv ∈ (setT aug t k v prio s.brk).toList, P kv.2 := by
        intro kv hkv
        rw [hl1] at hkv
        simp only [specSet, List.mem_append, List.mem_cons, List.mem_filter] at hkv
        rcases hkv with h | h | h
        · exact hp kv h.1
        · rw [h]; exact hpv
        · exact hp kv h.1
      obtain ⟨s2, t2, e2, hg2, hid2, hl2, hc2, hp2⟩ := ih hg1
        (coherent_setT_on P aug id hm t hc hp k v hpv prio s.brk) hp1
        (fun x hx => hv x (by simp [setItems, hx]))
      refine ⟨s2, t2, ?_, hg2, hid2.trans hid1, ?_, hc2, hp2⟩
      · simp only [runFrom, step, e1, ok_bind, e2]
      · rw [hl2, hl1]; rfl
    | erase k =>
      obtain ⟨s1, e1, hg1, hid1, hl1⟩ := erase_good aug hg k
      have hp1 : ∀ kv ∈ (eraseT aug (s.brk + 1) t k).toList, P kv.2 := by
        intro kv hkv
        rw [hl1] at hkv
        exact hp kv (List.mem_filter.1 hkv).1
      obtain ⟨s2, t2, e2, hg2, hid2, hl2, hc2, hp2⟩ := ih hg1
        (coherent_eraseT aug (s.brk + 1) t hc k) hp1
        (fun x hx => hv x (by simpa [setItems] using hx))
      refine ⟨s2, t2, ?_, hg2, hid2.trans hid1, ?_, hc2, hp2⟩
      · simp only [runFrom, step, e1, ok_bind, e2]
      · rw [hl2, hl1]; rfl

/-- On every map reached by calls whose items satisfy `P`, `query` returns the
combiner folded over the items of the stored keys in the range, in key order,
when the combiner is a monoid on the items that satisfy `P`. -/
theorem query_on (P : V → Prop) (aug : V → V → V) (id : V) (hm : MonoidOn P aug id)
    (ops : List (Op K V)) (hv : ∀ v ∈ setItems ops, P v) (lo hi : K) :
    ∃ s, run aug id ops = Except.ok s ∧
      query aug s lo hi = Except.ok (foldAug aug id (rangeItems lo hi (specRun ops))) ∧
      ∀ kv ∈ specRun ops, P kv.2 := by
  obtain ⟨s, t, e, hg, hid, hl, hc, hp⟩ :=
    runFrom_good_on P aug id hm ops (empty_good id) trivial
      (by intro kv hkv; simp [Tree.toList] at hkv) hv
  refine ⟨s, e, ?_, ?_⟩
  · have hid2 : s.id = id := hid
    have hl2 : t.toList = specRun ops := hl
    rw [query_ok aug hg, hid2, nqT_spec_on P aug id hm t hc hg.sorted hp, hl2]
  · intro kv hkv
    have hl2 : t.toList = specRun ops := hl
    exact hp kv (by rw [hl2]; exact hkv)

end On

/-!
## The functor `gcd` of the test program
-/

section Gcd

theorem int_rem_natCast (a b : Nat) (hb : b ≠ 0) :
    int_rem (a : Int) (b : Int) = Except.ok ((a % b : Nat) : Int) := by
  have hb2 : (b : Int) ≠ 0 := by exact_mod_cast hb
  have ha : (a : Int) ≠ INT_MIN := by
    have := Int.ofNat_nonneg a
    unfold INT_MIN
    omega
  rw [int_rem, if_neg (by simp [hb2, ha]), Int.tmod_eq_emod (Int.ofNat_nonneg a)
    (Int.ofNat_nonneg b), Int.natCast_mod]
  rfl

theorem gcd_loop_natCast (fuel : Nat) :
    ∀ a b : Nat, b < fuel →
      gcd_loop fuel (a : Int) (b : Int) = Except.ok ((Nat.gcd a b : Nat) : Int) := by
  induction fuel with
  | zero => intro a b h; simp at h
  | succ fuel ih =>
    intro a b h
    by_cases hb : b = 0
    · subst hb
      simp [gcd_loop, pure_eq_ok]
    · have hb2 : (b : Int) ≠ 0 := by exact_mod_cast hb
      have hlt : a % b < fuel := by
        have := Nat.mod_lt a (Nat.pos_of_ne_zero hb)
        omega
      rw [gcd_loop, if_neg hb2, int_rem_natCast a b hb, ok_bind, ih b (a % b) hlt]
      congr 2
      rw [Nat.gcd_comm a b, Nat.gcd_rec b a, Nat.gcd_comm]

/-- On non-negative integers the functor has a defined value, the greatest
common divisor. -/
theorem gcd_natCast (a b : Nat) :
    gcd (a : Int) (b : Int) = Except.ok ((Nat.gcd a b : Nat) : Int) := by
  unfold gcd
  exact gcd_loop_natCast _ a b (by simp)

/-- Zero is a right identity of the functor, on all integers. -/
theorem gcd_zero_right (x : Int) : gcd x 0 = Except.ok x := by
  simp [gcd, gcd_loop, pure_eq_ok]

/-- Zero is a left identity of the functor, on all integers. -/
theorem gcd_zero_left (x : Int) : gcd 0 x = Except.ok x := by
  unfold gcd
  by_cases hx : x = 0
  · subst hx
    simp [gcd_loop, pure_eq_ok]
  · have hpos : 0 < x.natAbs := Int.natAbs_pos.2 hx
    obtain ⟨n, hn⟩ : ∃ n, x.natAbs = n + 1 := ⟨x.natAbs - 1, by omega⟩
    have hrem : int_rem 0 x = Except.ok 0 := by
      rw [int_rem, if_neg (by simp [hx, INT_MIN]), Int.zero_tmod]
      rfl
    rw [hn, gcd_loop, if_neg hx, hrem, ok_bind, gcd_loop, if_pos rfl]
    rfl

theorem natAbs_tmod (a b : Int) : (Int.tmod a b).natAbs = a.natAbs % b.natAbs := by
  cases a <;> cases b <;> simp [Int.tmod, Int.natAbs_neg] <;> rfl

/-- The loop of the functor always leaves by its condition or by a remainder
without a defined value: the bound on the number of turns is never reached. -/
theorem gcd_loop_fuel (fuel : Nat) :
    ∀ a b : Int, b.natAbs < fuel → gcd_loop fuel a b ≠ Except.error Fault.outOfFuel := by
  induction fuel with
  | zero => intro a b h; simp at h
  | succ fuel ih =>
    intro a b h
    by_cases hb : b = 0
    · simp [gcd_loop, hb, pure_eq_ok]
    · rw [gcd_loop, if_neg hb]
      by_cases hu : b = 0 ∨ (a = INT_MIN ∧ b = -1)
      · rw [int_rem, if_pos hu]
        intro h2
        cases h2
      · rw [int_rem, if_neg hu]
        have hpos : 0 < b.natAbs := Int.natAbs_pos.2 hb
        have hlt := Nat.mod_lt a.natAbs hpos
        exact ih b (Int.tmod a b) (by rw [natAbs_tmod]; omega)

theorem gcd_fuel (x y : Int) : gcd x y ≠ Except.error Fault.outOfFuel :=
  gcd_loop_fuel _ x y (by omega)

/-- The functor has no defined value at `INT_MIN` and -1: the first turn of
the loop evaluates `INT_MIN % -1`. -/
theorem gcd_int_min : gcd INT_MIN (-1) = Except.error Fault.undefinedArithmetic := by rfl

/-- Nor has it at -1 and `INT_MIN`: the second turn of the loop evaluates
`INT_MIN % -1`. -/
theorem gcd_neg_one_int_min : gcd (-1) INT_MIN = Except.error Fault.undefinedArithmetic := by
  unfold gcd
  have h : INT_MIN.natAbs + 1 = 2147483647 + 1 + 1 := by decide
  rw [h, gcd_loop, if_neg (by decide)]
  have h1 : int_rem (-1) INT_MIN = Except.ok (-1) := by rfl
  rw [h1, ok_bind, gcd_loop, if_neg (by decide)]
  rfl

theorem gcd_aug_ok (x y : Int) : gcd_aug (Except.ok x) (Except.ok y) = gcd x y := rfl

/-- Zero is a left identity of the combiner, on all items. -/
theorem gcd_aug_zero_left (x : Exec Int) : gcd_aug (Except.ok 0) x = x := by
  cases x with
  | error e => rfl
  | ok v => rw [gcd_aug_ok, gcd_zero_left]

/-- Zero is a right identity of the combiner, on all items. -/
theorem gcd_aug_zero_right (x : Exec Int) : gcd_aug x (Except.ok 0) = x := by
  cases x with
  | error e => rfl
  | ok v => rw [gcd_aug_ok, gcd_zero_right]

theorem gcd_of_nonneg {x y : Int} (hx : 0 ≤ x) (hy : 0 ≤ y) :
    gcd x y = Except.ok ((Int.gcd x y : Nat) : Int) := by
  obtain ⟨a, rfl⟩ := Int.eq_ofNat_of_zero_le hx
  obtain ⟨b, rfl⟩ := Int.eq_ofNat_of_zero_le hy
  rw [gcd_natCast, Int.gcd_natCast_natCast]

/-- The combiner is a monoid with identity zero on the items that are
non-negative integers. -/
theorem monoidOn_gcd_aug :
    MonoidOn (fun x : Exec Int => ∃ v : Int, 0 ≤ v ∧ x = Except.ok v) gcd_aug (Except.ok 0) := by
  refine ⟨⟨0, le_refl 0, rfl⟩, ?_, ?_, fun x _ => gcd_aug_zero_left x,
    fun x _ => gcd_aug_zero_right x⟩
  · rintro x y ⟨a, ha, rfl⟩ ⟨b, hb, rfl⟩
    exact ⟨_, Int.ofNat_nonneg _, by rw [gcd_aug_ok, gcd_of_nonneg ha hb]⟩
  · rintro x y z ⟨a, ha, rfl⟩ ⟨b, hb, rfl⟩ ⟨c, hc, rfl⟩
    rw [gcd_aug_ok, gcd_aug_ok, gcd_of_nonneg ha hb, gcd_of_nonneg hb hc, gcd_aug_ok, gcd_aug_ok,
      gcd_of_nonneg (Int.ofNat_nonneg _) hc, gcd_of_nonneg ha (Int.ofNat_nonneg _),
      Int.gcd_assoc]

theorem isGcdOf_foldl (vs : List Int) :
    ∀ acc : Int, 0 ≤ acc → (∀ v ∈ vs, 0 ≤ v) →
      ∃ d, (vs.map Except.ok).foldl gcd_aug (Except.ok acc) = Except.ok d ∧
        0 ≤ d ∧ d ∣ acc ∧ (∀ v ∈ vs, d ∣ v) ∧
        ∀ e : Int, e ∣ acc → (∀ v ∈ vs, e ∣ v) → e ∣ d := by
  induction vs with
  | nil =>
    intro acc hacc _
    exact ⟨acc, rfl, hacc, dvd_refl _, fun v hv => by simp at hv, fun e he _ => he⟩
  | cons v vs ih =>
    intro acc hacc hv
    have hv0 : 0 ≤ v := hv v (by simp)
    have hg := gcd_of_nonneg hacc hv0
    obtain ⟨d, hd, h1, h2, h3, h4⟩ := ih ((Int.gcd acc v : Nat) : Int) (Int.ofNat_nonneg _)
      (fun x hx => hv x (by simp [hx]))
    refine ⟨d, ?_, h1, ?_, ?_, ?_⟩
    · simp only [List.map_cons, List.foldl_cons]
      rw [gcd_aug_ok, hg]
      exact hd
    · exact dvd_trans h2 Int.gcd_dvd_left
    · intro x hx
      rcases List.mem_cons.1 hx with h | h
      · rw [h]
        exact dvd_trans h2 Int.gcd_dvd_right
      · exact h3 x h
    · intro e he hev
      exact h4 e (Int.dvd_gcd he (hev v (by simp))) (fun x hx => hev x (by simp [hx]))

/-- The combiner folded from zero over non-negative integers is their
greatest common divisor. -/
theorem isGcdOf_foldAug (vs : List Int) (hv : ∀ v ∈ vs, 0 ≤ v) :
    ∃ d, foldAug gcd_aug (Except.ok 0) (vs.map Except.ok) = Except.ok d ∧ IsGcdOf d vs := by
  obtain ⟨d, hd, h1, -, h3, h4⟩ := isGcdOf_foldl vs 0 (le_refl 0) hv
  exact ⟨d, hd, h1, h3, fun e he => h4 e (dvd_zero e) he⟩

/-- With the identity left at zero, on every map reached from the empty map
by calls of `set` with non-negative items and of `erase`, `query` returns the
greatest common divisor of the items of the stored keys in the range. -/
theorem gcd_query_of_nonneg_items (ops : List (Op Int (Exec Int)))
    (hv : ∀ x ∈ setItems ops, ∃ v : Int, 0 ≤ v ∧ x = Except.ok v) (lo hi : Int) :
    ∃ s d, run gcd_aug (Except.ok 0) ops = Except.ok s ∧
      query gcd_aug s lo hi = Except.ok (Except.ok d) ∧
      ∀ vs : List Int, rangeItems lo hi (specRun ops) = vs.map Except.ok → IsGcdOf d vs := by
  obtain ⟨s, e, hq, hp⟩ := query_on _ gcd_aug (Except.ok 0) monoidOn_gcd_aug ops hv lo hi
  have hitems : ∀ x ∈ rangeItems lo hi (specRun ops), ∃ v : Int, 0 ≤ v ∧ x = Except.ok v := by
    intro x hx
    obtain ⟨y, hy, e2⟩ := List.mem_map.1 hx
    exact e2 ▸ hp y (List.mem_filter.1 hy).1
  have hex : ∃ vs : List Int, rangeItems lo hi (specRun ops) = vs.map Except.ok ∧
      ∀ v ∈ vs, 0 ≤ v := by
    generalize rangeItems lo hi (specRun ops) = xs at hitems
    induction xs with
    | nil => exact ⟨[], rfl, fun v hv => by simp at hv⟩
    | cons x xs ih =>
      obtain ⟨v, hv0, rfl⟩ := hitems x (by simp)
      obtain ⟨vs, hvs, hnn⟩ := ih (fun y hy => hitems y (by simp [hy]))
      refine ⟨v :: vs, by rw [hvs]; rfl, ?_⟩
      intro w hw
      rcases List.mem_cons.1 hw with h | h
      · rw [h]; exact hv0
      · exact hnn w h
  obtain ⟨vs, hvs, hnn⟩ := hex
  obtain ⟨d, hd, hg⟩ := isGcdOf_foldAug vs hnn
  refine ⟨s, d, e, ?_, ?_⟩
  · rw [hq, hvs, hd]
  · intro vs2 h2
    have : vs2 = vs := by
      rw [hvs] at h2
      exact (List.map_injective_iff.2 (fun a b h => by cases h; rfl) h2).symm
    rw [this]
    exact hg

theorem tie_heapOrdered : HeapOrdered tieTree := by
  simp [tieTree, HeapOrdered, Tree.prioLe]

end Gcd

/-!
## The contract of the container

Each theorem below speaks of a map reached from the empty map by a sequence
`ops` of calls of `set` and `erase`, with arbitrary priorities; the pairs
such a map stores are `specRun ops`.
-/

section Claims

variable {K V : Type} [LinearOrder K]

theorem specRun_squares (p : Nat → Nat) :
    specRun (squaresOps p) =
      [(0, 10), (1, 9), (4, 8), (9, 7), (16, 6), (25, 5), (36, 4), (49, 3), (64, 2), (81, 1),
        (100, 0)] := by
  simp [squaresOps, specRun, specStep, specSet, List.range, List.range.loop]

/-- C1: for an associative, commutative combiner with the constructor's
identity as identity, on every map reached from the empty map by calls of
`set` and `erase` with arbitrary priorities, `query(lo, hi)` returns the
combiner folded, in increasing key order, over the items of exactly the stored
keys `k` with `lo ≤ k ≤ hi`; it returns the identity when there is no such key.
The stored pairs are in strictly increasing key order. -/
theorem query_is_fold_of_range (aug : V → V → V) (id : V)
    (hassoc : ∀ x y z, aug (aug x y) z = aug x (aug y z))
    (hcomm : ∀ x y, aug x y = aug y x)
    (hidl : ∀ x, aug id x = x) (hidr : ∀ x, aug x id = x)
    (ops : List (Op K V)) (lo hi : K) :
    ∃ s, run aug id ops = Except.ok s ∧
      query aug s lo hi = Except.ok (foldAug aug id (rangeItems lo hi (specRun ops))) ∧
      KeysIncreasing (specRun ops) ∧
      ((∀ kv ∈ specRun ops, ¬ (lo ≤ kv.1 ∧ kv.1 ≤ hi)) → query aug s lo hi = Except.ok id) := by
  have _ := hcomm
  obtain ⟨s, t, e, hg, hid, hl, hc⟩ := run_good aug id ops
  have hq : query aug s lo hi =
      Except.ok (foldAug aug id (rangeItems lo hi (specRun ops))) := by
    rw [query_ok aug hg, hid, nqT_spec aug id hassoc hidl hidr t (hc hassoc) hg.sorted, hl]
  refine ⟨s, e, hq, specRun_increasing ops, fun h => ?_⟩
  rw [query_ok aug hg, hid, nqT_empty_range aug id t lo hi (by rw [hl]; exact h)]

/-- Witness of C1: integer addition, three insertions and one deletion; the
keys 0 and 1 lie in the range and their items 5 and 10 add up to 15. -/
theorem query_is_fold_of_range_witness :
    ∃ s, run (fun x y : Int => x + y) 0
        [Op.set (1 : Int) 10 5, Op.set 2 20 7, Op.set 0 5 6, Op.erase 2] = Except.ok s ∧
      query (fun x y : Int => x + y) s 0 1 = Except.ok 15 ∧
      specRun [Op.set (1 : Int) (10 : Int) 5, Op.set 2 20 7, Op.set 0 5 6, Op.erase 2] =
        [(0, 5), (1, 10)] := by
  obtain ⟨s, e, hq, -, -⟩ := query_is_fold_of_range (fun x y : Int => x + y) 0
    (fun x y z => Int.add_assoc x y z) (fun x y => Int.add_comm x y)
    (fun x => Int.zero_add x) (fun x => Int.add_zero x)
    [Op.set (1 : Int) 10 5, Op.set 2 20 7, Op.set 0 5 6, Op.erase 2] 0 1
  have hval : foldAug (fun x y : Int => x + y) 0 (rangeItems 0 1
      (specRun [Op.set (1 : Int) (10 : Int) 5, Op.set 2 20 7, Op.set 0 5 6, Op.erase 2])) =
      15 := by decide
  rw [hval] at hq
  exact ⟨s, e, hq, by decide⟩

/-- C2: on every map reached by calls of `set` and `erase`, whether or not
`k` is stored in it, `set(k, v)` followed by `get(k)` returns `v`. -/
theorem get_after_set (aug : V → V → V) (id : V) (ops : List (Op K V))
    (k : K) (v : V) (prio : Nat) :
    ∃ s s2, run aug id ops = Except.ok s ∧ set aug s k v prio = Except.ok s2 ∧
      get s2 k = Except.ok v := by
  obtain ⟨s, t, e, hg, -, -, -⟩ := run_good aug id ops
  obtain ⟨s2, e2, hg2, -, hl2⟩ := set_good aug hg k v prio
  refine ⟨s, s2, e, e2, ?_⟩
  rw [get_spec hg2, hl2, specGet_specSet_same]

/-- C3: on every map reached by calls of `set` and `erase` and for every
stored key `k`, with item `w`: after `erase(k)`, `find(k)` is `end()`, `get` of
every other key does what it did before, and for every range `[lo, hi]`
containing `k`, `query(lo, hi)` is the combiner folded over the items of the
remaining keys of the range, the pair of `k` being removed from the stored
pairs.  The combiner is associative with the constructor's identity. -/
theorem erase_removes_key (aug : V → V → V) (id : V)
    (hassoc : ∀ x y z, aug (aug x y) z = aug x (aug y z))
    (hidl : ∀ x, aug id x = x) (hidr : ∀ x, aug x id = x)
    (ops : List (Op K V)) (k : K) (w : V) (hk : (k, w) ∈ specRun ops) :
    ∃ s s2, run aug id ops = Except.ok s ∧ get s k = Except.ok w ∧
      erase aug s k = Except.ok s2 ∧
      find s2 k = Except.ok (end_ s2) ∧
      (∀ k2, k2 ≠ k → get s2 k2 = get s k2) ∧
      (∀ lo hi, lo ≤ k → k ≤ hi →
        query aug s2 lo hi =
          Except.ok (foldAug aug id (rangeItems lo hi (specErase k (specRun ops))))) ∧
      (k, w) ∉ specErase k (specRun ops) := by
  obtain ⟨s, t, e, hg, hid, hl, hc⟩ := run_good aug id ops
  obtain ⟨s2, e2, hg2, hid2, hl2⟩ := erase_good aug hg k
  have hget : get s k = Except.ok w := by
    rw [get_spec hg, hl]
    obtain ⟨B, A, hBA⟩ := List.append_of_mem hk
    have hinc := specRun_increasing ops
    rw [hBA] at hinc
    rw [hBA, specGet_at k w B A (keysIncreasing_node hinc).2.2.1]
  refine ⟨s, s2, e, hget, e2, ?_, ?_, ?_, ?_⟩
  · rcases find_spec hg2 k with ⟨-, h⟩ | ⟨a, n, -, -, -, h⟩
    · exact h
    · rw [hl2, specGet_specErase_same] at h
      exact absurd h (by simp)
  · intro k2 hk2
    rw [get_spec hg2, get_spec hg, hl2, specGet_specErase_other k k2 _ hk2]
  · intro lo hi _ _
    rw [query_ok aug hg2, hid2, hid,
      nqT_spec aug id hassoc hidl hidr _ (coherent_eraseT aug _ t (hc hassoc) k) hg2.sorted,
      hl2, hl]
  · intro h
    have := (List.mem_filter.1 h).2
    simp at this

/-- Witness of C3: the key 1, stored with item 10, is erased. -/
theorem erase_removes_key_witness :
    (((1 : Int), (10 : Int)) ∈ specRun [Op.set (1 : Int) (10 : Int) 5, Op.set 2 20 7]) ∧
    ∃ s s2, run (fun x y : Int => x + y) 0 [Op.set (1 : Int) (10 : Int) 5, Op.set 2 20 7] =
        Except.ok s ∧ get s 1 = Except.ok 10 ∧
      erase (fun x y : Int => x + y) s 1 = Except.ok s2 ∧
      find s2 1 = Except.ok (end_ s2) ∧
      (∀ k2, k2 ≠ 1 → get s2 k2 = get s k2) ∧
      (∀ lo hi, lo ≤ 1 → 1 ≤ hi →
        query (fun x y : Int => x + y) s2 lo hi =
          Except.ok (foldAug (fun x y : Int => x + y) 0 (rangeItems lo hi
            (specErase 1 (specRun [Op.set (1 : Int) (10 : Int) 5, Op.set 2 20 7]))))) ∧
      ((1 : Int), (10 : Int)) ∉
        specErase 1 (specRun [Op.set (1 : Int) (10 : Int) 5, Op.set 2 20 7]) :=
  ⟨by decide,
    erase_removes_key (fun x y : Int => x + y) 0 (fun x y z => Int.add_assoc x y z)
      (fun x => Int.zero_add x) (fun x => Int.add_zero x)
      [Op.set (1 : Int) (10 : Int) 5, Op.set 2 20 7] 1 10 (by decide)⟩

/-- C4: on every map reached by calls of `set` and `erase`, stepping an
iterator from `begin()` with `operator++` until it equals `end()` visits the
stored pairs, each once, in strictly increasing key order; after
`set(i*i, 10-i)` for `i` from 10 down to 0, whatever the priorities, the items
visited are 10, 9, ..., 0. -/
theorem iteration_in_key_order (aug : V → V → V) (id : V) (ops : List (Op K V)) :
    (∃ s, run aug id ops = Except.ok s ∧ traverse s = Except.ok (specRun ops) ∧
      KeysIncreasing (specRun ops)) ∧
    ∀ p : Nat → Nat, ∃ s, run (fun x y : Int => x + y) 0 (squaresOps p) = Except.ok s ∧
      Except.map (List.map Prod.snd) (traverse s) =
        Except.ok [10, 9, 8, 7, 6, 5, 4, 3, 2, 1, 0] := by
  constructor
  · obtain ⟨s, t, e, hg, -, hl, -⟩ := run_good aug id ops
    exact ⟨s, e, by rw [traverse_ok hg, hl], specRun_increasing ops⟩
  · intro p
    obtain ⟨s, t, e, hg, -, hl, -⟩ := run_good (fun x y : Int => x + y) 0 (squaresOps p)
    refine ⟨s, e, ?_⟩
    rw [traverse_ok hg, hl, specRun_squares]
    rfl

theorem mem_keys_iff (k : K) (xs : List (K × V)) :
    k ∈ xs.map Prod.fst ↔ specGet k xs ≠ none := by
  rw [Ne, specGet_eq_none]
  simp

theorem specErase_length (k : K) (xs : List (K × V)) (h : KeysIncreasing xs) :
    (k ∈ xs.map Prod.fst → (specErase k xs).length + 1 = xs.length) ∧
    (k ∉ xs.map Prod.fst → (specErase k xs).length = xs.length) := by
  constructor
  · intro hk
    obtain ⟨kv, hkv, rfl⟩ := List.mem_map.1 hk
    obtain ⟨B, A, rfl⟩ := List.append_of_mem hkv
    obtain ⟨-, -, hB, hA⟩ := keysIncreasing_node h
    have : kv = (kv.1, kv.2) := rfl
    rw [this, specErase_at kv.1 kv.2 B A hB hA]
    simp only [List.length_append, List.length_cons]
    omega
  · intro hk
    unfold specErase
    rw [filter_all]
    intro x hx
    simp only [ne_eq, decide_eq_true_eq]
    intro e
    exact hk (List.mem_map.2 ⟨x, hx, e⟩)

/-- C5: after any sequence of calls of `set` and `erase` on the empty map,
`size()` is the number of stored keys, which is the number of nodes the
iteration visits; `set` of a stored key leaves `size()` unchanged, `set` of a new key increases it by exactly one, and `erase`
decreases it by exactly one when the key was stored and leaves it unchanged
otherwise. -/
theorem size_counts_stored_keys (aug : V → V → V) (id : V) (ops : List (Op K V)) :
    ∃ s, run aug id ops = Except.ok s ∧ size s = (specRun ops).length ∧
      (∃ visited, traverse s = Except.ok visited ∧ size s = visited.length) ∧
      (∀ k v prio, ∃ s2, set aug s k v prio = Except.ok s2 ∧
        (k ∈ (specRun ops).map Prod.fst → size s2 = size s) ∧
        (k ∉ (specRun ops).map Prod.fst → size s2 = size s + 1)) ∧
      (∀ k, ∃ s2, erase aug s k = Except.ok s2 ∧
        (k ∈ (specRun ops).map Prod.fst → size s2 + 1 = size s) ∧
        (k ∉ (specRun ops).map Prod.fst → size s2 = size s)) := by
  obtain ⟨s, t, e, hg, -, hl, -⟩ := run_good aug id ops
  have hsz : size s = (specRun ops).length := by
    rw [← hl, Tree.toList_length]; exact hg.size
  refine ⟨s, e, hsz, ⟨_, traverse_ok hg, by rw [hl]; exact hsz⟩, ?_, ?_⟩
  · intro k v prio
    obtain ⟨s2, e2, hg2, -, -⟩ := set_good aug hg k v prio
    have h2 : size s2 = (setT aug t k v prio s.brk).count := hg2.size
    have h1 : size s = t.count := hg.size
    rw [setT_count aug t hg.sorted, hl] at h2
    refine ⟨s2, e2, fun hk => ?_, fun hk => ?_⟩
    · have := (mem_keys_iff k _).1 hk
      rw [h2, h1, if_pos (Option.isSome_iff_ne_none.2 this)]
    · have : specGet k (specRun ops) = none := by
        by_contra h
        exact hk ((mem_keys_iff k _).2 h)
      rw [h2, h1, this]
      rfl
  · intro k
    obtain ⟨s2, e2, hg2, -, hl2⟩ := erase_good aug hg k
    have h2 : size s2 = (specErase k (specRun ops)).length := by
      rw [← hl, ← hl2, Tree.toList_length]; exact hg2.size
    obtain ⟨ha, hb⟩ := specErase_length k (specRun ops) (specRun_increasing ops)
    exact ⟨s2, e2, fun hk => by rw [h2, hsz, ha hk], fun hk => by rw [h2, hsz, hb hk]⟩

/-- C6: on every map reached by calls of `set` and `erase`, after `set(k, v)`
the nodes the iteration visits hold the previous keys and `k`, no key twice,
`size()` is their number, `get` of every key other than `k` does what it did
before, and no node is allocated when `k` was already stored (one node
otherwise). -/
theorem set_adds_one_key (aug : V → V → V) (id : V) (ops : List (Op K V))
    (k : K) (v : V) (prio : Nat) :
    ∃ s s2 visited, run aug id ops = Except.ok s ∧ set aug s k v prio = Except.ok s2 ∧
      traverse s2 = Except.ok visited ∧
      (∀ k2, k2 ∈ visited.map Prod.fst ↔ k2 = k ∨ k2 ∈ (specRun ops).map Prod.fst) ∧
      (visited.map Prod.fst).Nodup ∧ size s2 = visited.length ∧
      (∀ k2, k2 ≠ k → get s2 k2 = get s k2) ∧
      (k ∈ (specRun ops).map Prod.fst → s2.brk = s.brk) ∧
      (k ∉ (specRun ops).map Prod.fst → s2.brk = s.brk + 1) := by
  obtain ⟨s, t, e, hg, -, hl, -⟩ := run_good aug id ops
  obtain ⟨s2, e2, hg2, -, hl2⟩ := set_good aug hg k v prio
  have hbrk := set_brk aug hg k v prio e2
  rw [hl] at hbrk
  refine ⟨s, s2, _, e, e2, traverse_ok hg2, ?_, ?_, ?_, ?_, ?_, ?_⟩
  · intro k2
    rw [mem_keys_iff, mem_keys_iff, hl2, ← hl]
    by_cases h : k2 = k
    · subst h
      simp [specGet_specSet_same]
    · rw [specGet_specSet_other k k2 v _ h]
      simp [h]
  · have := hg2.sorted
    unfold KeysIncreasing at this
    rw [List.Nodup, List.pairwise_map]
    exact this.imp (fun h => ne_of_lt h)
  · rw [Tree.toList_length]; exact hg2.size
  · intro k2 hk2
    rw [get_spec hg2, get_spec hg, hl2, specGet_specSet_other k k2 v _ hk2]
  · intro hk
    rw [hbrk, if_pos (Option.isSome_iff_ne_none.2 ((mem_keys_iff k _).1 hk))]
  · intro hk
    have : specGet k (specRun ops) = none := by
      by_contra h
      exact hk ((mem_keys_iff k _).2 h)
    rw [hbrk, this]
    rfl

/-- C7: on every map reached by calls of `set` and `erase`, `erase(k)` of a
key that is not stored returns the container unchanged: the memory, with the
shape, keys, items, priorities and cached augments of all nodes, the root
pointer and the size counter are those before the call. -/
theorem erase_absent_is_noop (aug : V → V → V) (id : V) (ops : List (Op K V)) (k : K)
    (hk : k ∉ (specRun ops).map Prod.fst) :
    ∃ s, run aug id ops = Except.ok s ∧ erase aug s k = Except.ok s := by
  obtain ⟨s, t, e, hg, -, hl, -⟩ := run_good aug id ops
  refine ⟨s, e, erase_absent_ok aug hg k ?_⟩
  rw [hl]
  by_contra h
  exact hk ((mem_keys_iff k _).2 h)

/-- Witness of C7: the key 3 is not stored in the map holding 1 and 2. -/
theorem erase_absent_is_noop_witness :
    ((3 : Int) ∉ (specRun [Op.set (1 : Int) (10 : Int) 5, Op.set 2 20 7]).map Prod.fst) ∧
    ∃ s, run (fun x y : Int => x + y) 0 [Op.set (1 : Int) (10 : Int) 5, Op.set 2 20 7] =
        Except.ok s ∧ erase (fun x y : Int => x + y) s 3 = Except.ok s :=
  ⟨by decide,
    erase_absent_is_noop (fun x y : Int => x + y) 0
      [Op.set (1 : Int) (10 : Int) 5, Op.set 2 20 7] 3 (by decide)⟩

/-- C8: on every map reached by calls of `set` and `erase`, whatever the
combiner, `query(lo, hi)` returns exactly the identity given at construction
when no stored key lies in `[lo, hi]`; so it does whenever `hi < lo`, and on
the empty map. -/
theorem query_of_empty_range (aug : V → V → V) (id : V) (ops : List (Op K V)) (lo hi : K)
    (h : ∀ kv ∈ specRun ops, ¬ (lo ≤ kv.1 ∧ kv.1 ≤ hi)) :
    (∃ s, run aug id ops = Except.ok s ∧ query aug s lo hi = Except.ok id) ∧
    (∀ lo2 hi2 : K, hi2 < lo2 →
      ∃ s, run aug id ops = Except.ok s ∧ query aug s lo2 hi2 = Except.ok id) ∧
    (∀ lo2 hi2 : K, query aug (empty id) lo2 hi2 = Except.ok id) := by
  obtain ⟨s, t, e, hg, hid, hl, -⟩ := run_good aug id ops
  refine ⟨⟨s, e, ?_⟩, fun lo2 hi2 hlt => ⟨s, e, ?_⟩, fun lo2 hi2 => rfl⟩
  · rw [query_ok aug hg, hid, nqT_empty_range aug id t lo hi (by rw [hl]; exact h)]
  · rw [query_ok aug hg, hid, nqT_empty_range aug id t lo2 hi2
      (fun kv _ hr => absurd (lt_of_le_of_lt (le_trans hr.1 hr.2) hlt) (lt_irrefl _))]

/-- Witness of C8: the range `[3, 9]` holds no key of the map holding 1
and 2. -/
theorem query_of_empty_range_witness :
    (∀ kv ∈ specRun [Op.set (1 : Int) (10 : Int) 5, Op.set 2 20 7],
      ¬ ((3 : Int) ≤ kv.1 ∧ kv.1 ≤ 9)) ∧
    ((∃ s, run (fun x y : Int => x + y) 0 [Op.set (1 : Int) (10 : Int) 5, Op.set 2 20 7] =
        Except.ok s ∧ query (fun x y : Int => x + y) s 3 9 = Except.ok 0) ∧
    (∀ lo2 hi2 : Int, hi2 < lo2 →
      ∃ s, run (fun x y : Int => x + y) 0 [Op.set (1 : Int) (10 : Int) 5, Op.set 2 20 7] =
        Except.ok s ∧ query (fun x y : Int => x + y) s lo2 hi2 = Except.ok 0) ∧
    (∀ lo2 hi2 : Int, query (fun x y : Int => x + y) (empty 0) lo2 hi2 = Except.ok 0)) :=
  ⟨by decide,
    query_of_empty_range (fun x y : Int => x + y) 0
      [Op.set (1 : Int) (10 : Int) 5, Op.set 2 20 7] 3 9 (by decide)⟩

/-- C9: what the code does on a key that is not stored.  On every map reached
by calls of `set` and `erase`, `get(k)` returns the item of `k` when `k` is
stored, and otherwise reaches the end of the function without a `return`
statement; no error is signalled.  So it is on the empty map. -/
theorem get_absent_has_no_return (aug : V → V → V) (id : V) (ops : List (Op K V)) (k : K) :
    (∃ s, run aug id ops = Except.ok s ∧
      get s k = (match specGet k (specRun ops) with
        | some v => Except.ok v
        | none => Except.error Fault.missingReturn)) ∧
    get (empty (0 : Int) : Treemap Int Int) 0 = Except.error Fault.missingReturn := by
  obtain ⟨s, t, e, hg, -, hl, -⟩ := run_good aug id ops
  have h := get_spec hg k
  rw [hl] at h
  exact ⟨⟨s, e, h⟩, rfl⟩

/-- C10: on every map reached by calls of `set` and `erase`, `lower_bound(x)`
returns an iterator to the stored pair with the least key not below `x`, or
`end()` if every stored key is below `x`; on the map holding the squares
0, 1, 4, ..., 100, `lower_bound(4)` is at key 4 and `lower_bound(5)` at
key 9. -/
theorem lower_bound_is_least_key_not_below (aug : V → V → V) (id : V) (ops : List (Op K V))
    (x : K) :
    (∃ s, run aug id ops = Except.ok s ∧
      ((lower_bound s x = Except.ok (end_ s) ∧ ∀ kv ∈ specRun ops, kv.1 < x) ∨
       ∃ a kv, lower_bound s x = Except.ok (some a) ∧ iterator_deref s a = Except.ok kv ∧
         kv ∈ specRun ops ∧ x ≤ kv.1 ∧ ∀ kv2 ∈ specRun ops, x ≤ kv2.1 → kv.1 ≤ kv2.1)) ∧
    ∀ p : Nat → Nat, ∃ s a b va vb,
      run (fun x y : Int => x + y) 0 (squaresOps p) = Except.ok s ∧
      lower_bound s 4 = Except.ok (some a) ∧ iterator_deref s a = Except.ok (4, va) ∧
      lower_bound s 5 = Except.ok (some b) ∧ iterator_deref s b = Except.ok (9, vb) := by
  have gen : ∀ {K2 V2 : Type} [LinearOrder K2] (aug2 : V2 → V2 → V2) (id2 : V2)
      (ops2 : List (Op K2 V2)) (x2 : K2), ∃ s, run aug2 id2 ops2 = Except.ok s ∧
      ((lower_bound s x2 = Except.ok (end_ s) ∧ ∀ kv ∈ specRun ops2, kv.1 < x2) ∨
       ∃ a kv, lower_bound s x2 = Except.ok (some a) ∧ iterator_deref s a = Except.ok kv ∧
         kv ∈ specRun ops2 ∧ x2 ≤ kv.1 ∧ ∀ kv2 ∈ specRun ops2, x2 ≤ kv2.1 → kv.1 ≤ kv2.1) := by
    intro K2 V2 _ aug2 id2 ops2 x2
    obtain ⟨s, t, e, hg, -, hl, -⟩ := run_good aug2 id2 ops2
    refine ⟨s, e, ?_⟩
    rcases lower_bound_ok hg x2 with ⟨h1, h2⟩ | ⟨a, n, h1, h2, h3, h4, h5⟩
    · exact Or.inl ⟨h1, by rw [← hl]; exact h2⟩
    · refine Or.inr ⟨a, n.value, h1, ?_, by rw [← hl]; exact h3, h4, by rw [← hl]; exact h5⟩
      simp only [iterator_deref, load_ok h2, ok_bind, pure_eq_ok]
  refine ⟨gen aug id ops x, fun p => ?_⟩
  obtain ⟨s, e, h4⟩ := gen (fun x y : Int => x + y) 0 (squaresOps p) 4
  obtain ⟨s5, e5, h5⟩ := gen (fun x y : Int => x + y) 0 (squaresOps p) 5
  rw [e] at e5
  simp only [Except.ok.injEq] at e5
  subst e5
  rw [specRun_squares] at h4 h5
  rcases h4 with ⟨-, h⟩ | ⟨a, kva, ha1, ha2, ha3, ha4, ha5⟩
  · exact absurd (h (4, 8) (by simp)) (by decide)
  rcases h5 with ⟨-, h⟩ | ⟨b, kvb, hb1, hb2, hb3, hb4, hb5⟩
  · exact absurd (h (9, 7) (by simp)) (by decide)
  have hka : kva.1 = 4 := le_antisymm (ha5 (4, 8) (by simp) (le_refl _)) ha4
  have hkb : kvb.1 = 9 := by
    have hle := hb5 (9, 7) (by simp) (by decide)
    simp only [List.mem_cons, List.mem_singleton, List.not_mem_nil, or_false] at hb3
    rcases hb3 with h | h | h | h | h | h | h | h | h | h | h <;> subst h <;>
      first
        | rfl
        | exact absurd hb4 (by decide)
        | exact absurd hle (by decide)
  refine ⟨s, a, b, kva.2, kvb.2, e, ha1, ?_, hb1, ?_⟩
  · rw [ha2, ← hka]
  · rw [hb2, ← hkb]

end Claims

/-!
## The invariants, the frame properties and the limits of the contract

The theorems on invariants speak of a container `s` that holds a tree `t`
(`Good s t`, or one of its parts), whether or not it was reached from the empty
map; every map reached from the empty map is such a container.
-/

section Claims2

variable {K V : Type} [LinearOrder K]

/-- C11: with the combiner `min` and the identity left at zero, there are a
map holding only strictly positive items and a range holding a stored key for
which `query` returns 0, which is not the minimum of the items in the range:
the map built by `set(1, 5)` answers `query(1, 1)` with 0, the only item in
the range being 5. -/
theorem min_query_returns_default_identity :
    ∃ (ops : List (Op Int Int)) (lo hi : Int),
      (∀ kv ∈ specRun ops, 0 < kv.2) ∧
      (∃ kv ∈ specRun ops, lo ≤ kv.1 ∧ kv.1 ≤ hi) ∧
      ∃ s, run (fun x y : Int => min x y) 0 ops = Except.ok s ∧
        query (fun x y : Int => min x y) s lo hi = Except.ok 0 ∧
        rangeItems lo hi (specRun ops) = [5] ∧
        ∀ v ∈ rangeItems lo hi (specRun ops), (0 : Int) < v := by
  refine ⟨[Op.set 1 5 7], 1, 1, by decide, by decide, ?_⟩
  obtain ⟨s, t, e, hg, hid, hl, -⟩ := run_good (fun x y : Int => min x y) 0 [Op.set (1 : Int) 5 7]
  have hl2 : t.toList = [((1 : Int), (5 : Int))] := by rw [hl]; decide
  obtain ⟨a, g, p, ht⟩ := toList_singleton t _ hl2
  refine ⟨s, e, ?_, by decide, by decide⟩
  rw [query_ok (fun x y : Int => min x y) hg, hid, ht]
  simp [nqT, nqlT, nqrT]

/-- C13: the binary-search-tree invariant is preserved by every operation.
If the container holds a tree in which, at every node, the keys of the left
subtree are less than the node's key and the keys of the right subtree are
greater, then `set(k, v)`, for every `k`, `v` and every priority of the new
node, and `erase(k)`, for every `k`, return, and the tree the container then
holds has the same property; so has the tree of the empty map. -/
theorem bst_invariant_preserved (aug : V → V → V) (s : Treemap K V) (t : Tree K V)
    (hs : Stored s t) (hb : BST t) :
    (∀ k v prio, ∃ s2 t2, set aug s k v prio = Except.ok s2 ∧ Stored s2 t2 ∧ BST t2 ∧
      t2.toList = specSet k v t.toList) ∧
    (∀ k, ∃ s2 t2, erase aug s k = Except.ok s2 ∧ Stored s2 t2 ∧ BST t2 ∧
      t2.toList = specErase k t.toList) ∧
    (Stored (empty s.id : Treemap K V) Tree.nil ∧ BST (Tree.nil : Tree K V)) := by
  have hg : Good s t := good_iff.2 ⟨hs, hb⟩
  refine ⟨fun k v prio => ?_, fun k => ?_, (good_iff.1 (empty_good s.id)).1, trivial⟩
  · obtain ⟨s2, e, hg2, -, hl⟩ := set_good aug hg k v prio
    exact ⟨s2, _, e, (good_iff.1 hg2).1, (good_iff.1 hg2).2, hl⟩
  · obtain ⟨s2, e, hg2, -, hl⟩ := erase_good aug hg k
    exact ⟨s2, _, e, (good_iff.1 hg2).1, (good_iff.1 hg2).2, hl⟩

/-- Witness of C13: the map of the three keys 1, 2, 3. -/
theorem bst_invariant_preserved_witness :
    Stored demoMap demoTree ∧ BST demoTree ∧
    (∀ k v prio, ∃ s2 t2, set (fun x y : Int => x + y) demoMap k v prio = Except.ok s2 ∧
      Stored s2 t2 ∧ BST t2 ∧ t2.toList = specSet k v demoTree.toList) ∧
    (∀ k, ∃ s2 t2, erase (fun x y : Int => x + y) demoMap k = Except.ok s2 ∧
      Stored s2 t2 ∧ BST t2 ∧ t2.toList = specErase k demoTree.toList) ∧
    (Stored (empty demoMap.id : Treemap Int Int) Tree.nil ∧ BST (Tree.nil : Tree Int Int)) :=
  ⟨(good_iff.1 demo_good).1, (good_iff.1 demo_good).2,
    bst_invariant_preserved (fun x y : Int => x + y) demoMap demoTree
      (good_iff.1 demo_good).1 (good_iff.1 demo_good).2⟩

/-- C14: the heap invariant is preserved by every operation, for arbitrary
priorities, equal ones included.  If the container holds a tree in which the
priority of every node is at least the priority of each of its children, then
`set(k, v)`, whatever priority the new node receives, and `erase(k)` return,
and the tree the container then holds has the same property. -/
theorem heap_invariant_preserved (aug : V → V → V) (s : Treemap K V) (t : Tree K V)
    (hg : Good s t) (hh : HeapOrdered t) :
    (∀ k v prio, ∃ s2 t2, set aug s k v prio = Except.ok s2 ∧ Good s2 t2 ∧ HeapOrdered t2 ∧
      t2.toList = specSet k v t.toList) ∧
    (∀ k, ∃ s2 t2, erase aug s k = Except.ok s2 ∧ Good s2 t2 ∧ HeapOrdered t2 ∧
      t2.toList = specErase k t.toList) := by
  refine ⟨fun k v prio => ?_, fun k => ?_⟩
  · obtain ⟨s2, e, hg2, -, hl⟩ := set_good aug hg k v prio
    exact ⟨s2, _, e, hg2, heapOrdered_setT aug t hh k v prio s.brk, hl⟩
  · obtain ⟨s2, e, hg2, -, hl⟩ := erase_good aug hg k
    exact ⟨s2, _, e, hg2, heapOrdered_eraseT aug (s.brk + 1) t hh k, hl⟩

/-- Witness of C14: the map of the two keys 1 and 3 whose nodes have the same
priority 5. -/
theorem heap_invariant_preserved_witness :
    Good tieMap tieTree ∧ HeapOrdered tieTree ∧ tieTree.prios = [5, 5] ∧
    (∀ k v prio, ∃ s2 t2, set (fun x y : Int => x + y) tieMap k v prio = Except.ok s2 ∧
      Good s2 t2 ∧ HeapOrdered t2 ∧ t2.toList = specSet k v tieTree.toList) ∧
    (∀ k, ∃ s2 t2, erase (fun x y : Int => x + y) tieMap k = Except.ok s2 ∧
      Good s2 t2 ∧ HeapOrdered t2 ∧ t2.toList = specErase k tieTree.toList) :=
  ⟨tie_good, tie_heapOrdered, rfl,
    heap_invariant_preserved (fun x y : Int => x + y) tieMap tieTree tie_good
      tie_heapOrdered⟩

/-- C15: augment coherence is preserved by every operation.  For an
associative combiner that has the identity of the container as two-sided
identity: if in the tree the container holds the cached augment of every node
is `combine(combine(left.augment, value), right.augment)`, the identity
standing for an absent child, then `set(k, v)` and `erase(k)` return, and
every node of the tree the container then holds satisfies the same equation,
the nodes moved by rotations and by `merge` included. -/
theorem augment_coherence_preserved (aug : V → V → V) (s : Treemap K V) (t : Tree K V)
    (hassoc : ∀ x y z, aug (aug x y) z = aug x (aug y z))
    (hidl : ∀ x, aug s.id x = x) (hidr : ∀ x, aug x s.id = x)
    (hg : Good s t) (hc : CoherentId aug s.id t) :
    (∀ k v prio, ∃ s2 t2, set aug s k v prio = Except.ok s2 ∧ Good s2 t2 ∧ s2.id = s.id ∧
      CoherentId aug s2.id t2 ∧ t2.toList = specSet k v t.toList) ∧
    (∀ k, ∃ s2 t2, erase aug s k = Except.ok s2 ∧ Good s2 t2 ∧ s2.id = s.id ∧
      CoherentId aug s2.id t2 ∧ t2.toList = specErase k t.toList) := by
  have hc2 := (coherentId_iff aug s.id hidl hidr t).1 hc
  refine ⟨fun k v prio => ?_, fun k => ?_⟩
  · obtain ⟨s2, e, hg2, hid, hl⟩ := set_good aug hg k v prio
    refine ⟨s2, _, e, hg2, hid, ?_, hl⟩
    rw [hid]
    exact (coherentId_iff aug s.id hidl hidr _).2 (coherent_setT aug hassoc t hc2 k v prio s.brk)
  · obtain ⟨s2, e, hg2, hid, hl⟩ := erase_good aug hg k
    refine ⟨s2, _, e, hg2, hid, ?_, hl⟩
    rw [hid]
    exact (coherentId_iff aug s.id hidl hidr _).2 (coherent_eraseT aug (s.brk + 1) t hc2 k)

/-- Witness of C15: the map of the three keys 1, 2, 3 with the items 10, 20,
30 and addition; the cached augments are 10, 60 and 30. -/
theorem augment_coherence_preserved_witness :
    Good demoMap demoTree ∧ CoherentId (fun x y : Int => x + y) demoMap.id demoTree ∧
    (∀ k v prio, ∃ s2 t2, set (fun x y : Int => x + y) demoMap k v prio = Except.ok s2 ∧
      Good s2 t2 ∧ s2.id = demoMap.id ∧ CoherentId (fun x y : Int => x + y) s2.id t2 ∧
      t2.toList = specSet k v demoTree.toList) ∧
    (∀ k, ∃ s2 t2, erase (fun x y : Int => x + y) demoMap k = Except.ok s2 ∧
      Good s2 t2 ∧ s2.id = demoMap.id ∧ CoherentId (fun x y : Int => x + y) s2.id t2 ∧
      t2.toList = specErase k demoTree.toList) :=
  ⟨demo_good, demo_coherentId,
    augment_coherence_preserved (fun x y : Int => x + y) demoMap demoTree
      (fun x y z => Int.add_assoc x y z) (fun x => Int.zero_add x) (fun x => Int.add_zero x)
      demo_good demo_coherentId⟩

/-- C16: parent consistency is preserved by every operation.  If the child
pointers of the container store a tree and, among its nodes, a node `c` has
parent `p` exactly when `c` is the left or the right child of `p`, the root
pointer designating the one node without parent, then `set(k, v)` and
`erase(k)` return and the same holds of all nodes of the tree the container
then holds; the root pointer is null when that tree is empty. -/
theorem parent_consistency_preserved (aug : V → V → V) (s : Treemap K V) (t : Tree K V)
    (hl : Linked s t) (hb : BST t) (hpc : ParentConsistent s t.addrs) :
    (∀ k v prio, ∃ s2 t2, set aug s k v prio = Except.ok s2 ∧ Linked s2 t2 ∧
      ParentConsistent s2 t2.addrs ∧ t2.toList = specSet k v t.toList) ∧
    (∀ k, ∃ s2 t2, erase aug s k = Except.ok s2 ∧ Linked s2 t2 ∧
      ParentConsistent s2 t2.addrs ∧ t2.toList = specErase k t.toList) := by
  have hg := good_of_linked hl hb hpc
  refine ⟨fun k v prio => ?_, fun k => ?_⟩
  · obtain ⟨s2, e, hg2, -, hl2⟩ := set_good aug hg k v prio
    exact ⟨s2, _, e, (linked_of_good hg2).1, (linked_of_good hg2).2, hl2⟩
  · obtain ⟨s2, e, hg2, -, hl2⟩ := erase_good aug hg k
    exact ⟨s2, _, e, (linked_of_good hg2).1, (linked_of_good hg2).2, hl2⟩

/-- Witness of C16: the map of the three keys 1, 2, 3; the nodes at the
addresses 1 and 2 have the parent 0, and the node at 0, the root, has none. -/
theorem parent_consistency_preserved_witness :
    Linked demoMap demoTree ∧ BST demoTree ∧ ParentConsistent demoMap demoTree.addrs ∧
    (∀ k v prio, ∃ s2 t2, set (fun x y : Int => x + y) demoMap k v prio = Except.ok s2 ∧
      Linked s2 t2 ∧ ParentConsistent s2 t2.addrs ∧ t2.toList = specSet k v demoTree.toList) ∧
    (∀ k, ∃ s2 t2, erase (fun x y : Int => x + y) demoMap k = Except.ok s2 ∧
      Linked s2 t2 ∧ ParentConsistent s2 t2.addrs ∧ t2.toList = specErase k demoTree.toList) :=
  ⟨(linked_of_good demo_good).1, (good_iff.1 demo_good).2, (linked_of_good demo_good).2,
    parent_consistency_preserved (fun x y : Int => x + y) demoMap demoTree
      (linked_of_good demo_good).1 (good_iff.1 demo_good).2 (linked_of_good demo_good).2⟩

/-- C17: for two stored subtrees `a` and `b`, either of which may be empty,
that each satisfy the heap invariant, every key of `a` being less than every
key of `b`, `merge(a, b)` returns, given fuel for its recursion, the root of a
stored subtree that satisfies the heap invariant and whose pairs, in order,
are those of `a` followed by those of `b`; it satisfies the
binary-search-tree invariant when `a` and `b` do. -/
theorem merge_heap_and_order (aug : V → V → V) (fuel : Nat) (m : Mem K V)
    (t1 t2 : Tree K V) (p1 p2 : Ptr)
    (hf : t1.count + t2.count < fuel) (h1 : Rep m p1 t1) (h2 : Rep m p2 t2)
    (hnd : (t1.addrs ++ t2.addrs).Nodup)
    (hh1 : HeapOrdered t1) (hh2 : HeapOrdered t2)
    (hk : ∀ x ∈ t1.toList, ∀ y ∈ t2.toList, x.1 < y.1) :
    ∃ m2 t p, merge aug fuel m t1.ptr t2.ptr = Except.ok (m2, t.ptr) ∧ Rep m2 p t ∧
      HeapOrdered t ∧ t.toList = t1.toList ++ t2.toList ∧ (BST t1 → BST t2 → BST t) := by
  obtain ⟨m2, p, e, hr, -⟩ := merge_ok aug fuel m t1 t2 p1 p2 hf h1 h2 hnd
  refine ⟨m2, _, p, e, hr, heapOrdered_mergeT aug fuel t1 t2 hh1 hh2,
    mergeT_toList aug fuel t1 t2 hf, fun hb1 hb2 => ?_⟩
  rw [bst_iff, mergeT_toList aug fuel t1 t2 hf]
  rw [bst_iff] at hb1 hb2
  unfold KeysIncreasing at hb1 hb2 ⊢
  exact List.pairwise_append.2 ⟨hb1, hb2, hk⟩

/-- Witness of C17: the two children of the root of the map of the keys 1,
2, 3 are merged; the node of key 3, of priority 7, wins over the node of key
1, of priority 5. -/
theorem merge_heap_and_order_witness :
    ∃ m2 t p, merge (fun x y : Int => x + y) 3 demoMem (some 1) (some 2) =
        Except.ok (m2, t.ptr) ∧ Rep m2 p t ∧
      HeapOrdered t ∧ t.toList = [(1, 10), (3, 30)] ∧ t.ptr = some 2 := by
  obtain ⟨m2, t, p, e, hr, hh, hl, -⟩ :=
    merge_heap_and_order (fun x y : Int => x + y) 3 demoMem
      (Tree.node 1 Tree.nil (1, 10) 10 5 Tree.nil) (Tree.node 2 Tree.nil (3, 30) 30 7 Tree.nil)
      (some 0) (some 0) (by decide) ⟨rfl, trivial, trivial⟩ ⟨rfl, trivial, trivial⟩
      (by decide) (leaf_heapOrdered _ _ _ _) (leaf_heapOrdered _ _ _ _) (by decide)
  refine ⟨m2, t, p, e, hr, hh, hl, ?_⟩
  have e2 : merge (fun x y : Int => x + y) 3 demoMem (some 1) (some 2) =
      Except.ok (m2, t.ptr) := e
  have hp : (merge (fun x y : Int => x + y) 3 demoMem (some 1) (some 2)).map Prod.snd =
      Except.ok (some 2) := by rfl
  rw [e2] at hp
  simpa [Except.map] using hp

/-- C18: on every map reached by calls of `set` and `erase`, for every
stored key `k` and every item `v`, `set(k, v)` makes no structural change.
The root pointer, `size()` and the set of allocated nodes are those of
before; every node keeps its `left`, `right` and `parent` pointers, its key
and its priority; the item changes in the node of `k` only, the node `find`
returns, where it becomes `v`; and the cached augment changes at most in that
node and in the nodes reached from it by the parent pointers, its
ancestors. -/
theorem set_of_stored_key_keeps_structure (aug : V → V → V) (id : V) (ops : List (Op K V))
    (k : K) (w v : V) (prio : Nat) (hk : (k, w) ∈ specRun ops) :
    ∃ s s2 b, run aug id ops = Except.ok s ∧ find s k = Except.ok (some b) ∧
      (∃ n, s.mem b = some n ∧ n.value.1 = k) ∧
      set aug s k v prio = Except.ok s2 ∧
      s2.root = s.root ∧ size s2 = size s ∧ s2.brk = s.brk ∧
      ∀ a, (s.mem a = none → s2.mem a = none) ∧
        ∀ n, s.mem a = some n → ∃ v2 g2,
          s2.mem a = some { n with value := (n.value.1, v2), augment := g2 } ∧
          (a = b → v2 = v) ∧ (a ≠ b → v2 = n.value.2) ∧
          (a ≠ b → a ∉ ancestors s.mem (s.brk + 1) b → g2 = n.augment) := by
  obtain ⟨s, t, e, hg, -, hl, -⟩ := run_good aug id ops
  have hfind := find_node_ok hg k
  have hcnt := hg.count_le
  have hsearch := set_search_ok k (c := []) hg.rep (by omega : t.count < s.brk + 1)
  have hspec := descend_spec k t hg.sorted
  rcases hd : descend k [] t with ⟨c, t2⟩
  rw [hd] at hfind hsearch hspec
  cases t2 with
  | nil =>
    simp only at hspec
    rw [hl] at hspec
    exact absurd hk (fun h => (specGet_eq_none k _).1 hspec _ h rfl)
  | node b l kv g p r =>
    obtain ⟨s2, e2, -⟩ := set_found_ok aug hg k v prio hd
    have hcell := descend_cell k hg.rep hd
    refine ⟨s, s2, b, e, hfind, ⟨_, hcell, descend_key k [] t (by rw [hd])⟩, e2, ?_⟩
    simp only [Tree.ptr_node, ctxPtr_nil] at hsearch
    rw [← hg.root] at hsearch
    simp only [set, hsearch, ok_bind, setItem_ok hcell] at e2
    cases hu : update_node aug (s.mem.write b
        { (TreapNode.mk l.ptr r.ptr (ctxPtr c) kv g p) with value := (kv.1, v) }) b with
    | error err => simp [hu, error_bind] at e2
    | ok m2 =>
      simp only [hu, ok_bind] at e2
      cases hua : update_ancestors aug (s.brk + 1) m2 b with
      | error err => simp [hua, error_bind] at e2
      | ok m3 =>
        simp only [hua, ok_bind, pure_eq_ok, Except.ok.injEq] at e2
        subst e2
        refine ⟨rfl, rfl, rfl, fun a => ?_⟩
        have w1 := update_node_writes aug hu
        have w2 := update_ancestors_writes aug (s.brk + 1) hua
        rw [ancestors_congr w1 (s.brk + 1) b] at w2
        have hpar : ∀ x, ((s.mem.write b
            { (TreapNode.mk l.ptr r.ptr (ctxPtr c) kv g p) with value := (kv.1, v) }) x).map
              TreapNode.parent = (s.mem x).map TreapNode.parent := by
          intro x
          by_cases hx : x = b
          · rw [hx, write_same, hcell]; rfl
          · rw [write_other _ _ hx]
        rw [ancestors_congr_parent hpar (s.brk + 1) b] at w2
        have w12 := augmentsOnly_trans
          (augmentsOnly_mono w1 (fun x hx => by
            rw [List.mem_singleton.1 hx]; exact List.mem_cons_self _ _))
          (augmentsOnly_mono w2 (fun x hx => List.mem_cons_of_mem b hx))
        obtain ⟨hout, hin⟩ := w12 a
        by_cases hab : a = b
        · subst hab
          rw [write_same] at hin
          obtain ⟨g2, hg2⟩ := hin
          refine ⟨fun h => ?_, fun n hn => ?_⟩
          · rw [hcell] at h; cases h
          · rw [hcell] at hn
            cases hn
            exact ⟨v, g2, hg2, fun _ => rfl, fun h => absurd rfl h, fun h => absurd rfl h⟩
        · rw [write_other _ _ hab] at hin hout
          refine ⟨fun h => ?_, fun n hn => ?_⟩
          · rw [h] at hin
            exact hin
          · rw [hn] at hin hout
            obtain ⟨g2, hg2⟩ := hin
            refine ⟨n.value.2, g2, hg2, fun h => absurd h hab, fun _ => rfl, fun _ hanc => ?_⟩
            have h3 := hout (by simp [hab, hanc])
            rw [hg2] at h3
            simp only [Option.some.injEq] at h3
            exact congrArg TreapNode.augment h3

/-- Witness of C18: after `set(1, 10)` and `set(2, 20)`, the stored key 1 is set
to 11. -/
theorem set_of_stored_key_keeps_structure_witness :
    (((1 : Int), (10 : Int)) ∈ specRun [Op.set (1 : Int) (10 : Int) 5, Op.set 2 20 7]) ∧
    ∃ s s2 b, run (fun x y : Int => x + y) 0 [Op.set (1 : Int) (10 : Int) 5, Op.set 2 20 7] =
        Except.ok s ∧ find s 1 = Except.ok (some b) ∧
      (∃ n, s.mem b = some n ∧ n.value.1 = 1) ∧
      set (fun x y : Int => x + y) s 1 11 0 = Except.ok s2 ∧
      s2.root = s.root ∧ size s2 = size s ∧ s2.brk = s.brk ∧
      ∀ a, (s.mem a = none → s2.mem a = none) ∧
        ∀ n, s.mem a = some n → ∃ v2 g2,
          s2.mem a = some { n with value := (n.value.1, v2), augment := g2 } ∧
          (a = b → v2 = 11) ∧ (a ≠ b → v2 = n.value.2) ∧
          (a ≠ b → a ∉ ancestors s.mem (s.brk + 1) b → g2 = n.augment) :=
  ⟨by decide,
    set_of_stored_key_keeps_structure (fun x y : Int => x + y) 0
      [Op.set (1 : Int) (10 : Int) 5, Op.set 2 20 7] 1 10 11 0 (by decide)⟩

/-- C19: commutativity of the combiner is not needed.  For a combiner that
is associative and has the constructor's identity as two-sided identity, on
every map reached from the empty map by calls of `set` and `erase` and for
all `lo`, `hi`, `query(lo, hi)` returns the combiner folded from the left over
the items of the stored keys in `[lo, hi]`, taken in increasing key order. -/
theorem query_needs_no_commutativity (aug : V → V → V) (id : V)
    (hassoc : ∀ x y z, aug (aug x y) z = aug x (aug y z))
    (hidl : ∀ x, aug id x = x) (hidr : ∀ x, aug x id = x)
    (ops : List (Op K V)) (lo hi : K) :
    ∃ s, run aug id ops = Except.ok s ∧
      query aug s lo hi = Except.ok (foldAug aug id (rangeItems lo hi (specRun ops))) ∧
      KeysIncreasing (specRun ops) := by
  obtain ⟨s, t, e, hg, hid, hl, hc⟩ := run_good aug id ops
  refine ⟨s, e, ?_, specRun_increasing ops⟩
  rw [query_ok aug hg, hid, nqT_spec aug id hassoc hidl hidr t (hc hassoc) hg.sorted, hl]

/-- Witness of C19: concatenation of lists, which is not commutative; the
keys are inserted in the order 2, 1, 3 and the query over `[1, 2]` returns the
items of the keys 1 and 2 in key order. -/
theorem query_needs_no_commutativity_witness :
    ∃ s, run (fun x y : List Nat => x ++ y) []
        [Op.set (2 : Int) [20] 5, Op.set 1 [10] 7, Op.set 3 [30] 6] = Except.ok s ∧
      query (fun x y : List Nat => x ++ y) s 1 2 = Except.ok [10, 20] ∧
      (fun x y : List Nat => x ++ y) [20] [10] ≠ (fun x y : List Nat => x ++ y) [10] [20] := by
  obtain ⟨s, e, hq, -⟩ := query_needs_no_commutativity (fun x y : List Nat => x ++ y) []
    (fun x y z => List.append_assoc x y z) (fun x => List.nil_append x)
    (fun x => List.append_nil x)
    [Op.set (2 : Int) [20] 5, Op.set 1 [10] 7, Op.set 3 [30] 6] 1 2
  have hval : foldAug (fun x y : List Nat => x ++ y) [] (rangeItems 1 2
      (specRun [Op.set (2 : Int) [20] 5, Op.set 1 [10] 7, Op.set 3 [30] 6])) = [10, 20] := by
    decide
  rw [hval] at hq
  exact ⟨s, e, hq, by decide⟩

/-- C20: `erase` undoes `set` when the priorities are pairwise distinct.  If
the container holds a tree that satisfies the binary-search-tree, heap and
augment-coherence invariants and whose priorities are pairwise distinct, the
identity of the container being a two-sided identity of the combiner, then for
every key `k` that is not stored, every item `v` and every priority of the new
node, `set(k, v)` followed by `erase(k)` returns a container that holds the
very same tree, with the same shape, keys, items, priorities and cached
augments at the same nodes, the same root and the same `size()`.  The
priorities have to be distinct: in the map of the keys 1 and 3 with equal
priorities, `set(2, 0)` followed by `erase(2)` moves the root. -/
theorem erase_undoes_set (aug : V → V → V) (s : Treemap K V) (t : Tree K V)
    (hidl : ∀ x, aug s.id x = x) (hidr : ∀ x, aug x s.id = x)
    (hg : Good s t) (hb : BST t) (hh : HeapOrdered t) (hc : CoherentId aug s.id t)
    (hd : t.prios.Nodup) (k : K) (v : V) (prio : Nat) (hk : ∀ kv ∈ t.toList, kv.1 ≠ k) :
    (∃ s2 s3, set aug s k v prio = Except.ok s2 ∧ erase aug s2 k = Except.ok s3 ∧
      Good s3 t ∧ s3.root = s.root ∧ size s3 = size s ∧ ∀ a ∈ t.addrs, s3.mem a = s.mem a) ∧
    (Good tieMap tieTree ∧ HeapOrdered tieTree ∧
      CoherentId (fun x y : Int => x + y) tieMap.id tieTree ∧ tieTree.prios = [5, 5] ∧
      ∃ s2 s3, set (fun x y : Int => x + y) tieMap 2 0 9 = Except.ok s2 ∧
        erase (fun x y : Int => x + y) s2 2 = Except.ok s3 ∧ s3.root ≠ tieMap.root) := by
  have _ := hb
  constructor
  · obtain ⟨s2, e2, hg2, -, -⟩ := set_good aug hg k v prio
    obtain ⟨s3, e3, hg3, -, -⟩ := erase_good aug hg2 k
    have hcnt2 := hg2.count_le
    have hsc := setT_count aug t hg.sorted k v prio s.brk
    rw [(specGet_eq_none k t.toList).2 hk] at hsc
    simp only [Option.isSome_none, Bool.false_eq_true, if_false] at hsc
    have hco := (coherentId_iff aug s.id hidl hidr t).1 hc
    rw [eraseT_setT aug t hg.sorted hh hco hd k v prio s.brk hk (s2.brk + 1) (by omega)] at hg3
    refine ⟨s2, s3, e2, e3, hg3, ?_, ?_, rep_determines hg.rep hg3.rep⟩
    · rw [hg3.root, hg.root]
    · simp only [size]
      rw [hg3.size, hg.size]
  · refine ⟨tie_good, by simp [tieTree, HeapOrdered, Tree.prioLe],
      by simp [tieTree, tieMap, CoherentId, Tree.total], rfl, ?_⟩
    obtain ⟨s2, e2, hg2, -, -⟩ := set_good (fun x y : Int => x + y) tie_good 2 0 9
    obtain ⟨s3, e3, -, -, -⟩ := erase_good (fun x y : Int => x + y) hg2 2
    refine ⟨s2, s3, e2, e3, ?_⟩
    have h : (set (fun x y : Int => x + y) tieMap 2 0 9 >>= fun s2 =>
        erase (fun x y : Int => x + y) s2 2).map Treemap.root = Except.ok (some 1) := by rfl
    rw [e2] at h
    simp only [ok_bind] at h
    rw [e3] at h
    simp only [Except.map, Except.ok.injEq] at h
    rw [h]
    decide

/-- Witness of C20: in the map of the keys 1, 2, 3, whose priorities are 5, 9
and 7, the key 0 is set with priority 8 and erased. -/
theorem erase_undoes_set_witness :
    Good demoMap demoTree ∧ BST demoTree ∧ HeapOrdered demoTree ∧
    CoherentId (fun x y : Int => x + y) demoMap.id demoTree ∧ demoTree.prios.Nodup ∧
    (∀ kv ∈ demoTree.toList, kv.1 ≠ 0) ∧
    ∃ s2 s3, set (fun x y : Int => x + y) demoMap 0 5 8 = Except.ok s2 ∧
      erase (fun x y : Int => x + y) s2 0 = Except.ok s3 ∧
      Good s3 demoTree ∧ s3.root = demoMap.root ∧ size s3 = size demoMap ∧
      ∀ a ∈ demoTree.addrs, s3.mem a = demoMap.mem a :=
  ⟨demo_good, (good_iff.1 demo_good).2, demo_heapOrdered, demo_coherentId, by decide, by decide,
    (erase_undoes_set (fun x y : Int => x + y) demoMap demoTree (fun x => Int.zero_add x)
      (fun x => Int.add_zero x) demo_good (good_iff.1 demo_good).2 demo_heapOrdered
      demo_coherentId (by decide) 0 5 8 (by decide)).1⟩

end Claims2

end AugTreemap
